import Mathlib

/-!
# Ledger traversal (`btcb/secure/blockstore.cpp`) and vote batching (`btcb/node/voting.cpp`)

A shallow embedding of `summation_visitor` (balance / amount computation over the
block lattice), of `representative_visitor` and of the sequential logic of
`vote_generator`, followed by theorems about them.

Conventions of the embedding:

* 256-bit hashes are natural numbers; the code only tests them for zero and equality.
* 128-bit quantities are natural numbers; every addition is followed by `% 2 ^ 128`.
  Balance fields of blocks have the type `amount`, whose values are below `2 ^ 128`.
* The frame stack is a list whose head is `frames.top ()`.
* `while` loops take a fuel argument; running out of fuel is the outcome `out_of_fuel`,
  distinct from every outcome the program can have.
* `assert` follows the C++ macro: it aborts when assertions are compiled in and does
  nothing under `NDEBUG`.
* The worker of `vote_generator` is followed along a schedule that gives, for each
  iteration of its loop, the clock reading and the calls other threads make while the
  lock is released; threads themselves are not represented.
-/

namespace btcb

/-- A block hash (`uint256_union`): zero is the distinguished "no hash" value. -/
abbrev block_hash := Nat

/-- A 128-bit balance as stored in a block (`btcb::amount`); `.val` is `number ()`. -/
abbrev amount := Fin (2 ^ 128)

/-- The value `std::numeric_limits<btcb::uint128_t>::max ()`. -/
def uint128_max : Nat := 2 ^ 128 - 1

/-- Modelled from the spec: the Send variant (its class is declared outside the given
sources); `hash` stands for the content-derived `hash ()`. -/
structure send_block where
  hash : block_hash
  previous : block_hash
  destination : Nat := 0
  balance : amount
deriving DecidableEq, Repr

/-- Modelled from the spec: the Receive variant. -/
structure receive_block where
  hash : block_hash
  previous : block_hash
  source : block_hash
deriving DecidableEq, Repr

/-- Modelled from the spec: the Open variant (no `previous` link). -/
structure open_block where
  hash : block_hash
  source : block_hash
  representative : Nat := 0
  account : Nat := 0
deriving DecidableEq, Repr

/-- Modelled from the spec: the Change variant. -/
structure change_block where
  hash : block_hash
  previous : block_hash
  representative : Nat := 0
deriving DecidableEq, Repr

/-- Modelled from the spec: the State variant, which records its balance directly. -/
structure state_block where
  hash : block_hash
  account : Nat := 0
  previous : block_hash
  representative : Nat := 0
  balance : amount
  link : Nat := 0
deriving DecidableEq, Repr

/-- Modelled from the spec: a block is one of the five variants. -/
inductive block where
  | send_block (b : send_block)
  | receive_block (b : receive_block)
  | open_block (b : open_block)
  | change_block (b : change_block)
  | state_block (b : state_block)
deriving DecidableEq, Repr

/-- The block's own hash, `block::hash ()`. -/
def block.hash : block → block_hash
  | .send_block b => b.hash
  | .receive_block b => b.hash
  | .open_block b => b.hash
  | .change_block b => b.hash
  | .state_block b => b.hash

/-- Modelled from the spec: cached per-block information, keyed by block hash. -/
structure block_info where
  account : Nat := 0
  balance : amount
deriving DecidableEq, Repr

/-- Modelled from the spec: the block store is an external collaborator read through
`block_get` and `block_info_get` (absent is `none`). The zero hash is the reserved
"no hash" value, so no block is stored under it. The read transaction is a snapshot
handle and is not represented. -/
structure block_store where
  block_get : block_hash → Option block
  block_info_get : block_hash → Option block_info
  zero_absent : block_get 0 = none

/-- Constants and build settings the translation unit takes from elsewhere:
`btcb::genesis_account`, `btcb::genesis_amount`, and whether `assert` is compiled out
(`NDEBUG`). -/
structure parameters where
  genesis_account : block_hash
  genesis_amount : amount
  ndebug : Bool

/-- Ways in which a traversal stops without returning. -/
inductive fault where
  | assertion_failed
  | null_dereference
deriving DecidableEq, Repr

/-- Result of running a loop with a fuel bound. -/
inductive outcome (α : Type) where
  | returned (a : α)
  | aborted (f : fault)
  | out_of_fuel
deriving DecidableEq, Repr

/-- Apply a function to a returned value. -/
def outcome.map {α β : Type} (f : α → β) : outcome α → outcome β
  | .returned a => .returned (f a)
  | .aborted e => .aborted e
  | .out_of_fuel => .out_of_fuel

/-- What a failed `assert (block != nullptr); block->visit (...)` does: abort at the
assertion, or dereference the null pointer when assertions are compiled out. -/
def missing_block (p : parameters) : fault :=
  if p.ndebug then fault.null_dereference else fault.assertion_failed

/-! ## summation_visitor -/

/-- Modelled from the spec: the kind tag of a frame (`summation_type`). -/
inductive summation_type where
  | invalid
  | balance
  | amount
deriving DecidableEq, Repr

/-- Modelled from the spec: an invocation frame; a new frame has `sum = 0`, no pending
result and `incoming_result = 0`. -/
structure frame where
  type : summation_type
  sum : Nat := 0
  balance_hash : block_hash
  amount_hash : block_hash
  awaiting_result : Bool := false
  incoming_result : Nat := 0
deriving DecidableEq, Repr

/-- The mutable members of `summation_visitor`: `result`, the frame stack (head is the
top), and a ghost log `block_gets` of every hash passed to `store.block_get`, oldest
first. `current` is the top frame when an iteration starts; the loop body below keeps
it as a local value. -/
structure summation_visitor where
  result : Nat
  frames : List frame
  block_gets : List block_hash
deriving DecidableEq, Repr

/-- Modelled from the spec: a freshly constructed visitor (`result` starts at 0, the
stack is empty). -/
def summation_visitor.fresh : summation_visitor :=
  { result := 0, frames := [], block_gets := [] }

/-- The frame built by `frames.emplace (type_a, balance ? hash_a : 0, amount ? hash_a : 0)`. -/
def new_frame (type_a : summation_type) (hash_a : block_hash) : frame :=
  { type := type_a
    balance_hash := if type_a = summation_type.balance then hash_a else 0
    amount_hash := if type_a = summation_type.amount then hash_a else 0 }

/-- `summation_visitor::push`. -/
def summation_visitor.push (v : summation_visitor) (type_a : summation_type)
    (hash_a : block_hash) : summation_visitor :=
  { v with frames := new_frame type_a hash_a :: v.frames }

/-- `sum_add`: `current->sum += addend_a; result = current->sum;` on 128 bits.
Returns the updated current frame and the new `result`. -/
def sum_add (cur : frame) (addend_a : Nat) : frame × Nat :=
  ({ cur with sum := (cur.sum + addend_a) % 2 ^ 128 }, (cur.sum + addend_a) % 2 ^ 128)

/-- `sum_set`: `current->sum = value_a; result = current->sum;`. -/
def sum_set (cur : frame) (value_a : Nat) : frame × Nat :=
  ({ cur with sum := value_a }, value_a)

namespace summation_visitor

/-- `summation_visitor::send_block` on the current frame and `result`. (The leading
assert of every handler cannot fire: handlers are only reached from the balance and
amount branches of `compute_internal`.) -/
def send_block (block_a : btcb.send_block) (cur : frame) : frame × Nat :=
  if cur.type = summation_type.amount then
    let x := sum_set cur block_a.balance.val
    ({ x.1 with balance_hash := block_a.previous, amount_hash := 0 }, x.2)
  else
    let x := sum_add cur block_a.balance.val
    ({ x.1 with balance_hash := 0 }, x.2)

/-- `summation_visitor::state_block`. -/
def state_block (block_a : btcb.state_block) (cur : frame) : frame × Nat :=
  let x := sum_set cur block_a.balance.val
  if cur.type = summation_type.amount then
    ({ x.1 with balance_hash := block_a.previous, amount_hash := 0 }, x.2)
  else
    ({ x.1 with balance_hash := 0 }, x.2)

/-- `summation_visitor::receive_block`; `block_info_get` returning `false` in the
source means the cached info was found. -/
def receive_block (store : block_store) (block_a : btcb.receive_block) (cur : frame)
    (result : Nat) : frame × Nat :=
  if cur.type = summation_type.amount then
    ({ cur with amount_hash := block_a.source }, result)
  else
    match store.block_info_get block_a.hash with
    | some info =>
      let x := sum_add cur info.balance.val
      ({ x.1 with balance_hash := 0 }, x.2)
    | none =>
      ({ cur with amount_hash := block_a.source, balance_hash := block_a.previous }, result)

/-- `summation_visitor::open_block`. -/
def open_block (p : parameters) (block_a : btcb.open_block) (cur : frame)
    (result : Nat) : frame × Nat :=
  if cur.type = summation_type.amount then
    if block_a.source ≠ p.genesis_account then
      ({ cur with amount_hash := block_a.source }, result)
    else
      let x := sum_set cur p.genesis_amount.val
      ({ x.1 with amount_hash := 0 }, x.2)
  else
    ({ cur with amount_hash := block_a.source, balance_hash := 0 }, result)

/-- `summation_visitor::change_block`. -/
def change_block (store : block_store) (block_a : btcb.change_block) (cur : frame)
    (result : Nat) : frame × Nat :=
  if cur.type = summation_type.amount then
    let x := sum_set cur 0
    ({ x.1 with amount_hash := 0 }, x.2)
  else
    match store.block_info_get block_a.hash with
    | some info =>
      let x := sum_add cur info.balance.val
      ({ x.1 with balance_hash := 0 }, x.2)
    | none =>
      ({ cur with balance_hash := block_a.previous }, result)

/-- `block->visit (*this)`: dispatch on the variant. -/
def visit (p : parameters) (store : block_store) (b : block) (cur : frame)
    (result : Nat) : frame × Nat :=
  match b with
  | .send_block x => send_block x cur
  | .receive_block x => receive_block store x cur result
  | .open_block x => open_block p x cur result
  | .change_block x => change_block store x cur result
  | .state_block x => state_block x cur

/-- `summation_visitor::epilogue`, with `cur` the frame `current` points to and `rest`
the frames below it: unless `cur` awaits a result it is popped and its `sum` is stored
in the new top's `incoming_result` (the source reads `current->sum` right after
`frames.pop ()`, when `current` still designates the popped frame). -/
def epilogue (cur : frame) (rest : List frame) : List frame :=
  if cur.awaiting_result then cur :: rest
  else
    match rest with
    | [] => []
    | parent :: below => { parent with incoming_result := cur.sum } :: below

/-- The merge at the top of the balance branch (lines 149-153): a pending result is
added to the frame's sum. -/
def merge_balance (cur : frame) (result : Nat) : frame × Nat :=
  if cur.awaiting_result then
    let y := sum_add cur cur.incoming_result
    ({ y.1 with awaiting_result := false }, y.2)
  else (cur, result)

/-- The merge at the top of the amount branch (lines 176-180): the sum becomes the
difference between itself and the pending result, the larger minus the smaller. -/
def merge_amount (cur : frame) (result : Nat) : frame × Nat :=
  if cur.awaiting_result then
    let y := sum_set cur
      (if cur.sum < cur.incoming_result then cur.incoming_result - cur.sum
       else cur.sum - cur.incoming_result)
    ({ y.1 with awaiting_result := false }, y.2)
  else (cur, result)

/-- The condition of both inner loops (lines 155 and 182). -/
def has_work (cur : frame) : Bool :=
  !cur.awaiting_result && (cur.balance_hash != 0 || cur.amount_hash != 0)

/-- One iteration of the inner loop of the balance branch (lines 157-169), with `cur`
the current frame, `rest` the frames below it and `gets` the log of `block_get` calls:
push an amount frame for `amount_hash`, or fetch and visit the block at
`balance_hash`. -/
def balance_iteration (p : parameters) (store : block_store) (cur : frame) (result : Nat)
    (rest : List frame) (gets : List block_hash) : Except fault summation_visitor :=
  if cur.amount_hash != 0 then
    -- Compute amount
    .ok { result := result
          frames := new_frame summation_type.amount cur.amount_hash ::
            { cur with awaiting_result := true, amount_hash := 0 } :: rest
          block_gets := gets }
  else
    match store.block_get cur.balance_hash with
    | none => .error (missing_block p)
    | some b =>
      let y := visit p store b cur result
      .ok { result := y.2, frames := y.1 :: rest, block_gets := gets ++ [cur.balance_hash] }

/-- One iteration of the inner loop of the amount branch (lines 184-212): fetch the
block at `amount_hash` and visit it (an absent block is the genesis special case or
`assert (false)` followed by `sum_set (0)`), or push a balance frame for
`balance_hash`. -/
def amount_iteration (p : parameters) (store : block_store) (cur : frame) (result : Nat)
    (rest : List frame) (gets : List block_hash) : Except fault summation_visitor :=
  if cur.amount_hash != 0 then
    match store.block_get cur.amount_hash with
    | some b =>
      let y := visit p store b cur result
      .ok { result := y.2, frames := y.1 :: rest, block_gets := gets ++ [cur.amount_hash] }
    | none =>
      if cur.amount_hash = p.genesis_account then
        let y := sum_set cur uint128_max
        .ok { result := y.2, frames := { y.1 with amount_hash := 0 } :: rest,
              block_gets := gets ++ [cur.amount_hash] }
      else if p.ndebug then
        -- assert (false) is compiled out
        let y := sum_set cur 0
        .ok { result := y.2, frames := { y.1 with amount_hash := 0 } :: rest,
              block_gets := gets ++ [cur.amount_hash] }
      else .error fault.assertion_failed
  else
    -- Compute balance
    .ok { result := result
          frames := new_frame summation_type.balance cur.balance_hash ::
            { cur with awaiting_result := true, balance_hash := 0 } :: rest
          block_gets := gets }

/-- One pass of the invocation loop of `compute_internal` on a non-empty stack, cut at
each iteration of the inner `while`: the merge of a pending result, then either one
iteration of the inner loop or, when the inner loop's condition is false,
`epilogue ()`. After a visit the inner loop goes on with the same `current`;
re-entering here does the same, because the merge is skipped (`awaiting_result` is
false) and the same condition is tested. After a push `epilogue ()` leaves the stack
alone (`current` awaits a result) and the outer loop continues with the child on top.
A frame of type `invalid` fails the assert of line 145, or is left as it is when the
assert is compiled out. -/
def step (p : parameters) (store : block_store) (v : summation_visitor) :
    Except fault summation_visitor :=
  match v.frames with
  | [] => .ok v
  | cur :: rest =>
    match cur.type with
    | .invalid => if p.ndebug then .ok v else .error fault.assertion_failed
    | .balance =>
      let x := merge_balance cur v.result
      if has_work x.1 then balance_iteration p store x.1 x.2 rest v.block_gets
      else .ok { v with result := x.2, frames := epilogue x.1 rest }
    | .amount =>
      let x := merge_amount cur v.result
      if has_work x.1 then amount_iteration p store x.1 x.2 rest v.block_gets
      else .ok { v with result := x.2, frames := epilogue x.1 rest }

/-- The loop `while (frames.size () > 0) { ... }` of `compute_internal`, with fuel. -/
def loop (p : parameters) (store : block_store) :
    Nat → summation_visitor → outcome summation_visitor
  | 0, v => if v.frames.isEmpty then .returned v else .out_of_fuel
  | fuel + 1, v =>
    if v.frames.isEmpty then .returned v
    else
      match step p store v with
      | .error e => .aborted e
      | .ok v1 => loop p store fuel v1

/-- `summation_visitor::compute_internal`: push the first frame and run the loop. The
returned visitor's `result` is the value the source returns. -/
def compute_internal (p : parameters) (store : block_store) (fuel : Nat)
    (v : summation_visitor) (type_a : summation_type) (hash_a : block_hash) :
    outcome summation_visitor :=
  loop p store fuel (v.push type_a hash_a)

/-- `summation_visitor::compute_amount`. -/
def compute_amount (p : parameters) (store : block_store) (fuel : Nat)
    (v : summation_visitor) (block_hash : btcb.block_hash) : outcome Nat :=
  (compute_internal p store fuel v summation_type.amount block_hash).map
    summation_visitor.result

/-- `summation_visitor::compute_balance`. -/
def compute_balance (p : parameters) (store : block_store) (fuel : Nat)
    (v : summation_visitor) (block_hash : btcb.block_hash) : outcome Nat :=
  (compute_internal p store fuel v summation_type.balance block_hash).map
    summation_visitor.result

/-- Run `k` passes of the loop body (a pass on an empty stack changes nothing). -/
def passes (p : parameters) (store : block_store) :
    Nat → summation_visitor → Except fault summation_visitor
  | 0, v => .ok v
  | k + 1, v =>
    match step p store v with
    | .error e => .error e
    | .ok v1 => passes p store k v1

/-- The hash that the next pass hands to `store.block_get`, if it makes such a call:
the top frame, after the merge of a pending result, still has work and either is a
balance frame with no pending amount (it fetches `balance_hash`) or is an amount frame
with a pending `amount_hash`. -/
def next_block_get (v : summation_visitor) : Option block_hash :=
  match v.frames with
  | [] => none
  | cur :: _ =>
    match cur.type with
    | .invalid => none
    | .balance =>
      let x := (merge_balance cur v.result).1
      if has_work x && x.amount_hash == 0 then some x.balance_hash else none
    | .amount =>
      let x := (merge_amount cur v.result).1
      if has_work x && x.amount_hash != 0 then some x.amount_hash else none

/-- The kind of the frame on top of the stack. -/
def top_type (v : summation_visitor) : Option summation_type :=
  v.frames.head?.map frame.type

/-- The bottom frame of a stack awaits a result. -/
def root_awaiting : List frame → Prop
  | [] => True
  | [root] => root.awaiting_result = true
  | _ :: f :: rest => root_awaiting (f :: rest)

/-- A stack is synchronised with `result` when a lone frame that awaits nothing has
`sum = result`, and the bottom frame of a deeper stack awaits a result. -/
def synced (result : Nat) : List frame → Prop
  | [] => True
  | [root] => root.awaiting_result = false → root.sum = result
  | _ :: f :: rest => root_awaiting (f :: rest)

/-- The frame as the pass that pops it sees it: after the merge of a pending result. -/
def merged (cur : frame) : frame :=
  match cur.type with
  | .invalid => cur
  | .balance => (merge_balance cur 0).1
  | .amount => (merge_amount cur 0).1

/-- Where the walk of a balance frame along `previous` ends when it starts at `hash`
with no amount pending, read off the handlers in the balance context: `send_block`,
`open_block` and, with cached information, `receive_block` and `change_block` clear
`balance_hash` after adding to the sum or leaving it (`some false`, as at the zero hash);
`state_block` clears it after `sum_set` (`some true`); `receive_block` and
`change_block` without cached information move `balance_hash` to `previous`. `none`: the
walk needs a block the store does not hold, or more than `fuel` blocks. -/
def balance_walk (store : block_store) : Nat → block_hash → Option Bool
  | 0, _ => none
  | fuel + 1, hash =>
    if hash = 0 then some false
    else
      match store.block_get hash with
      | none => none
      | some (.send_block _) => some false
      | some (.open_block _) => some false
      | some (.state_block _) => some true
      | some (.receive_block b) =>
        match store.block_info_get b.hash with
        | some _ => some false
        | none => balance_walk store fuel b.previous
      | some (.change_block b) =>
        match store.block_info_get b.hash with
        | some _ => some false
        | none => balance_walk store fuel b.previous

/-- The sums of two balance frames that walk the same chain, the second having started
with `A` more: the second is the first plus `A` on 128 bits while the walk, which ends
at a State block or not according to `st`, is under way from `hash`; once the State
block has been visited they are equal. -/
def shifted_sum (store : block_store) (A : Nat) (st : Bool) (hash : block_hash)
    (s s1 : Nat) : Prop :=
  (s1 = (A + s) % 2 ^ 128 ∧ ∃ k, balance_walk store k hash = some st) ∨
  (st = true ∧ s1 = s)

/-- Two balance frames that agree but for their sums, which are related by
`shifted_sum`, and for a stale `incoming_result`. -/
def shifted_frames (store : block_store) (A : Nat) (st : Bool) (f g : frame) : Prop :=
  f.type = summation_type.balance ∧ g.type = summation_type.balance ∧
  g.awaiting_result = f.awaiting_result ∧ g.balance_hash = f.balance_hash ∧
  g.amount_hash = f.amount_hash ∧ shifted_sum store A st f.balance_hash f.sum g.sum

/-- Two stacks that agree above their root frames, whose sums are related by
`shifted_sum`: when the roots are on top they are compared after the merge of a pending
result, otherwise both await the result of the frames above. -/
def shifted_stacks (store : block_store) (A : Nat) (st : Bool) (fs1 fs2 : List frame) :
    Prop :=
  ∃ above f g, fs1 = above ++ [f] ∧ fs2 = above ++ [g] ∧
    (above = [] → shifted_frames store A st (merged f) (merged g)) ∧
    (above ≠ [] → shifted_frames store A st f g ∧ f.awaiting_result = true)

/-- Whether exactly one of `balance_hash` / `amount_hash` of a frame is non-zero. -/
def one_pending (f : frame) : Bool :=
  (f.balance_hash != 0) != (f.amount_hash != 0)

/-- The discipline the pending hashes of a frame do follow: an amount frame never has
both non-zero, and a frame that awaits a result has no pending `amount_hash` (nor, for
an amount frame, a pending `balance_hash`). -/
def hashes_ok (f : frame) : Prop :=
  (f.type = summation_type.amount → f.balance_hash = 0 ∨ f.amount_hash = 0) ∧
  (f.awaiting_result = true →
    f.amount_hash = 0 ∧ (f.type = summation_type.amount → f.balance_hash = 0))

/-- The held invariant of the stack: every frame is a balance or an amount frame and
follows `hashes_ok`. -/
def stack_ok (fs : List frame) : Prop :=
  ∀ f ∈ fs, f.type ≠ summation_type.invalid ∧ hashes_ok f

/-- The `previous` and `source` links of a block, the hashes a traversal can go on
with after visiting it. -/
def links : block → List block_hash
  | .send_block x => [x.previous]
  | .receive_block x => [x.previous, x.source]
  | .open_block x => [x.source]
  | .change_block x => [x.previous]
  | .state_block x => [x.previous]

/-- The number of `block_get` calls of the log that found a block. -/
def fetched (store : block_store) (v : summation_visitor) : Nat :=
  (v.block_gets.filter (fun x => (store.block_get x).isSome)).length

/-- Whether a frame holds a hash for which it will push a child frame: the
`amount_hash` of a balance frame, the `balance_hash` of an amount frame. -/
def push_pending (f : frame) : Nat :=
  match f.type with
  | .invalid => 0
  | .balance => if f.amount_hash = 0 then 0 else 1
  | .amount => if f.balance_hash = 0 then 0 else 1

/-- The number of frames of a stack for which `push_pending` holds. -/
def pushes_pending (fs : List frame) : Nat :=
  (fs.map push_pending).sum

/-- The links of the store are well-founded for `rank`: every non-zero `previous` or
`source` link of a stored block has a lower rank than the hash the block is stored
under. -/
def well_founded_links (store : block_store) (rank : block_hash → Nat) : Prop :=
  ∀ h b, store.block_get h = some b → ∀ x ∈ links b, x ≠ 0 → rank x < rank h

/-- A bound on the passes a frame needs from the visit of a hash of rank `m` until the
hashes this leads to are dealt with. -/
def visit_cost : Nat → Nat
  | 0 => 1
  | m + 1 => 2 * visit_cost m + 3

/-- The cost of a pending hash: nothing for the zero hash, else the visit and, for a
hash that is handled by a child frame, the push and the pop of that frame. -/
def hash_cost (rank : block_hash → Nat) (pushed : Bool) (x : block_hash) : Nat :=
  if x = 0 then 0 else visit_cost (rank x) + (if pushed then 2 else 0)

/-- The cost of a frame: its own pop and its pending hashes. -/
def frame_cost (rank : block_hash → Nat) (f : frame) : Nat :=
  match f.type with
  | .invalid => 1
  | .balance => 1 + hash_cost rank false f.balance_hash + hash_cost rank true f.amount_hash
  | .amount => 1 + hash_cost rank true f.balance_hash + hash_cost rank false f.amount_hash

/-- The cost of a stack, a bound on the passes left. -/
def stack_cost (rank : block_hash → Nat) (fs : List frame) : Nat :=
  (fs.map (frame_cost rank)).sum

/-- Every 128-bit quantity of the visitor is below `2 ^ 128`. -/
def in_range (v : summation_visitor) : Prop :=
  v.result < 2 ^ 128 ∧ ∀ f ∈ v.frames, f.sum < 2 ^ 128 ∧ f.incoming_result < 2 ^ 128

end summation_visitor

/-! ## representative_visitor -/

/-- The mutable members of `representative_visitor`, with the same ghost log of
`block_get` calls. -/
structure representative_visitor where
  current : block_hash
  result : block_hash
  block_gets : List block_hash
deriving DecidableEq, Repr

/-- The constructor: `result (0)`; `current` is assigned by `compute` before use. -/
def representative_visitor.fresh : representative_visitor :=
  { current := 0, result := 0, block_gets := [] }

namespace representative_visitor

/-- The five handlers: Send and Receive move `current` to `previous ()`; Open, Change
and State set `result` to the block's own hash. -/
def visit (b : block) (v : representative_visitor) : representative_visitor :=
  match b with
  | .send_block x => { v with current := x.previous }
  | .receive_block x => { v with current := x.previous }
  | .open_block x => { v with result := x.hash }
  | .change_block x => { v with result := x.hash }
  | .state_block x => { v with result := x.hash }

/-- The loop `while (result.is_zero ()) { ... }` of `compute`, with fuel. -/
def loop (p : parameters) (store : block_store) :
    Nat → representative_visitor → outcome representative_visitor
  | 0, v => if v.result = 0 then .out_of_fuel else .returned v
  | fuel + 1, v =>
    if v.result = 0 then
      match store.block_get v.current with
      | none => .aborted (missing_block p)
      | some b => loop p store fuel (visit b { v with block_gets := v.block_gets ++ [v.current] })
    else .returned v

/-- `representative_visitor::compute`. -/
def compute (p : parameters) (store : block_store) (fuel : Nat) (v : representative_visitor)
    (hash_a : block_hash) : outcome representative_visitor :=
  loop p store fuel { v with current := hash_a }

/-- The `previous` link of a Send or Receive block, the two variants on which the walk
continues. -/
def transfer_previous : block → Option block_hash
  | .send_block x => some x.previous
  | .receive_block x => some x.previous
  | _ => none

/-- Open, Change and State blocks end the walk. -/
def fixes_representative : block → Bool
  | .open_block _ => true
  | .change_block _ => true
  | .state_block _ => true
  | _ => false

/-- A run of Send/Receive blocks ending at `f`: every hash of the list holds a Send or
Receive block whose `previous` is the next hash of the list, the last one's being
`f`. -/
def previous_run (store : block_store) : List block_hash → block_hash → Prop
  | [], _ => True
  | h :: hs, f =>
    (∃ b, store.block_get h = some b ∧ transfer_previous b = some (hs.headD f)) ∧
      previous_run store hs f

end representative_visitor

/-! ## vote_generator (`btcb/node/voting.cpp`) -/

/-- Modelled from the spec: what `vote_generator::send` uses of the node. The wallet
set's `foreach_representative` enumerates `representatives` (public key, private key)
in this order; `vote_generate` stands for `store.vote_generate (transaction, pub, prv,
hashes)`; `endpoint` is `network.endpoint ()`. The type of votes is left open. -/
structure node (vote : Type) where
  representatives : List (Nat × Nat)
  vote_generate : Nat → Nat → List block_hash → vote
  endpoint : Nat

/-- The members of `vote_generator` guarded by its mutex, and the constant `wait`.
`hashes` is the deque of pending hashes, front first. -/
structure vote_generator where
  wait : Nat
  hashes : List block_hash
  stopped : Bool
  started : Bool
deriving DecidableEq, Repr

namespace vote_generator

/-- `vote_generator::add`: `hashes.push_back (hash_a)` under the lock. -/
def add (g : vote_generator) (hash_a : block_hash) : vote_generator :=
  { g with hashes := g.hashes ++ [hash_a] }

/-- `vote_generator::stop`: `stopped = true` under the lock (waking and joining the
worker thread is not represented). -/
def stop (g : vote_generator) : vote_generator :=
  { g with stopped := true }

/-- The loop `while (!hashes.empty () && hashes_l.size () < 12)` of `send`: move the
front of `hashes` to the back of `hashes_l`. Returns `hashes_l` and what is left of
`hashes`. -/
def send_loop : List block_hash → List block_hash → List block_hash × List block_hash
  | hashes_l, [] => (hashes_l, [])
  | hashes_l, front :: hashes =>
    if hashes_l.length < 12 then send_loop (hashes_l ++ [front]) hashes
    else (hashes_l, front :: hashes)

/-- Modelled from the spec: `wallets.foreach_representative (transaction, fn)` invokes
`fn` once per local representative credential, in enumeration order; `fn` acts on the
state `s` it captures. -/
def foreach_representative {vote σ : Type} (n : node vote) (fn : Nat → Nat → σ → σ)
    (s : σ) : σ :=
  n.representatives.foldl (fun acc kp => fn kp.1 kp.2 acc) s

/-- `vote_generator::send`. `processed` is the list of calls `vote_processor.vote (vote,
endpoint)` made so far, oldest first. The lock is released between the detaching loop
and the return; what other threads do meanwhile is applied by the caller, see
`interfere`. -/
def send {vote : Type} (n : node vote) (g : vote_generator)
    (processed : List (vote × Nat)) : vote_generator × List (vote × Nat) :=
  let r := send_loop [] g.hashes
  ({ g with hashes := r.2 },
    foreach_representative n
      (fun pub_a prv_a acc => acc ++ [(n.vote_generate pub_a prv_a r.1, n.endpoint)])
      processed)

/-- The batches of `k` successive calls of `send` on a queue to which nothing is added,
with the queue left at the end. -/
def successive_batches : Nat → List block_hash → List (List block_hash) × List block_hash
  | 0, q => ([], q)
  | k + 1, q =>
    let r := send_loop [] q
    let rest := successive_batches k r.2
    (r.1 :: rest.1, rest.2)

/-- What the worker did in one iteration of the loop of `run`. -/
inductive action where
  | flush (batch : List block_hash)
  | wait_until (cutoff : Nat)
  | wait
deriving DecidableEq, Repr

/-- Whether the action of an iteration is a flush. -/
def is_flush : action → Bool
  | .flush _ => true
  | _ => false

/-- The state of the worker thread at the head of the loop of `run`: the guarded
members, the local `cutoff` (`none` stands for the sentinel `min`, which no deadline
`now + wait` equals) and the calls made to the vote processor. -/
structure worker (vote : Type) where
  generator : vote_generator
  cutoff : Option Nat
  processed : List (vote × Nat)

/-- The body of the loop of `run` (lines 74-99) with `now` the clock reading, and the
action taken. -/
def run_iteration {vote : Type} (n : node vote) (w : worker vote) (now : Nat) :
    worker vote × action :=
  if w.generator.hashes.length ≥ 12 then
    let r := send n w.generator w.processed
    ({ w with generator := r.1, processed := r.2 },
      action.flush (send_loop [] w.generator.hashes).1)
  else
    match w.cutoff with
    | none =>
      -- cutoff == min
      ({ w with cutoff := some (now + w.generator.wait) },
        action.wait_until (now + w.generator.wait))
    | some cutoff =>
      if now < cutoff then (w, action.wait_until cutoff)
      else if !w.generator.hashes.isEmpty then
        let r := send n w.generator w.processed
        ({ generator := r.1, cutoff := none, processed := r.2 },
          action.flush (send_loop [] w.generator.hashes).1)
      else ({ w with cutoff := none }, action.wait)

/-- What other threads do while the worker has released the lock (inside `send` and
inside the waits): they append hashes with `add` and may call `stop`. -/
structure interference where
  added : List block_hash
  stop : Bool
deriving DecidableEq, Repr

/-- Apply the other threads' calls to the guarded members. -/
def interfere {vote : Type} (e : interference) (w : worker vote) : worker vote :=
  { w with generator :=
      { w.generator with
        hashes := w.generator.hashes ++ e.added
        stopped := w.generator.stopped || e.stop } }

/-- The loop `while (!stopped) { ... }` of `run`, along a schedule giving for each
iteration the clock reading and the other threads' calls during it. The boolean tells
whether the loop was left (`true`) or the schedule ended first. -/
def run_loop {vote : Type} (n : node vote) :
    List (Nat × interference) → worker vote → worker vote × Bool
  | [], w => (w, w.generator.stopped)
  | (now, e) :: schedule, w =>
    if w.generator.stopped then (w, true)
    else run_loop n schedule (interfere e (run_iteration n w now).1)

/-- The batch an iteration of the loop of `run` hands to `send`, if it flushes. -/
def flushed : action → List (List block_hash)
  | .flush batch => [batch]
  | _ => []

/-- The batches flushed by the iterations of `run_loop`, oldest first. -/
def run_batches {vote : Type} (n : node vote) :
    List (Nat × interference) → worker vote → List (List block_hash)
  | [], _ => []
  | (now, e) :: schedule, w =>
    if w.generator.stopped then []
    else flushed (run_iteration n w now).2
      ++ run_batches n schedule (interfere e (run_iteration n w now).1)

/-- The hashes the other threads append with `add` during the iterations of `run_loop`,
in the order in which their calls acquire the lock. -/
def run_added {vote : Type} (n : node vote) :
    List (Nat × interference) → worker vote → List block_hash
  | [], _ => []
  | (now, e) :: schedule, w =>
    if w.generator.stopped then []
    else e.added ++ run_added n schedule (interfere e (run_iteration n w now).1)

/-- `vote_generator::run`: `started = true`, `cutoff = min`, then the loop. -/
def run {vote : Type} (n : node vote) (schedule : List (Nat × interference))
    (g : vote_generator) : worker vote × Bool :=
  run_loop n schedule { generator := { g with started := true }, cutoff := none, processed := [] }

end vote_generator

/-! ## A small ledger on which the theorems are instantiated -/

/-- Constants of the example, with assertions compiled in. -/
def example_parameters : parameters :=
  { genesis_account := 99, genesis_amount := ⟨1000, by decide⟩, ndebug := false }

/-- The same constants with assertions compiled out (`NDEBUG`). -/
def release_parameters : parameters :=
  { genesis_account := 99, genesis_amount := ⟨1000, by decide⟩, ndebug := true }

/-- Blocks of the example: `1` Send (balance 3, no previous); `2` Receive of `1` on top
of `3`; `3` State (balance 10); `4` Open from the genesis account `99`, under which
nothing is stored; `5` Change on top of `4`; `6` Send (balance 4) on top of `3`;
`7` Receive of `1` on top of `6`; `8` Open from `6`; `9` Receive of the absent block
`50` on top of `1`; `11` Send (balance 20) on top of `9`. Cached information exists
for `5` and `7`. -/
def example_store : block_store where
  block_get h :=
    if h = 1 then some (.send_block { hash := 1, previous := 0, balance := ⟨3, by decide⟩ })
    else if h = 2 then some (.receive_block { hash := 2, previous := 3, source := 1 })
    else if h = 3 then some (.state_block { hash := 3, previous := 0, balance := ⟨10, by decide⟩ })
    else if h = 4 then some (.open_block { hash := 4, source := 99 })
    else if h = 5 then some (.change_block { hash := 5, previous := 4 })
    else if h = 6 then some (.send_block { hash := 6, previous := 3, balance := ⟨4, by decide⟩ })
    else if h = 7 then some (.receive_block { hash := 7, previous := 6, source := 1 })
    else if h = 8 then some (.open_block { hash := 8, source := 6 })
    else if h = 9 then some (.receive_block { hash := 9, previous := 1, source := 50 })
    else if h = 11 then some (.send_block { hash := 11, previous := 9, balance := ⟨20, by decide⟩ })
    else none
  block_info_get h :=
    if h = 5 then some { balance := ⟨42, by decide⟩ }
    else if h = 7 then some { balance := ⟨7, by decide⟩ }
    else none
  zero_absent := rfl

/-- A second small ledger, of blocks without cached information: `1` Send (balance 3,
no previous); `20` Send (balance 5, no previous); `21` Receive of `1` on top of `20`;
`22` Receive of `1` on top of `21`; `23` State (balance 50); `24` Receive of `1` on top
of `23`; `25` Receive of `1` on top of `24`. -/
def legacy_store : block_store where
  block_get h :=
    if h = 1 then some (.send_block { hash := 1, previous := 0, balance := ⟨3, by decide⟩ })
    else if h = 20 then
      some (.send_block { hash := 20, previous := 0, balance := ⟨5, by decide⟩ })
    else if h = 21 then some (.receive_block { hash := 21, previous := 20, source := 1 })
    else if h = 22 then some (.receive_block { hash := 22, previous := 21, source := 1 })
    else if h = 23 then
      some (.state_block { hash := 23, previous := 0, balance := ⟨50, by decide⟩ })
    else if h = 24 then some (.receive_block { hash := 24, previous := 23, source := 1 })
    else if h = 25 then some (.receive_block { hash := 25, previous := 24, source := 1 })
    else none
  block_info_get _ := none
  zero_absent := rfl

/-- A rank for which the links of the example ledger are well-founded. -/
def example_rank (h : block_hash) : Nat :=
  if h = 1 ∨ h = 3 ∨ h = 4 then 1
  else if h = 2 ∨ h = 5 ∨ h = 6 ∨ h = 9 then 2
  else if h = 7 ∨ h = 8 ∨ h = 11 then 3
  else 0

/-- A node with two local representatives; a vote records the arguments of
`vote_generate`. -/
def example_node : node (Nat × Nat × List block_hash) :=
  { representatives := [(1, 101), (2, 102)]
    vote_generate := fun pub_a prv_a hashes_a => (pub_a, prv_a, hashes_a)
    endpoint := 7075 }

/-- A generator with a wait window of 100 and the given pending hashes. -/
def example_generator (hashes : List block_hash) : vote_generator :=
  { wait := 100, hashes := hashes, stopped := false, started := true }

/-- A worker at the head of its loop with the hashes 1 and 2 pending and no deadline. -/
def example_worker : vote_generator.worker (Nat × Nat × List block_hash) :=
  { generator := example_generator [1, 2], cutoff := none, processed := [] }

/-- Four iterations at the times 0, 150, 160 and 300 during which two producers call
`add`, one with the hashes 3, 5, 7 and the other with 4, 6, 8, interleaved; `stop` is
called during the fourth. -/
def example_schedule : List (Nat × vote_generator.interference) :=
  [(0, { added := [3, 4], stop := false }), (150, { added := [5, 6], stop := false }),
    (160, { added := [7], stop := false }), (300, { added := [8], stop := true })]

end btcb

/-! ## Theorems: the summation loop -/

namespace btcb
namespace summation_visitor

/-- A hash under which the store holds a block is not the zero hash. -/
theorem block_get_ne_zero (store : block_store) (h : block_hash) (b : block)
    (hb : store.block_get h = some b) : h ≠ 0 := by
  intro h0
  rw [h0, store.zero_absent] at hb
  cases hb

/-- On an empty stack the loop returns at once. -/
theorem loop_nil (p : parameters) (store : block_store) (fuel r : Nat) (l : List block_hash) :
    loop p store fuel ⟨r, [], l⟩ = .returned ⟨r, [], l⟩ := by
  cases fuel <;> simp [loop]

/-- A successful pass on a non-empty stack uses one unit of fuel. -/
theorem loop_ok (p : parameters) (store : block_store) (fuel : Nat) (v v1 : summation_visitor)
    (hne : v.frames ≠ []) (hs : step p store v = .ok v1) :
    loop p store (fuel + 1) v = loop p store fuel v1 := by
  simp [loop, hne, hs]

/-- A fault in a pass aborts the loop. -/
theorem loop_error (p : parameters) (store : block_store) (fuel : Nat) (v : summation_visitor)
    (e : fault) (hne : v.frames ≠ []) (hs : step p store v = .error e) :
    loop p store (fuel + 1) v = .aborted e := by
  simp [loop, hne, hs]

/-- The epilogue only looks at the frame right below the current one. -/
theorem epilogue_append (cur : frame) (rest below : List frame) (h : rest ≠ []) :
    epilogue cur (rest ++ below) = epilogue cur rest ++ below := by
  unfold epilogue
  cases rest with
  | nil => exact absurd rfl h
  | cons a t => split <;> simp

/-- The frame a handler leaves does not depend on `result`. -/
theorem visit_frame_indep (p : parameters) (store : block_store) (b : block) (cur : frame)
    (r r1 : Nat) : (visit p store b cur r1).1 = (visit p store b cur r).1 := by
  cases b <;> simp only [visit, summation_visitor.send_block, summation_visitor.state_block,
    summation_visitor.receive_block, summation_visitor.open_block,
    summation_visitor.change_block] <;> (try split) <;> (try split) <;> rfl

theorem merge_balance_indep (cur : frame) (r r1 : Nat) :
    (merge_balance cur r1).1 = (merge_balance cur r).1 := by
  unfold merge_balance; split <;> rfl

theorem merge_amount_indep (cur : frame) (r r1 : Nat) :
    (merge_amount cur r1).1 = (merge_amount cur r).1 := by
  unfold merge_amount; split <;> rfl

theorem balance_iteration_append (p : parameters) (store : block_store) (cur : frame)
    (r r1 : Nat) (rest below : List frame) (l l1 : List block_hash) (v1 : summation_visitor)
    (hs : balance_iteration p store cur r rest l = .ok v1) :
    v1.frames ≠ [] ∧ ∃ r2 l2,
      balance_iteration p store cur r1 (rest ++ below) l1 = .ok ⟨r2, v1.frames ++ below, l2⟩ := by
  unfold balance_iteration at hs ⊢
  split at hs
  · cases hs; simp [*]
  · split at hs
    · cases hs
    · cases hs; simp [*, visit_frame_indep p store _ _ r r1]

theorem amount_iteration_append (p : parameters) (store : block_store) (cur : frame)
    (r r1 : Nat) (rest below : List frame) (l l1 : List block_hash) (v1 : summation_visitor)
    (hs : amount_iteration p store cur r rest l = .ok v1) :
    v1.frames ≠ [] ∧ ∃ r2 l2,
      amount_iteration p store cur r1 (rest ++ below) l1 = .ok ⟨r2, v1.frames ++ below, l2⟩ := by
  unfold amount_iteration at hs ⊢
  split at hs
  · rename_i h1
    rw [if_pos h1]
    split at hs
    · cases hs; simp [visit_frame_indep p store _ _ r r1]
    · split at hs
      · rename_i h2
        rw [if_pos h2]
        cases hs; simp
      · rename_i h2
        rw [if_neg h2]
        split at hs
        · rename_i h3
          rw [if_pos h3]
          cases hs; simp
        · cases hs
  · rename_i h1
    rw [if_neg h1]
    cases hs; simp

theorem epilogue_nil (cur : frame) (rest : List frame) (h : epilogue cur rest = []) :
    rest = [] ∧ cur.awaiting_result = false := by
  unfold epilogue at h
  split at h
  · cases h
  · cases rest with
    | nil => simp_all
    | cons a t => cases h

theorem epilogue_append_of_ne (cur : frame) (rest below : List frame)
    (h : epilogue cur rest = [] → rest ≠ []) :
    epilogue cur (rest ++ below) = epilogue cur rest ++ below := by
  by_cases hr : rest = []
  · subst hr
    unfold epilogue at h ⊢
    split
    · simp
    · rename_i ha
      simp [ha] at h
  · exact epilogue_append _ _ _ hr

theorem step_append (p : parameters) (store : block_store) (r r1 : Nat) (cur : frame)
    (rest below : List frame) (l l1 : List block_hash) (v1 : summation_visitor)
    (hs : step p store ⟨r, cur :: rest, l⟩ = .ok v1) (hne : rest ≠ [] ∨ v1.frames ≠ []) :
    ∃ r2 l2, step p store ⟨r1, cur :: (rest ++ below), l1⟩ = .ok ⟨r2, v1.frames ++ below, l2⟩ := by
  have hrest : v1.frames = [] → rest ≠ [] := by
    intro h0; rcases hne with h | h
    · exact h
    · exact absurd h0 h
  simp only [step] at hs ⊢
  split at hs
  · split at hs
    · rename_i h3
      rw [if_pos h3]
      cases hs; simp
    · cases hs
  · rw [merge_balance_indep cur r r1]
    split at hs
    · rename_i hw
      simp only [hw, if_true]
      exact (balance_iteration_append p store _ _ _ rest below l l1 v1 hs).2
    · rename_i hw
      simp only [hw]
      cases hs
      simp [epilogue_append_of_ne _ _ below hrest]
  · rw [merge_amount_indep cur r r1]
    split at hs
    · rename_i hw
      simp only [hw, if_true]
      exact (amount_iteration_append p store _ _ _ rest below l l1 v1 hs).2
    · rename_i hw
      simp only [hw]
      cases hs
      simp [epilogue_append_of_ne _ _ below hrest]

/-- When a lone frame is popped, the same pass on a deeper stack hands the frame's sum
to the parent, and that sum is the `result` of the lone run whenever the frame's sum
was `result` on entry (or a result was pending). -/
theorem step_pop (p : parameters) (store : block_store) (r : Nat) (cur : frame)
    (l : List block_hash) (v1 : summation_visitor)
    (hs : step p store ⟨r, [cur], l⟩ = .ok v1) (hnil : v1.frames = []) :
    ∃ S, (∀ (r1 : Nat) (parent : frame) (below : List frame) (l1 : List block_hash),
        ∃ r2 l2, step p store ⟨r1, cur :: parent :: below, l1⟩
          = .ok ⟨r2, { parent with incoming_result := S } :: below, l2⟩) ∧
      ((cur.awaiting_result = false → cur.sum = r) → S = v1.result) := by
  simp only [step] at hs ⊢
  split at hs
  · split at hs
    · cases hs; simp at hnil
    · cases hs
  · split at hs
    · exact absurd hnil (balance_iteration_append p store _ _ 0 [] [] l [] v1 hs).1
    · rename_i hw
      cases hs
      simp only at hnil
      have ha := (epilogue_nil _ _ hnil).2
      refine ⟨(merge_balance cur r).1.sum, ?_, ?_⟩
      · intro r1 parent below l1
        rw [merge_balance_indep cur r r1]
        simp [hw, epilogue, ha]
      · intro hinv
        simp only [merge_balance] at ha ⊢
        split
        · simp [sum_add]
        · rename_i hc
          simpa using hinv (by simpa using hc)
  · split at hs
    · exact absurd hnil (amount_iteration_append p store _ _ 0 [] [] l [] v1 hs).1
    · rename_i hw
      cases hs
      simp only at hnil
      have ha := (epilogue_nil _ _ hnil).2
      refine ⟨(merge_amount cur r).1.sum, ?_, ?_⟩
      · intro r1 parent below l1
        rw [merge_amount_indep cur r r1]
        simp [hw, epilogue, ha]
      · intro hinv
        simp only [merge_amount] at ha ⊢
        split
        · simp [sum_set]
        · rename_i hc
          simpa using hinv (by simpa using hc)

theorem visit_awaiting (p : parameters) (store : block_store) (b : block) (cur : frame)
    (r : Nat) : (visit p store b cur r).1.awaiting_result = cur.awaiting_result := by
  cases b <;> simp only [visit, summation_visitor.send_block, summation_visitor.state_block,
    summation_visitor.receive_block, summation_visitor.open_block,
    summation_visitor.change_block, sum_add, sum_set] <;> (try split) <;> (try split) <;> rfl

theorem visit_sync (p : parameters) (store : block_store) (b : block) (cur : frame)
    (r : Nat) (h : cur.sum = r) : (visit p store b cur r).1.sum = (visit p store b cur r).2 := by
  cases b <;> simp only [visit, summation_visitor.send_block, summation_visitor.state_block,
    summation_visitor.receive_block, summation_visitor.open_block,
    summation_visitor.change_block, sum_add, sum_set] <;> (try split) <;> (try split) <;>
    first | rfl | exact h

theorem merge_balance_sync (cur : frame) (r : Nat) (h : cur.awaiting_result = false → cur.sum = r) :
    (merge_balance cur r).1.sum = (merge_balance cur r).2 := by
  unfold merge_balance
  split
  · rfl
  · rename_i hc
    exact h (by simpa using hc)

theorem merge_amount_sync (cur : frame) (r : Nat) (h : cur.awaiting_result = false → cur.sum = r) :
    (merge_amount cur r).1.sum = (merge_amount cur r).2 := by
  unfold merge_amount
  split
  · rfl
  · rename_i hc
    exact h (by simpa using hc)

theorem root_awaiting_cons (f : frame) (rest : List frame) (h : rest ≠ []) :
    root_awaiting (f :: rest) ↔ root_awaiting rest := by
  cases rest with
  | nil => exact absurd rfl h
  | cons a t => simp [root_awaiting]

/-- The possible effects of one pass on the stack. -/
theorem step_shape (p : parameters) (store : block_store) (r : Nat) (cur : frame)
    (rest : List frame) (l : List block_hash) (v1 : summation_visitor)
    (hs : step p store ⟨r, cur :: rest, l⟩ = .ok v1) :
    (v1.frames = cur :: rest ∧ v1.result = r) ∨
    (∃ x, v1.frames = x :: rest ∧
      ((cur.awaiting_result = false → cur.sum = r) → x.sum = v1.result)) ∨
    (∃ child x, v1.frames = child :: x :: rest ∧ x.awaiting_result = true) ∨
    (∃ x, v1.frames = epilogue x rest ∧ x.awaiting_result = false) := by
  simp only [step] at hs
  split at hs
  · split at hs
    · cases hs; exact Or.inl ⟨rfl, rfl⟩
    · cases hs
  · split at hs
    · unfold balance_iteration at hs
      split at hs
      · cases hs; exact Or.inr (Or.inr (Or.inl ⟨_, _, rfl, rfl⟩))
      · split at hs
        · cases hs
        · cases hs
          exact Or.inr (Or.inl ⟨_, rfl, fun h => visit_sync _ _ _ _ _ (merge_balance_sync _ _ h)⟩)
    · rename_i hw
      cases hs
      refine Or.inr (Or.inr (Or.inr ⟨_, rfl, ?_⟩))
      unfold merge_balance
      split
      · rfl
      · rename_i hc; simpa using hc
  · split at hs
    · unfold amount_iteration at hs
      split at hs
      · split at hs
        · cases hs
          exact Or.inr (Or.inl ⟨_, rfl, fun h => visit_sync _ _ _ _ _ (merge_amount_sync _ _ h)⟩)
        · split at hs
          · cases hs; exact Or.inr (Or.inl ⟨_, rfl, fun _ => rfl⟩)
          · split at hs
            · cases hs; exact Or.inr (Or.inl ⟨_, rfl, fun _ => rfl⟩)
            · cases hs
      · cases hs; exact Or.inr (Or.inr (Or.inl ⟨_, _, rfl, rfl⟩))
    · rename_i hw
      cases hs
      refine Or.inr (Or.inr (Or.inr ⟨_, rfl, ?_⟩))
      unfold merge_amount
      split
      · rfl
      · rename_i hc; simpa using hc

theorem step_synced (p : parameters) (store : block_store) (r : Nat) (cur : frame)
    (rest : List frame) (l : List block_hash) (v1 : summation_visitor)
    (hs : step p store ⟨r, cur :: rest, l⟩ = .ok v1) (hsy : synced r (cur :: rest)) :
    synced v1.result v1.frames := by
  rcases step_shape p store r cur rest l v1 hs with ⟨hf, hr⟩ | ⟨x, hf, hx⟩ | ⟨c, x, hf, hx⟩ |
    ⟨x, hf, hx⟩
  · rw [hf, hr]; exact hsy
  · rw [hf]
    cases rest with
    | nil => intro _; exact hx hsy
    | cons a t => exact hsy
  · rw [hf]
    cases rest with
    | nil => exact hx
    | cons a t => exact hsy
  · rw [hf]
    cases rest with
    | nil => simp [epilogue, hx, synced]
    | cons a t =>
      simp only [epilogue, hx]
      cases t with
      | nil => 
        intro h
        have : a.awaiting_result = true := hsy
        simp [this] at h
      | cons b u => exact hsy

theorem step_nil_inv (p : parameters) (store : block_store) (r : Nat) (cur : frame)
    (rest : List frame) (l : List block_hash) (v1 : summation_visitor)
    (hs : step p store ⟨r, cur :: rest, l⟩ = .ok v1) (hnil : v1.frames = []) : rest = [] := by
  rcases step_shape p store r cur rest l v1 hs with ⟨hf, _⟩ | ⟨x, hf, _⟩ | ⟨c, x, hf, _⟩ |
    ⟨x, hf, _⟩
  · rw [hf] at hnil; cases hnil
  · rw [hf] at hnil; cases hnil
  · rw [hf] at hnil; cases hnil
  · rw [hf] at hnil; exact (epilogue_nil _ _ hnil).1

/-- Locality of a sub-computation: if the loop run on the stack `fs` alone returns,
then run on top of further frames it reaches, within the same fuel, the state in which
exactly `fs` is gone and the frame below has received the returned value. -/
theorem loop_nested (p : parameters) (store : block_store) (n : Nat) :
    ∀ (r : Nat) (fs : List frame) (l : List block_hash) (v : summation_visitor),
      fs ≠ [] → synced r fs → loop p store n ⟨r, fs, l⟩ = .returned v →
      ∀ (r1 : Nat) (l1 : List block_hash) (parent : frame) (below : List frame),
        ∃ k r2 l2, k ≤ n ∧ ∀ m, loop p store (k + m) ⟨r1, fs ++ parent :: below, l1⟩
          = loop p store m ⟨r2, { parent with incoming_result := v.result } :: below, l2⟩ := by
  induction n with
  | zero =>
    intro r fs l v hne _ h
    cases fs with
    | nil => exact absurd rfl hne
    | cons a t => simp [loop] at h
  | succ n ih =>
    intro r fs l v hne hsy h r1 l1 parent below
    cases fs with
    | nil => exact absurd rfl hne
    | cons cur rest =>
      cases hs : step p store ⟨r, cur :: rest, l⟩ with
      | error e => simp [loop, hs] at h
      | ok v1 =>
        rw [loop_ok p store n _ v1 (by simp) hs] at h
        have hsy1 := step_synced p store r cur rest l v1 hs hsy
        by_cases hnil : v1.frames = []
        · have hrest := step_nil_inv p store r cur rest l v1 hs hnil
          subst hrest
          obtain ⟨S, hS, hSr⟩ := step_pop p store r cur l v1 hs hnil
          obtain ⟨r2, l2, h2⟩ := hS r1 parent below l1
          have hv : v = v1 := by
            obtain ⟨vr, vf, vl⟩ := v1
            simp only at hnil
            subst hnil
            rw [loop_nil] at h
            cases h; rfl
          subst hv
          refine ⟨1, r2, l2, by omega, fun m => ?_⟩
          rw [Nat.add_comm, List.cons_append, List.nil_append,
            loop_ok p store m _ _ (by simp) h2, hSr hsy]
        · obtain ⟨r2, l2, h2⟩ := step_append p store r r1 cur rest (parent :: below) l l1 v1 hs
            (Or.inr hnil)
          obtain ⟨vr, vf, vl⟩ := v1
          obtain ⟨k, r3, l3, hk, h3⟩ := ih vr vf vl v hnil hsy1 h r2 l2 parent below
          refine ⟨k + 1, r3, l3, by omega, fun m => ?_⟩
          rw [show k + 1 + m = (k + m) + 1 by omega, List.cons_append,
            loop_ok p store (k + m) _ _ (by simp) h2]
          exact h3 m

/-- Changing the log of `block_get` calls changes neither faults nor frames nor
`result`. -/
theorem step_log_indep (p : parameters) (store : block_store) (r : Nat) (fs : List frame)
    (l l1 : List block_hash) :
    (∀ e, step p store ⟨r, fs, l⟩ = .error e → step p store ⟨r, fs, l1⟩ = .error e) ∧
    (∀ v1, step p store ⟨r, fs, l⟩ = .ok v1 →
      ∃ l2, step p store ⟨r, fs, l1⟩ = .ok ⟨v1.result, v1.frames, l2⟩) := by
  cases fs with
  | nil => simp [step]
  | cons cur rest =>
    simp only [step]
    split
    · split <;> simp
    · split
      · unfold balance_iteration
        split
        · simp
        · split <;> simp
      · simp
    · split
      · unfold amount_iteration
        split
        · split
          · simp
          · split
            · simp
            · split <;> simp
        · simp
      · simp

/-- The value the loop returns does not depend on the initial log. -/
theorem loop_log_indep (p : parameters) (store : block_store) (n : Nat) :
    ∀ (r : Nat) (fs : List frame) (l l1 : List block_hash),
      (loop p store n ⟨r, fs, l⟩).map summation_visitor.result
        = (loop p store n ⟨r, fs, l1⟩).map summation_visitor.result := by
  induction n with
  | zero => intro r fs l l1; cases fs <;> simp [loop, outcome.map]
  | succ n ih =>
    intro r fs l l1
    cases fs with
    | nil => simp [loop, outcome.map]
    | cons cur rest =>
      obtain ⟨he, ho⟩ := step_log_indep p store r (cur :: rest) l l1
      cases hs : step p store ⟨r, cur :: rest, l⟩ with
      | error e =>
        rw [loop_error p store n _ e (by simp) hs, loop_error p store n _ e (by simp) (he e hs)]
      | ok v1 =>
        obtain ⟨l2, h2⟩ := ho v1 hs
        rw [loop_ok p store n _ v1 (by simp) hs, loop_ok p store n _ _ (by simp) h2]
        obtain ⟨vr, vf, vl⟩ := v1
        exact ih vr vf vl l2

theorem visit_in_range (p : parameters) (store : block_store) (b : block) (cur : frame)
    (r : Nat) (hs : cur.sum < 2 ^ 128) (hi : cur.incoming_result < 2 ^ 128) (hr : r < 2 ^ 128) :
    (visit p store b cur r).1.sum < 2 ^ 128 ∧
    (visit p store b cur r).1.incoming_result < 2 ^ 128 ∧
    (visit p store b cur r).2 < 2 ^ 128 := by
  have hm : ∀ a : Nat, (cur.sum + a) % 2 ^ 128 < 2 ^ 128 := fun a => Nat.mod_lt _ (by norm_num)
  cases b <;> simp only [visit, summation_visitor.send_block, summation_visitor.state_block,
    summation_visitor.receive_block, summation_visitor.open_block,
    summation_visitor.change_block, sum_add, sum_set] <;> (try split) <;> (try split) <;>
    refine ⟨?_, ?_, ?_⟩ <;>
    first
      | exact hs | exact hi | exact hr | exact hm _ | exact Fin.isLt _ | exact (by norm_num)

theorem merge_balance_in_range (cur : frame) (r : Nat) (hs : cur.sum < 2 ^ 128)
    (hi : cur.incoming_result < 2 ^ 128) (hr : r < 2 ^ 128) :
    (merge_balance cur r).1.sum < 2 ^ 128 ∧ (merge_balance cur r).1.incoming_result < 2 ^ 128 ∧
    (merge_balance cur r).2 < 2 ^ 128 := by
  unfold merge_balance
  split
  · exact ⟨Nat.mod_lt _ (by norm_num), hi, Nat.mod_lt _ (by norm_num)⟩
  · exact ⟨hs, hi, hr⟩

theorem merge_amount_in_range (cur : frame) (r : Nat) (hs : cur.sum < 2 ^ 128)
    (hi : cur.incoming_result < 2 ^ 128) (hr : r < 2 ^ 128) :
    (merge_amount cur r).1.sum < 2 ^ 128 ∧ (merge_amount cur r).1.incoming_result < 2 ^ 128 ∧
    (merge_amount cur r).2 < 2 ^ 128 := by
  unfold merge_amount
  split
  · simp only [sum_set]
    split <;> exact ⟨by omega, hi, by omega⟩
  · exact ⟨hs, hi, hr⟩

theorem epilogue_in_range (x : frame) (rest : List frame) (hx : x.sum < 2 ^ 128)
    (hxi : x.incoming_result < 2 ^ 128)
    (hrest : ∀ f ∈ rest, f.sum < 2 ^ 128 ∧ f.incoming_result < 2 ^ 128) :
    ∀ f ∈ epilogue x rest, f.sum < 2 ^ 128 ∧ f.incoming_result < 2 ^ 128 := by
  unfold epilogue
  split
  · intro f hf
    rcases List.mem_cons.mp hf with h | h
    · subst h; exact ⟨hx, hxi⟩
    · exact hrest f h
  · cases rest with
    | nil => intro f hf; cases hf
    | cons a t =>
      intro f hf
      rcases List.mem_cons.mp hf with h | h
      · subst h; exact ⟨(hrest a (List.mem_cons_self _ _)).1, hx⟩
      · exact hrest f (List.mem_cons_of_mem _ h)

/-- One pass keeps every 128-bit quantity in range. -/
theorem step_in_range (p : parameters) (store : block_store) (v v1 : summation_visitor)
    (hs : step p store v = .ok v1) (hv : in_range v) : in_range v1 := by
  obtain ⟨r, fs, l⟩ := v
  obtain ⟨hr, hfs⟩ := hv
  simp only at hr hfs
  cases fs with
  | nil => simp only [step] at hs; cases hs; exact ⟨hr, hfs⟩
  | cons cur rest =>
    have hcur := hfs cur (List.mem_cons_self _ _)
    have hrest : ∀ f ∈ rest, f.sum < 2 ^ 128 ∧ f.incoming_result < 2 ^ 128 :=
      fun f hf => hfs f (List.mem_cons_of_mem _ hf)
    have hcons : ∀ (x : frame), x.sum < 2 ^ 128 → x.incoming_result < 2 ^ 128 →
        ∀ f ∈ x :: rest, f.sum < 2 ^ 128 ∧ f.incoming_result < 2 ^ 128 := by
      intro x h1 h2 f hf
      rcases List.mem_cons.mp hf with h | h
      · subst h; exact ⟨h1, h2⟩
      · exact hrest f h
    have hpush : ∀ (t : summation_type) (h : block_hash) (x : frame), x.sum < 2 ^ 128 →
        x.incoming_result < 2 ^ 128 →
        ∀ f ∈ new_frame t h :: x :: rest, f.sum < 2 ^ 128 ∧ f.incoming_result < 2 ^ 128 := by
      intro t h x h1 h2 f hf
      rcases List.mem_cons.mp hf with h | h
      · subst h; simp [new_frame]
      · exact hcons x h1 h2 f h
    simp only [step] at hs
    split at hs
    · split at hs
      · cases hs; exact ⟨hr, hfs⟩
      · cases hs
    · obtain ⟨m1, m2, m3⟩ := merge_balance_in_range cur r hcur.1 hcur.2 hr
      split at hs
      · unfold balance_iteration at hs
        split at hs
        · cases hs; exact ⟨m3, hpush _ _ _ m1 m2⟩
        · split at hs
          · cases hs
          · cases hs
            obtain ⟨w1, w2, w3⟩ := visit_in_range p store _ _ _ m1 m2 m3
            exact ⟨w3, hcons _ w1 w2⟩
      · cases hs
        exact ⟨m3, epilogue_in_range _ _ m1 m2 hrest⟩
    · obtain ⟨m1, m2, m3⟩ := merge_amount_in_range cur r hcur.1 hcur.2 hr
      split at hs
      · unfold amount_iteration at hs
        split at hs
        · split at hs
          · cases hs
            obtain ⟨w1, w2, w3⟩ := visit_in_range p store _ _ _ m1 m2 m3
            exact ⟨w3, hcons _ w1 w2⟩
          · split at hs
            · cases hs
              exact ⟨by simp [sum_set, uint128_max], hcons _ (by simp [sum_set, uint128_max]) m2⟩
            · split at hs
              · cases hs
                exact ⟨by simp [sum_set], hcons _ (by simp [sum_set]) m2⟩
              · cases hs
        · cases hs; exact ⟨m3, hpush _ _ _ m1 m2⟩
      · cases hs
        exact ⟨m3, epilogue_in_range _ _ m1 m2 hrest⟩

/-- The visitor the loop returns is in range if the initial one is. -/
theorem loop_in_range (p : parameters) (store : block_store) (n : Nat) :
    ∀ (v v1 : summation_visitor), loop p store n v = .returned v1 → in_range v → in_range v1 := by
  induction n with
  | zero =>
    intro v v1 h hv
    simp only [loop] at h
    split at h
    · cases h; exact hv
    · cases h
  | succ n ih =>
    intro v v1 h hv
    simp only [loop] at h
    split at h
    · cases h; exact hv
    · split at h
      · cases h
      · rename_i v2 hs
        exact ih v2 v1 h (step_in_range p store v v2 hs hv)

/-- A balance frame with no pending amount fetches and visits the block at its
`balance_hash`. -/
theorem step_balance_visit (p : parameters) (store : block_store) (r : Nat) (cur : frame)
    (rest : List frame) (l : List block_hash) (b : block)
    (ht : cur.type = summation_type.balance) (ha : cur.awaiting_result = false)
    (hz : cur.amount_hash = 0) (hb : store.block_get cur.balance_hash = some b) :
    step p store ⟨r, cur :: rest, l⟩
      = .ok ⟨(visit p store b cur r).2, (visit p store b cur r).1 :: rest,
          l ++ [cur.balance_hash]⟩ := by
  have h0 := block_get_ne_zero store _ _ hb
  simp [step, ht, merge_balance, ha, has_work, hz, h0, balance_iteration, hb]

/-- An amount frame with a pending `amount_hash` fetches and visits the block there. -/
theorem step_amount_visit (p : parameters) (store : block_store) (r : Nat) (cur : frame)
    (rest : List frame) (l : List block_hash) (b : block)
    (ht : cur.type = summation_type.amount) (ha : cur.awaiting_result = false)
    (hb : store.block_get cur.amount_hash = some b) :
    step p store ⟨r, cur :: rest, l⟩
      = .ok ⟨(visit p store b cur r).2, (visit p store b cur r).1 :: rest,
          l ++ [cur.amount_hash]⟩ := by
  have h0 := block_get_ne_zero store _ _ hb
  simp [step, ht, merge_amount, ha, has_work, h0, amount_iteration, hb]

/-- A frame with nothing pending is popped. -/
theorem step_finished (p : parameters) (store : block_store) (r : Nat) (cur : frame)
    (rest : List frame) (l : List block_hash)
    (ht : cur.type ≠ summation_type.invalid) (ha : cur.awaiting_result = false)
    (hz : cur.amount_hash = 0) (hb : cur.balance_hash = 0) :
    step p store ⟨r, cur :: rest, l⟩ = .ok ⟨r, epilogue cur rest, l⟩ := by
  cases hty : cur.type with
  | invalid => exact absurd hty ht
  | balance => simp [step, hty, merge_balance, ha, has_work, hz, hb]
  | amount => simp [step, hty, merge_amount, ha, has_work, hz, hb]

/-- Handlers never change the kind of a frame. -/
theorem visit_type (p : parameters) (store : block_store) (b : block) (cur : frame)
    (r : Nat) : (visit p store b cur r).1.type = cur.type := by
  cases b <;> simp only [visit, summation_visitor.send_block, summation_visitor.state_block,
    summation_visitor.receive_block, summation_visitor.open_block,
    summation_visitor.change_block, sum_add, sum_set] <;> (try split) <;> (try split) <;> rfl

/-- A traversal that is finished by the visit of its first block: two passes. -/
theorem compute_internal_one_visit (p : parameters) (store : block_store)
    (t : summation_type) (h : block_hash) (b : block) (fuel : Nat)
    (ht : t ≠ summation_type.invalid)
    (hb : store.block_get h = some b)
    (hz : (visit p store b (new_frame t h) 0).1.amount_hash = 0)
    (hbz : (visit p store b (new_frame t h) 0).1.balance_hash = 0) :
    compute_internal p store (fuel + 2) summation_visitor.fresh t h
      = .returned ⟨(visit p store b (new_frame t h) 0).2, [], [h]⟩ := by
  have hty : (visit p store b (new_frame t h) 0).1.type = t := by
    rw [visit_type]; rfl
  have haw : (visit p store b (new_frame t h) 0).1.awaiting_result = false := by
    rw [visit_awaiting]; rfl
  unfold compute_internal
  have h1 : step p store (summation_visitor.fresh.push t h)
      = .ok ⟨(visit p store b (new_frame t h) 0).2, [(visit p store b (new_frame t h) 0).1],
          [h]⟩ := by
    cases t with
    | invalid => exact absurd rfl ht
    | balance =>
      exact step_balance_visit p store 0 (new_frame .balance h) [] [] b rfl rfl rfl hb
    | amount =>
      exact step_amount_visit p store 0 (new_frame .amount h) [] [] b rfl rfl hb
  rw [loop_ok p store (fuel + 1) _ _ (by simp [summation_visitor.push]) h1]
  rw [loop_ok p store fuel _ _ (by simp) (step_finished p store _ _ [] _ (by rw [hty]; exact ht) haw hz hbz)]
  simp [epilogue, haw, loop_nil]

/-- C1: where the store holds a Send or State block with balance field `B` under `h`,
`compute_balance (h)` on a fresh visitor returns exactly `B` (for every fuel of at
least 2), and the only `block_get` call of the traversal is the one for `h`, whatever
else the store contains. -/
theorem compute_balance_send_or_state (p : parameters) (store : block_store)
    (h : block_hash) (B : amount) (fuel : Nat)
    (hb : (∃ b : btcb.send_block, store.block_get h = some (.send_block b) ∧ b.balance = B) ∨
      (∃ b : btcb.state_block, store.block_get h = some (.state_block b) ∧ b.balance = B)) :
    compute_balance p store (fuel + 2) summation_visitor.fresh h = .returned B.val ∧
    compute_internal p store (fuel + 2) summation_visitor.fresh summation_type.balance h
      = .returned ⟨B.val, [], [h]⟩ := by
  have key : compute_internal p store (fuel + 2) summation_visitor.fresh
      summation_type.balance h = .returned ⟨B.val, [], [h]⟩ := by
    rcases hb with ⟨b, hb, hB⟩ | ⟨b, hb, hB⟩
    · rw [compute_internal_one_visit p store _ h _ fuel (by decide) hb (by rfl) (by rfl)]
      simp [visit, summation_visitor.send_block, new_frame, sum_add, hB]
    · rw [compute_internal_one_visit p store _ h _ fuel (by decide) hb (by rfl) (by rfl)]
      simp [visit, summation_visitor.state_block, new_frame, sum_set, hB]
  exact ⟨by simp [compute_balance, key, outcome.map], key⟩

/-- C4: where the store holds under `h` an Open block whose source is the genesis
account, `compute_amount (h)` on a fresh visitor returns `genesis_amount`; the only
`block_get` call is the one for `h`, so nothing depends on what is stored under the
genesis account. -/
theorem compute_amount_open_genesis (p : parameters) (store : block_store)
    (h : block_hash) (b : btcb.open_block) (fuel : Nat)
    (hb : store.block_get h = some (.open_block b)) (hs : b.source = p.genesis_account) :
    compute_amount p store (fuel + 2) summation_visitor.fresh h
      = .returned p.genesis_amount.val ∧
    compute_internal p store (fuel + 2) summation_visitor.fresh summation_type.amount h
      = .returned ⟨p.genesis_amount.val, [], [h]⟩ := by
  have key : compute_internal p store (fuel + 2) summation_visitor.fresh
      summation_type.amount h = .returned ⟨p.genesis_amount.val, [], [h]⟩ := by
    rw [compute_internal_one_visit p store _ h _ fuel (by decide) hb
      (by simp [visit, summation_visitor.open_block, new_frame, hs])
      (by simp [visit, summation_visitor.open_block, new_frame, hs, sum_set])]
    simp [visit, summation_visitor.open_block, new_frame, sum_set, hs]
  exact ⟨by simp [compute_amount, key, outcome.map], key⟩

/-- C6: where the store holds under `h` a Receive or Change block for whose own hash
`block_info_get` finds cached information with balance `C`, `compute_balance (h)` on a
fresh visitor returns `C`, and the only `block_get` call is the one for `h`: neither
`source` nor `previous` is followed. -/
theorem compute_balance_cached_info (p : parameters) (store : block_store)
    (h : block_hash) (b : block) (info : block_info) (fuel : Nat)
    (hb : store.block_get h = some b)
    (hk : (∃ x, b = .receive_block x) ∨ (∃ x, b = .change_block x))
    (hi : store.block_info_get b.hash = some info) :
    compute_balance p store (fuel + 2) summation_visitor.fresh h
      = .returned info.balance.val ∧
    compute_internal p store (fuel + 2) summation_visitor.fresh summation_type.balance h
      = .returned ⟨info.balance.val, [], [h]⟩ := by
  have key : compute_internal p store (fuel + 2) summation_visitor.fresh
      summation_type.balance h = .returned ⟨info.balance.val, [], [h]⟩ := by
    rcases hk with ⟨x, hx⟩ | ⟨x, hx⟩
    · subst hx
      simp only [block.hash] at hi
      rw [compute_internal_one_visit p store _ h _ fuel (by decide) hb
        (by simp [visit, summation_visitor.receive_block, new_frame, hi, sum_add])
        (by simp [visit, summation_visitor.receive_block, new_frame, hi, sum_add])]
      simp [visit, summation_visitor.receive_block, new_frame, sum_add, hi]
    · subst hx
      simp only [block.hash] at hi
      rw [compute_internal_one_visit p store _ h _ fuel (by decide) hb
        (by simp [visit, summation_visitor.change_block, new_frame, hi, sum_add])
        (by simp [visit, summation_visitor.change_block, new_frame, hi, sum_add])]
      simp [visit, summation_visitor.change_block, new_frame, sum_add, hi]
  exact ⟨by simp [compute_balance, key, outcome.map], key⟩

theorem abs_diff_eq (a b : Nat) :
    (if a < b then b - a else a - b) = Int.natAbs ((a : Int) - (b : Int)) := by
  split <;> omega

/-- A sub-computation that returns `X` when run on a fresh visitor hands `X` to the
frame below when it runs as a child frame, within the same number of passes. -/
theorem nested_fresh (p : parameters) (store : block_store) (t : summation_type)
    (x : block_hash) (n X : Nat)
    (hrun : (compute_internal p store n summation_visitor.fresh t x).map
      summation_visitor.result = .returned X)
    (r1 : Nat) (l1 : List block_hash) (parent : frame) (below : List frame) :
    ∃ k r2 l2, k ≤ n ∧ ∀ m, loop p store (k + m) ⟨r1, new_frame t x :: parent :: below, l1⟩
      = loop p store m ⟨r2, { parent with incoming_result := X } :: below, l2⟩ := by
  unfold compute_internal summation_visitor.push summation_visitor.fresh at hrun
  cases hl : loop p store n ⟨0, [new_frame t x], []⟩ with
  | aborted e => rw [hl] at hrun; cases hrun
  | out_of_fuel => rw [hl] at hrun; cases hrun
  | returned v =>
    rw [hl] at hrun
    simp only [outcome.map] at hrun
    cases hrun
    exact loop_nested p store n 0 [new_frame t x] [] v (by simp) (fun _ => rfl) hl r1 l1
      parent below

/-- The value a fresh traversal returns is below `2 ^ 128`. -/
theorem compute_internal_lt (p : parameters) (store : block_store) (t : summation_type)
    (x : block_hash) (n X : Nat)
    (hrun : (compute_internal p store n summation_visitor.fresh t x).map
      summation_visitor.result = .returned X) : X < 2 ^ 128 := by
  unfold compute_internal summation_visitor.push summation_visitor.fresh at hrun
  cases hl : loop p store n ⟨0, [new_frame t x], []⟩ with
  | aborted e => rw [hl] at hrun; cases hrun
  | out_of_fuel => rw [hl] at hrun; cases hrun
  | returned v =>
    rw [hl] at hrun
    simp only [outcome.map] at hrun
    cases hrun
    refine (loop_in_range p store n _ v hl ⟨by norm_num, ?_⟩).1
    intro f hf
    simp only [List.mem_singleton] at hf
    subst hf
    simp [new_frame]

/-- A fresh traversal of the zero hash returns 0 without touching the store. -/
theorem compute_internal_zero (p : parameters) (store : block_store) (t : summation_type)
    (n X : Nat) (ht : t ≠ summation_type.invalid)
    (hrun : (compute_internal p store n summation_visitor.fresh t 0).map
      summation_visitor.result = .returned X) : X = 0 := by
  unfold compute_internal summation_visitor.push summation_visitor.fresh at hrun
  cases n with
  | zero => simp [loop, outcome.map] at hrun
  | succ n =>
    rw [loop_ok p store n _ _ (by simp)
      (step_finished p store 0 (new_frame t 0) [] [] (by simpa [new_frame] using ht) rfl
        (by simp [new_frame]) (by simp [new_frame]))] at hrun
    simp [epilogue, new_frame, loop_nil, outcome.map] at hrun
    exact hrun.symm

/-- The amount of a Send or State block: the block's balance field against the balance
at its `previous`, the larger minus the smaller. -/
theorem amount_send_or_state (p : parameters) (store : block_store) (h P : block_hash)
    (B : amount) (n X fuel : Nat)
    (hb : (∃ b : btcb.send_block, store.block_get h = some (.send_block b) ∧ b.balance = B ∧
        b.previous = P) ∨
      (∃ b : btcb.state_block, store.block_get h = some (.state_block b) ∧ b.balance = B ∧
        b.previous = P))
    (hrun : compute_balance p store n summation_visitor.fresh P = .returned X)
    (hfuel : n + 3 ≤ fuel) :
    compute_amount p store fuel summation_visitor.fresh h
      = .returned (Int.natAbs ((B.val : Int) - (X : Int))) := by
  have h1 : step p store ⟨0, [new_frame summation_type.amount h], []⟩
      = .ok ⟨B.val, [⟨summation_type.amount, B.val, P, 0, false, 0⟩], [h]⟩ := by
    rcases hb with ⟨b, hb, hB, hP⟩ | ⟨b, hb, hB, hP⟩
    · rw [step_amount_visit p store 0 (new_frame .amount h) [] [] _ rfl rfl hb]
      simp [visit, summation_visitor.send_block, new_frame, sum_set, hB, hP]
    · rw [step_amount_visit p store 0 (new_frame .amount h) [] [] _ rfl rfl hb]
      simp [visit, summation_visitor.state_block, new_frame, sum_set, hB, hP]
  unfold compute_amount compute_internal summation_visitor.push summation_visitor.fresh
  by_cases hP : P = 0
  · subst hP
    have hX := compute_internal_zero p store _ n X (by decide) hrun
    subst hX
    obtain ⟨m, rfl⟩ : ∃ m, fuel = m + 2 := ⟨fuel - 2, by omega⟩
    rw [loop_ok p store (m + 1) _ _ (by simp) h1,
      loop_ok p store m _ _ (by simp) (step_finished p store _ _ [] _ (by simp) rfl rfl rfl)]
    simp [epilogue, loop_nil, outcome.map]
  · have h2 : step p store ⟨B.val, [⟨summation_type.amount, B.val, P, 0, false, 0⟩], [h]⟩
        = .ok ⟨B.val, [new_frame summation_type.balance P,
            ⟨summation_type.amount, B.val, 0, 0, true, 0⟩], [h]⟩ := by
      simp [step, merge_amount, has_work, hP, amount_iteration]
    obtain ⟨k, r2, l2, hk, hnest⟩ := nested_fresh p store summation_type.balance P n X hrun
      B.val [h] ⟨summation_type.amount, B.val, 0, 0, true, 0⟩ []
    have h3 : step p store ⟨r2, [⟨summation_type.amount, B.val, 0, 0, true, X⟩], l2⟩
        = .ok ⟨Int.natAbs ((B.val : Int) - (X : Int)), [], l2⟩ := by
      simp [step, merge_amount, has_work, sum_set, epilogue, abs_diff_eq]
    obtain ⟨m, rfl⟩ : ∃ m, fuel = k + (m + 1) + 2 := ⟨fuel - k - 3, by omega⟩
    rw [loop_ok p store (k + (m + 1) + 1) _ _ (by simp) h1,
      loop_ok p store (k + (m + 1)) _ _ (by simp) h2, hnest (m + 1),
      loop_ok p store m _ _ (by simp) h3]
    simp [loop_nil, outcome.map]

/-- The balance at an Open block is the amount of its source. -/
theorem balance_open (p : parameters) (store : block_store) (h : block_hash)
    (b : btcb.open_block) (n A fuel : Nat)
    (hb : store.block_get h = some (.open_block b))
    (hrun : compute_amount p store n summation_visitor.fresh b.source = .returned A)
    (hfuel : n + 3 ≤ fuel) :
    compute_balance p store fuel summation_visitor.fresh h = .returned A := by
  have hA : A < 2 ^ 128 := compute_internal_lt p store _ _ n A hrun
  have h1 : step p store ⟨0, [new_frame summation_type.balance h], []⟩
      = .ok ⟨0, [⟨summation_type.balance, 0, 0, b.source, false, 0⟩], [h]⟩ := by
    rw [step_balance_visit p store 0 (new_frame .balance h) [] [] _ rfl rfl rfl hb]
    simp [visit, summation_visitor.open_block, new_frame]
  unfold compute_balance compute_internal summation_visitor.push summation_visitor.fresh
  by_cases hS : b.source = 0
  · rw [hS] at hrun h1
    have hX := compute_internal_zero p store _ n A (by decide) hrun
    subst hX
    obtain ⟨m, rfl⟩ : ∃ m, fuel = m + 2 := ⟨fuel - 2, by omega⟩
    rw [loop_ok p store (m + 1) _ _ (by simp) h1,
      loop_ok p store m _ _ (by simp) (step_finished p store _ _ [] _ (by simp) rfl rfl rfl)]
    simp [epilogue, loop_nil, outcome.map]
  · have h2 : step p store ⟨0, [⟨summation_type.balance, 0, 0, b.source, false, 0⟩], [h]⟩
        = .ok ⟨0, [new_frame summation_type.amount b.source,
            ⟨summation_type.balance, 0, 0, 0, true, 0⟩], [h]⟩ := by
      simp [step, merge_balance, has_work, hS, balance_iteration]
    obtain ⟨k, r2, l2, hk, hnest⟩ := nested_fresh p store summation_type.amount b.source n A
      hrun 0 [h] ⟨summation_type.balance, 0, 0, 0, true, 0⟩ []
    have h3 : step p store ⟨r2, [⟨summation_type.balance, 0, 0, 0, true, A⟩], l2⟩
        = .ok ⟨A, [], l2⟩ := by
      simp only [step, merge_balance, has_work, sum_add, epilogue, Nat.zero_add,
        Nat.mod_eq_of_lt hA]
      simp
    obtain ⟨m, rfl⟩ : ∃ m, fuel = k + (m + 1) + 2 := ⟨fuel - k - 3, by omega⟩
    rw [loop_ok p store (k + (m + 1) + 1) _ _ (by simp) h1,
      loop_ok p store (k + (m + 1)) _ _ (by simp) h2, hnest (m + 1),
      loop_ok p store m _ _ (by simp) h3]
    simp [loop_nil, outcome.map]

/-- The amount at a hash that is absent from the store and equals the genesis account
is the largest 128-bit value. -/
theorem amount_absent_genesis (p : parameters) (store : block_store) (fuel : Nat)
    (h0 : p.genesis_account ≠ 0) (hb : store.block_get p.genesis_account = none) :
    compute_amount p store (fuel + 2) summation_visitor.fresh p.genesis_account
      = .returned (2 ^ 128 - 1) := by
  unfold compute_amount compute_internal summation_visitor.push summation_visitor.fresh
  have h1 : step p store ⟨0, [new_frame summation_type.amount p.genesis_account], []⟩
      = .ok ⟨2 ^ 128 - 1, [⟨summation_type.amount, 2 ^ 128 - 1, 0, 0, false, 0⟩],
          [p.genesis_account]⟩ := by
    simp [step, merge_amount, has_work, new_frame, h0, amount_iteration, hb, sum_set,
      uint128_max]
  rw [loop_ok p store (fuel + 1) _ _ (by simp) h1,
    loop_ok p store fuel _ _ (by simp) (step_finished p store _ _ [] _ (by simp) rfl rfl rfl)]
  simp [epilogue, loop_nil, outcome.map]

/-- The amount at a Receive block is the amount at its source, with the same outcome
one pass later. -/
theorem amount_receive (p : parameters) (store : block_store) (h : block_hash)
    (b : btcb.receive_block) (fuel : Nat)
    (hb : store.block_get h = some (.receive_block b)) :
    compute_amount p store (fuel + 1) summation_visitor.fresh h
      = compute_amount p store fuel summation_visitor.fresh b.source := by
  unfold compute_amount compute_internal summation_visitor.push summation_visitor.fresh
  have h1 : step p store ⟨0, [new_frame summation_type.amount h], []⟩
      = .ok ⟨0, [new_frame summation_type.amount b.source], [h]⟩ := by
    rw [step_amount_visit p store 0 (new_frame .amount h) [] [] _ rfl rfl hb]
    simp [visit, summation_visitor.receive_block, new_frame]
  rw [loop_ok p store fuel _ _ (by simp) h1]
  exact loop_log_indep p store fuel 0 _ [h] []

/-- C2: where the store holds under `h` a Send or State block with balance field `B`
and previous link `P`, `compute_amount (h)` on a fresh visitor returns `B` when `P` is
the zero hash; otherwise, when `compute_balance (P)` returns `X`, it returns the
absolute difference of `B` and `X` as integers. -/
theorem compute_amount_send_or_state (p : parameters) (store : block_store)
    (h P : block_hash) (B : amount)
    (hb : (∃ b : btcb.send_block, store.block_get h = some (.send_block b) ∧ b.balance = B ∧
        b.previous = P) ∨
      (∃ b : btcb.state_block, store.block_get h = some (.state_block b) ∧ b.balance = B ∧
        b.previous = P)) :
    (P = 0 → ∀ fuel, compute_amount p store (fuel + 2) summation_visitor.fresh h
      = .returned B.val) ∧
    (P ≠ 0 → ∀ n X fuel, compute_balance p store n summation_visitor.fresh P = .returned X →
      n + 3 ≤ fuel →
      compute_amount p store fuel summation_visitor.fresh h
        = .returned (Int.natAbs ((B.val : Int) - (X : Int)))) := by
  constructor
  · intro hP fuel
    unfold compute_amount
    rcases hb with ⟨b, hb, hB, hbP⟩ | ⟨b, hb, hB, hbP⟩
    · rw [compute_internal_one_visit p store _ h _ fuel (by decide) hb (by rfl)
        (by simp [visit, summation_visitor.send_block, new_frame, sum_set, hbP, hP])]
      simp [visit, summation_visitor.send_block, new_frame, sum_set, hB, outcome.map]
    · rw [compute_internal_one_visit p store _ h _ fuel (by decide) hb (by rfl)
        (by simp [visit, summation_visitor.state_block, new_frame, sum_set, hbP, hP])]
      simp [visit, summation_visitor.state_block, new_frame, sum_set, hB, outcome.map]
  · intro _ n X fuel hrun hfuel
    exact amount_send_or_state p store h P B n X fuel hb hrun hfuel

/-- C3: where the store holds under `h` a Receive block with source `S`,
`compute_amount (h)` has the outcome of `compute_amount (S)` (one pass later); in
particular, when `S` holds a Send block with balance `B1` and previous `P1` and
`compute_balance (P1)` returns `X`, `compute_amount (h)` returns the absolute
difference of `B1` and `X`. -/
theorem compute_amount_receive (p : parameters) (store : block_store) (h : block_hash)
    (b : btcb.receive_block) (hb : store.block_get h = some (.receive_block b)) :
    (∀ fuel, compute_amount p store (fuel + 1) summation_visitor.fresh h
      = compute_amount p store fuel summation_visitor.fresh b.source) ∧
    (∀ (s : btcb.send_block) (n X fuel : Nat),
      store.block_get b.source = some (.send_block s) →
      compute_balance p store n summation_visitor.fresh s.previous = .returned X →
      n + 4 ≤ fuel →
      compute_amount p store fuel summation_visitor.fresh h
        = .returned (Int.natAbs ((s.balance.val : Int) - (X : Int)))) := by
  refine ⟨fun fuel => amount_receive p store h b fuel hb, ?_⟩
  intro s n X fuel hs hrun hfuel
  obtain ⟨m, rfl⟩ : ∃ m, fuel = m + 1 := ⟨fuel - 1, by omega⟩
  rw [amount_receive p store h b m hb]
  exact amount_send_or_state p store b.source s.previous s.balance n X m
    (Or.inl ⟨s, hs, rfl, rfl⟩) hrun (by omega)

/-- C7: where the store holds under `h` an Open block with source `S`,
`compute_balance (h)` on a fresh visitor returns what `compute_amount (S)` returns; in
particular, when `S` is the (non-zero) genesis account and no block is stored under
it, `compute_balance (h)` returns `2 ^ 128 - 1`. -/
theorem compute_balance_open (p : parameters) (store : block_store) (h : block_hash)
    (b : btcb.open_block) (hb : store.block_get h = some (.open_block b)) :
    (∀ n A fuel, compute_amount p store n summation_visitor.fresh b.source = .returned A →
      n + 3 ≤ fuel → compute_balance p store fuel summation_visitor.fresh h = .returned A) ∧
    (b.source = p.genesis_account → p.genesis_account ≠ 0 →
      store.block_get p.genesis_account = none →
      ∀ fuel, compute_balance p store (fuel + 5) summation_visitor.fresh h
        = .returned (2 ^ 128 - 1)) := by
  refine ⟨fun n A fuel hrun hfuel => balance_open p store h b n A fuel hb hrun hfuel, ?_⟩
  intro hs h0 hg fuel
  refine balance_open p store h b 2 _ (fuel + 5) hb ?_ (by omega)
  rw [hs]
  exact amount_absent_genesis p store 0 h0 hg

/-- Passes on an empty stack change nothing. -/
theorem passes_nil (p : parameters) (store : block_store) (k : Nat) (v : summation_visitor)
    (h : v.frames = []) : passes p store k v = .ok v := by
  induction k with
  | zero => rfl
  | succ k ih =>
    obtain ⟨r, fs, l⟩ := v
    simp only at h
    subst h
    simp only [passes, step]
    exact ih

/-- If `k` passes lead to a state with a non-empty stack, the loop gets there using
`k` units of fuel. -/
theorem loop_of_passes (p : parameters) (store : block_store) (k : Nat) :
    ∀ (v0 v : summation_visitor), passes p store k v0 = .ok v → v.frames ≠ [] →
      ∀ m, loop p store (k + m) v0 = loop p store m v := by
  induction k with
  | zero =>
    intro v0 v h _ m
    simp only [passes] at h
    cases h
    rw [Nat.zero_add]
  | succ k ih =>
    intro v0 v h hne m
    have h0 : v0.frames ≠ [] := by
      intro h0
      rw [passes_nil p store (k + 1) v0 h0] at h
      cases h
      exact hne h0
    simp only [passes] at h
    split at h
    · cases h
    · rename_i v1 hs
      rw [show k + 1 + m = (k + m) + 1 by omega, loop_ok p store (k + m) v0 v1 h0 hs]
      exact ih v1 v h hne m

/-- A pass that needs an absent block, other than the genesis account in an amount
frame, fails the assertion when assertions are compiled in. -/
theorem step_missing_assert (p : parameters) (store : block_store) (v : summation_visitor)
    (x : block_hash) (hn : next_block_get v = some x) (hx : store.block_get x = none)
    (hg : ¬ (top_type v = some summation_type.amount ∧ x = p.genesis_account))
    (hd : p.ndebug = false) : step p store v = .error fault.assertion_failed := by
  obtain ⟨r, fs, l⟩ := v
  cases fs with
  | nil => simp [next_block_get] at hn
  | cons cur rest =>
    simp only [next_block_get] at hn
    simp only [top_type, List.head?, Option.map] at hg
    simp only [step]
    split at hn
    · cases hn
    · rename_i hty
      split at hn
      · rename_i hw
        cases hn
        simp only [Bool.and_eq_true, beq_iff_eq] at hw
        simp [hw.1, balance_iteration, hw.2, hx, missing_block, hd]
      · cases hn
    · rename_i hty
      split at hn
      · rename_i hw
        cases hn
        simp only [Bool.and_eq_true] at hw
        have hne : (merge_amount cur r).1.amount_hash ≠ p.genesis_account := by
          intro h; exact hg ⟨by rw [hty], h⟩
        simp [hw.1, amount_iteration, hw.2, hx, hne, hd]
      · cases hn

/-- With assertions compiled out, a balance frame that needs an absent block
dereferences a null pointer. -/
theorem step_missing_null (p : parameters) (store : block_store) (v : summation_visitor)
    (x : block_hash) (hn : next_block_get v = some x) (hx : store.block_get x = none)
    (ht : top_type v = some summation_type.balance)
    (hd : p.ndebug = true) : step p store v = .error fault.null_dereference := by
  obtain ⟨r, fs, l⟩ := v
  cases fs with
  | nil => simp [next_block_get] at hn
  | cons cur rest =>
    simp only [next_block_get] at hn
    simp only [top_type, List.head?, Option.map, Option.some.injEq] at ht
    simp only [step]
    rw [ht] at hn ⊢
    simp only at hn ⊢
    split at hn
    · rename_i hw
      cases hn
      simp only [Bool.and_eq_true, beq_iff_eq] at hw
      simp [hw.1, balance_iteration, hw.2, hx, missing_block, hd]
    · cases hn

/-- With assertions compiled out, an amount frame that needs an absent block other than
the genesis account takes 0 as its sum and goes on. -/
theorem step_missing_zero (p : parameters) (store : block_store) (v : summation_visitor)
    (x : block_hash) (hn : next_block_get v = some x) (hx : store.block_get x = none)
    (ht : top_type v = some summation_type.amount) (hg : x ≠ p.genesis_account)
    (hd : p.ndebug = true) :
    ∃ cur rest, v.frames = cur :: rest ∧
      step p store v = .ok ⟨0, { (merge_amount cur v.result).1 with
        sum := 0, amount_hash := 0 } :: rest, v.block_gets ++ [x]⟩ := by
  obtain ⟨r, fs, l⟩ := v
  cases fs with
  | nil => simp [next_block_get] at hn
  | cons cur rest =>
    refine ⟨cur, rest, rfl, ?_⟩
    simp only [next_block_get] at hn
    simp only [top_type, List.head?, Option.map, Option.some.injEq] at ht
    simp only [step]
    rw [ht] at hn ⊢
    simp only at hn ⊢
    split at hn
    · rename_i hw
      cases hn
      simp only [Bool.and_eq_true] at hw
      simp [hw.1, amount_iteration, hw.2, hx, hg, hd, sum_set]
    · cases hn

/-- The hash handed to `block_get` is never the zero hash. -/
theorem next_block_get_ne_zero (v : summation_visitor) (x : block_hash)
    (hn : next_block_get v = some x) : x ≠ 0 := by
  obtain ⟨r, fs, l⟩ := v
  cases fs with
  | nil => simp [next_block_get] at hn
  | cons cur rest =>
    simp only [next_block_get] at hn
    split at hn
    · cases hn
    · split at hn
      · rename_i hw
        cases hn
        simp only [Bool.and_eq_true, beq_iff_eq, has_work, Bool.or_eq_true, bne_iff_ne] at hw
        rcases hw.1.2 with h | h
        · exact h
        · exact absurd hw.2 h
      · cases hn
    · split at hn
      · rename_i hw
        cases hn
        simp only [Bool.and_eq_true, bne_iff_ne] at hw
        exact hw.2
      · cases hn

/-- C9 (as amended): when a traversal started on a fresh visitor reaches, after `k`
passes, a state whose next pass hands to `block_get` a hash `x` that the store does not
hold (other than the genesis account looked up by an amount frame), then `x` is not the
zero hash, and: with assertions compiled in the traversal aborts with the assertion
failure for every fuel above `k` and returns no value; with assertions compiled out a
balance frame dereferences the null pointer (again no value is returned), while an
amount frame sets its sum and `result` to 0, clears `amount_hash` and goes on. -/
theorem missing_block_aborts (p : parameters) (store : block_store) (t : summation_type)
    (h x : block_hash) (k : Nat) (v : summation_visitor)
    (hk : passes p store k (summation_visitor.fresh.push t h) = .ok v)
    (hn : next_block_get v = some x) (hx : store.block_get x = none)
    (hg : ¬ (top_type v = some summation_type.amount ∧ x = p.genesis_account)) :
    x ≠ 0 ∧
    (p.ndebug = false → ∀ fuel, k < fuel →
      compute_internal p store fuel summation_visitor.fresh t h
        = .aborted fault.assertion_failed) ∧
    (p.ndebug = true → top_type v = some summation_type.balance → ∀ fuel, k < fuel →
      compute_internal p store fuel summation_visitor.fresh t h
        = .aborted fault.null_dereference) ∧
    (p.ndebug = true → top_type v = some summation_type.amount →
      ∃ cur rest, v.frames = cur :: rest ∧
        step p store v = .ok ⟨0, { (merge_amount cur v.result).1 with
          sum := 0, amount_hash := 0 } :: rest, v.block_gets ++ [x]⟩) := by
  have hne : v.frames ≠ [] := by
    intro h0
    obtain ⟨r, fs, l⟩ := v
    simp only at h0
    subst h0
    simp [next_block_get] at hn
  refine ⟨next_block_get_ne_zero v x hn, ?_, ?_, ?_⟩
  · intro hd fuel hf
    obtain ⟨m, rfl⟩ : ∃ m, fuel = k + (m + 1) := ⟨fuel - k - 1, by omega⟩
    unfold compute_internal
    rw [loop_of_passes p store k _ v hk hne (m + 1)]
    exact loop_error p store m v _ hne (step_missing_assert p store v x hn hx hg hd)
  · intro hd ht fuel hf
    obtain ⟨m, rfl⟩ : ∃ m, fuel = k + (m + 1) := ⟨fuel - k - 1, by omega⟩
    unfold compute_internal
    rw [loop_of_passes p store k _ v hk hne (m + 1)]
    exact loop_error p store m v _ hne (step_missing_null p store v x hn hx ht hd)
  · intro hd ht
    exact step_missing_zero p store v x hn hx ht (fun hxg => hg ⟨ht, hxg⟩) hd

/-- The balance at a Receive block without cached information whose `previous` holds a
Send block: the amount of the source plus the Send block's balance, on 128 bits (the
Send handler adds to the sum the frame already holds). -/
theorem balance_receive_over_send (p : parameters) (store : block_store) (h : block_hash)
    (b : btcb.receive_block) (s : btcb.send_block) (n A fuel : Nat)
    (hb : store.block_get h = some (.receive_block b))
    (hi : store.block_info_get b.hash = none)
    (hP : store.block_get b.previous = some (.send_block s))
    (hrun : compute_amount p store n summation_visitor.fresh b.source = .returned A)
    (hfuel : n + 4 ≤ fuel) :
    compute_balance p store fuel summation_visitor.fresh h
      = .returned ((A + s.balance.val) % 2 ^ 128) := by
  have hA : A < 2 ^ 128 := compute_internal_lt p store _ _ n A hrun
  have hP0 : b.previous ≠ 0 := block_get_ne_zero store _ _ hP
  have h1 : step p store ⟨0, [new_frame summation_type.balance h], []⟩
      = .ok ⟨0, [⟨summation_type.balance, 0, b.previous, b.source, false, 0⟩], [h]⟩ := by
    rw [step_balance_visit p store 0 (new_frame .balance h) [] [] _ rfl rfl rfl hb]
    simp [visit, summation_visitor.receive_block, new_frame, hi]
  unfold compute_balance compute_internal summation_visitor.push summation_visitor.fresh
  by_cases hS : b.source = 0
  · rw [hS] at hrun h1
    have hX := compute_internal_zero p store _ n A (by decide) hrun
    subst hX
    have h2 : step p store ⟨0, [⟨summation_type.balance, 0, b.previous, 0, false, 0⟩], [h]⟩
        = .ok ⟨s.balance.val, [⟨summation_type.balance, s.balance.val, 0, 0, false, 0⟩],
            [h, b.previous]⟩ := by
      rw [step_balance_visit p store 0 _ [] [h] _ rfl rfl rfl hP]
      simp [visit, summation_visitor.send_block, sum_add]
    obtain ⟨m, rfl⟩ : ∃ m, fuel = m + 3 := ⟨fuel - 3, by omega⟩
    rw [loop_ok p store (m + 2) _ _ (by simp) h1, loop_ok p store (m + 1) _ _ (by simp) h2,
      loop_ok p store m _ _ (by simp) (step_finished p store _ _ [] _ (by simp) rfl rfl rfl)]
    rw [Nat.zero_add, Nat.mod_eq_of_lt s.balance.isLt]
    simp [epilogue, loop_nil, outcome.map]
  · have h2 : step p store
          ⟨0, [⟨summation_type.balance, 0, b.previous, b.source, false, 0⟩], [h]⟩
        = .ok ⟨0, [new_frame summation_type.amount b.source,
            ⟨summation_type.balance, 0, b.previous, 0, true, 0⟩], [h]⟩ := by
      simp [step, merge_balance, has_work, hS, balance_iteration]
    obtain ⟨k, r2, l2, hk, hnest⟩ := nested_fresh p store summation_type.amount b.source n A
      hrun 0 [h] ⟨summation_type.balance, 0, b.previous, 0, true, 0⟩ []
    have h3 : step p store ⟨r2, [⟨summation_type.balance, 0, b.previous, 0, true, A⟩], l2⟩
        = .ok ⟨(A + s.balance.val) % 2 ^ 128,
            [⟨summation_type.balance, (A + s.balance.val) % 2 ^ 128, 0, 0, false, A⟩],
            l2 ++ [b.previous]⟩ := by
      simp only [step, merge_balance, has_work, sum_add, Nat.zero_add, Nat.mod_eq_of_lt hA]
      simp [hP0, balance_iteration, hP, visit, summation_visitor.send_block, sum_add]
    obtain ⟨m, rfl⟩ : ∃ m, fuel = k + (m + 2) + 2 := ⟨fuel - k - 4, by omega⟩
    rw [loop_ok p store (k + (m + 2) + 1) _ _ (by simp) h1,
      loop_ok p store (k + (m + 2)) _ _ (by simp) h2, hnest (m + 2),
      loop_ok p store (m + 1) _ _ (by simp) h3,
      loop_ok p store m _ _ (by simp) (step_finished p store _ _ [] _ (by simp) rfl rfl rfl)]
    simp [epilogue, loop_nil, outcome.map]

/-- C5 (counterexample): block `2` of the example ledger is a Receive of `1` on top of
the State block `3`, with no cached information. The amount of `1` is 3 and the
balance at `3` is 10, yet `compute_balance (2)` returns 10, not 13: in the balance
context too `state_block` does `sum_set`, so the balance of a State block replaces the
sum that already holds the received amount, where `send_block` adds to it. -/
theorem receive_over_state_drops_amount :
    example_store.block_get 2
      = some (.receive_block { hash := 2, previous := 3, source := 1 }) ∧
    example_store.block_info_get 2 = none ∧
    compute_amount example_parameters example_store 10 summation_visitor.fresh 1
      = .returned 3 ∧
    compute_balance example_parameters example_store 10 summation_visitor.fresh 3
      = .returned 10 ∧
    compute_balance example_parameters example_store 10 summation_visitor.fresh 2
      = .returned 10 ∧
    compute_balance example_parameters example_store 10 summation_visitor.fresh 2
      ≠ .returned ((3 + 10) % 2 ^ 128) := by
  decide

/-- C9 (counterexample): with assertions compiled out, the amount traversal of the
Receive block `9`, whose source `50` is absent, non-zero and not the genesis account,
returns 0, and the balance traversal of `9` returns the partial sum 3. -/
theorem missing_block_release_returns :
    passes release_parameters example_store 1
        (summation_visitor.fresh.push summation_type.amount 9)
      = .ok ⟨0, [new_frame summation_type.amount 50], [9]⟩ ∧
    next_block_get ⟨0, [new_frame summation_type.amount 50], [9]⟩ = some 50 ∧
    example_store.block_get 50 = none ∧
    (50 : block_hash) ≠ 0 ∧ 50 ≠ release_parameters.genesis_account ∧
    compute_amount release_parameters example_store 3 summation_visitor.fresh 9
      = .returned 0 ∧
    compute_balance release_parameters example_store 8 summation_visitor.fresh 9
      = .returned 3 := by
  refine ⟨rfl, ?_⟩
  decide

/-- Witness of C1 on the State block `3` and the Send block `1` of the example. -/
theorem compute_balance_send_or_state_witness :
    example_store.block_get 3
        = some (.state_block { hash := 3, previous := 0, balance := ⟨10, by decide⟩ }) ∧
    (compute_balance example_parameters example_store 2 summation_visitor.fresh 3
        = .returned 10 ∧
      compute_internal example_parameters example_store 2 summation_visitor.fresh
        summation_type.balance 3 = .returned ⟨10, [], [3]⟩) ∧
    (compute_balance example_parameters example_store 2 summation_visitor.fresh 1
        = .returned 3 ∧
      compute_internal example_parameters example_store 2 summation_visitor.fresh
        summation_type.balance 1 = .returned ⟨3, [], [1]⟩) :=
  ⟨rfl,
    compute_balance_send_or_state example_parameters example_store 3 ⟨10, by decide⟩ 0
      (Or.inr ⟨_, rfl, rfl⟩),
    compute_balance_send_or_state example_parameters example_store 1 ⟨3, by decide⟩ 0
      (Or.inl ⟨_, rfl, rfl⟩)⟩

/-- Witness of C2: block `1` (Send, balance 3, no previous) has amount 3; block `6`
(Send, balance 4, on top of the State block `3` with balance 10) has amount 6. -/
theorem compute_amount_send_or_state_witness :
    compute_balance example_parameters example_store 2 summation_visitor.fresh 3
      = .returned 10 ∧
    compute_amount example_parameters example_store 2 summation_visitor.fresh 1
      = .returned 3 ∧
    compute_amount example_parameters example_store 5 summation_visitor.fresh 6
      = .returned 6 :=
  ⟨rfl,
    (compute_amount_send_or_state example_parameters example_store 1 0 ⟨3, by decide⟩
      (Or.inl ⟨_, rfl, rfl, rfl⟩)).1 rfl 0,
    (compute_amount_send_or_state example_parameters example_store 6 3 ⟨4, by decide⟩
      (Or.inl ⟨_, rfl, rfl, rfl⟩)).2 (by decide) 2 10 5 rfl (by decide)⟩

/-- Witness of C3: block `2` is a Receive of the Send block `1` (balance 3, previous
the zero hash, whose balance is 0), so its amount is 3. -/
theorem compute_amount_receive_witness :
    example_store.block_get 2
        = some (.receive_block { hash := 2, previous := 3, source := 1 }) ∧
    compute_balance example_parameters example_store 1 summation_visitor.fresh 0
      = .returned 0 ∧
    compute_amount example_parameters example_store 3 summation_visitor.fresh 2
      = compute_amount example_parameters example_store 2 summation_visitor.fresh 1 ∧
    compute_amount example_parameters example_store 5 summation_visitor.fresh 2
      = .returned 3 :=
  ⟨rfl, rfl,
    (compute_amount_receive example_parameters example_store 2 _ rfl).1 2,
    (compute_amount_receive example_parameters example_store 2 _ rfl).2
      { hash := 1, previous := 0, balance := ⟨3, by decide⟩ } 1 0 5 rfl rfl (by decide)⟩

/-- Witness of C4 on the Open block `4`, whose source is the genesis account `99`. -/
theorem compute_amount_open_genesis_witness :
    example_store.block_get 4 = some (.open_block { hash := 4, source := 99 }) ∧
    example_store.block_get 99 = none ∧
    compute_amount example_parameters example_store 2 summation_visitor.fresh 4
      = .returned 1000 ∧
    compute_internal example_parameters example_store 2 summation_visitor.fresh
      summation_type.amount 4 = .returned ⟨1000, [], [4]⟩ :=
  ⟨rfl, rfl,
    compute_amount_open_genesis example_parameters example_store 4 _ 0 rfl rfl⟩

/-- Witness of C6 on the Receive block `7` (cached balance 7) and the Change block `5`
(cached balance 42). -/
theorem compute_balance_cached_info_witness :
    example_store.block_info_get 7 = some { balance := ⟨7, by decide⟩ } ∧
    (compute_balance example_parameters example_store 2 summation_visitor.fresh 7
        = .returned 7 ∧
      compute_internal example_parameters example_store 2 summation_visitor.fresh
        summation_type.balance 7 = .returned ⟨7, [], [7]⟩) ∧
    (compute_balance example_parameters example_store 2 summation_visitor.fresh 5
        = .returned 42 ∧
      compute_internal example_parameters example_store 2 summation_visitor.fresh
        summation_type.balance 5 = .returned ⟨42, [], [5]⟩) :=
  ⟨rfl,
    compute_balance_cached_info example_parameters example_store 7
      (.receive_block { hash := 7, previous := 6, source := 1 })
      { balance := ⟨7, by decide⟩ } 0 rfl (Or.inl ⟨_, rfl⟩) rfl,
    compute_balance_cached_info example_parameters example_store 5
      (.change_block { hash := 5, previous := 4 })
      { balance := ⟨42, by decide⟩ } 0 rfl (Or.inr ⟨_, rfl⟩) rfl⟩

/-- Witness of C7: the Open block `8` has source `6`, whose amount is 6; the Open block
`4` has the absent genesis account `99` as source. -/
theorem compute_balance_open_witness :
    compute_amount example_parameters example_store 5 summation_visitor.fresh 6
      = .returned 6 ∧
    compute_balance example_parameters example_store 8 summation_visitor.fresh 8
      = .returned 6 ∧
    example_store.block_get 99 = none ∧
    compute_balance example_parameters example_store 5 summation_visitor.fresh 4
      = .returned (2 ^ 128 - 1) :=
  ⟨rfl,
    (compute_balance_open example_parameters example_store 8 { hash := 8, source := 6 }
      rfl).1 5 6 8 rfl (by decide),
    rfl,
    (compute_balance_open example_parameters example_store 4 { hash := 4, source := 99 }
      rfl).2 rfl (by decide) rfl 0⟩

/-- Witness of C9 (as amended): the amount traversal of the Receive block `9` needs
the absent block `50` after one pass. With assertions compiled in it aborts; with
assertions compiled out the next pass takes 0 as the amount, and a balance traversal
started at `50` dereferences the null pointer. -/
theorem missing_block_aborts_witness :
    example_store.block_get 50 = none ∧
    (50 : block_hash) ≠ 0 ∧
    compute_internal example_parameters example_store 2 summation_visitor.fresh
      summation_type.amount 9 = .aborted fault.assertion_failed ∧
    compute_internal release_parameters example_store 1 summation_visitor.fresh
      summation_type.balance 50 = .aborted fault.null_dereference ∧
    (∃ cur rest, [new_frame summation_type.amount 50] = cur :: rest ∧
      step release_parameters example_store ⟨0, [new_frame summation_type.amount 50], [9]⟩
        = .ok ⟨0, { (merge_amount cur 0).1 with sum := 0, amount_hash := 0 } :: rest,
            [9] ++ [50]⟩) :=
  ⟨rfl,
    (missing_block_aborts example_parameters example_store summation_type.amount 9 50 1
      ⟨0, [new_frame summation_type.amount 50], [9]⟩ rfl rfl rfl (by decide)).1,
    (missing_block_aborts example_parameters example_store summation_type.amount 9 50 1
      ⟨0, [new_frame summation_type.amount 50], [9]⟩ rfl rfl rfl (by decide)).2.1 rfl 2
      (by decide),
    (missing_block_aborts release_parameters example_store summation_type.balance 50 50 0
      ⟨0, [new_frame summation_type.balance 50], []⟩ rfl rfl rfl (by decide)).2.2.1 rfl rfl 1
      (by decide),
    (missing_block_aborts release_parameters example_store summation_type.amount 9 50 1
      ⟨0, [new_frame summation_type.amount 50], [9]⟩ rfl rfl rfl (by decide)).2.2.2 rfl rfl⟩

/-- The merge of a pending result keeps kind and pending hashes and clears the flag
when it was set. -/
theorem merge_balance_fields (cur : frame) (r : Nat) :
    (merge_balance cur r).1.type = cur.type ∧
    (merge_balance cur r).1.balance_hash = cur.balance_hash ∧
    (merge_balance cur r).1.amount_hash = cur.amount_hash ∧
    (merge_balance cur r).1.awaiting_result = false := by
  unfold merge_balance
  split
  · exact ⟨rfl, rfl, rfl, rfl⟩
  · rename_i h
    exact ⟨rfl, rfl, rfl, by simpa using h⟩

theorem merge_amount_fields (cur : frame) (r : Nat) :
    (merge_amount cur r).1.type = cur.type ∧
    (merge_amount cur r).1.balance_hash = cur.balance_hash ∧
    (merge_amount cur r).1.amount_hash = cur.amount_hash ∧
    (merge_amount cur r).1.awaiting_result = false := by
  unfold merge_amount
  split
  · exact ⟨rfl, rfl, rfl, rfl⟩
  · rename_i h
    exact ⟨rfl, rfl, rfl, by simpa using h⟩

/-- What one successful pass does to the stack and to the log, by cases: nothing (a
frame of kind `invalid`), a push from a balance or from an amount frame, a visit from a
balance or from an amount frame, the handling of an absent block in an amount frame,
or a pop. `x` is the current frame after the merge. -/
theorem step_cases (p : parameters) (store : block_store) (r : Nat) (cur : frame)
    (rest : List frame) (l : List block_hash) (v1 : summation_visitor)
    (hs : step p store ⟨r, cur :: rest, l⟩ = .ok v1) :
    (cur.type = summation_type.invalid ∧ v1 = ⟨r, cur :: rest, l⟩) ∨
    ∃ x : frame, x.type = cur.type ∧ x.balance_hash = cur.balance_hash ∧
      x.amount_hash = cur.amount_hash ∧ x.awaiting_result = false ∧
      cur.type ≠ summation_type.invalid ∧
      ((x.type = summation_type.balance ∧ x.amount_hash ≠ 0 ∧
          v1.frames = new_frame summation_type.amount x.amount_hash ::
            { x with awaiting_result := true, amount_hash := 0 } :: rest ∧
          v1.block_gets = l) ∨
        (x.type = summation_type.amount ∧ x.amount_hash = 0 ∧ x.balance_hash ≠ 0 ∧
          v1.frames = new_frame summation_type.balance x.balance_hash ::
            { x with awaiting_result := true, balance_hash := 0 } :: rest ∧
          v1.block_gets = l) ∨
        (∃ b r1, x.type = summation_type.balance ∧ x.amount_hash = 0 ∧
          x.balance_hash ≠ 0 ∧ store.block_get x.balance_hash = some b ∧
          v1.frames = (visit p store b x r1).1 :: rest ∧
          v1.block_gets = l ++ [x.balance_hash]) ∨
        (∃ b r1, x.type = summation_type.amount ∧ x.amount_hash ≠ 0 ∧
          store.block_get x.amount_hash = some b ∧
          v1.frames = (visit p store b x r1).1 :: rest ∧
          v1.block_gets = l ++ [x.amount_hash]) ∨
        (∃ s, x.type = summation_type.amount ∧ x.amount_hash ≠ 0 ∧
          store.block_get x.amount_hash = none ∧
          v1.frames = { x with sum := s, amount_hash := 0 } :: rest ∧
          v1.block_gets = l ++ [x.amount_hash]) ∨
        (x.balance_hash = 0 ∧ x.amount_hash = 0 ∧ v1.frames = epilogue x rest ∧
          v1.block_gets = l)) := by
  simp only [step] at hs
  split at hs
  · rename_i hty
    split at hs
    · cases hs; exact Or.inl ⟨hty, rfl⟩
    · cases hs
  · rename_i hty
    obtain ⟨m1, m2, m3, m4⟩ := merge_balance_fields cur r
    refine Or.inr ⟨(merge_balance cur r).1, m1, m2, m3, m4, by rw [hty]; decide, ?_⟩
    split at hs
    · rename_i hw
      simp only [has_work, m4, Bool.not_false, Bool.true_and, Bool.or_eq_true,
        bne_iff_ne] at hw
      unfold balance_iteration at hs
      split at hs
      · rename_i ha
        cases hs
        exact Or.inl ⟨by rw [m1, hty], by simpa using ha, rfl, rfl⟩
      · rename_i ha
        have ha0 : (merge_balance cur r).1.amount_hash = 0 := by simpa using ha
        split at hs
        · cases hs
        · rename_i b hb
          cases hs
          refine Or.inr (Or.inr (Or.inl ⟨b, _, by rw [m1, hty], ha0, ?_, hb, rfl, rfl⟩))
          rcases hw with h | h
          · exact h
          · exact absurd ha0 h
    · rename_i hw
      simp only [has_work, m4, Bool.not_false, Bool.true_and, Bool.or_eq_true,
        bne_iff_ne, not_or, not_not] at hw
      cases hs
      exact Or.inr (Or.inr (Or.inr (Or.inr (Or.inr ⟨hw.1, hw.2, rfl, rfl⟩))))
  · rename_i hty
    obtain ⟨m1, m2, m3, m4⟩ := merge_amount_fields cur r
    refine Or.inr ⟨(merge_amount cur r).1, m1, m2, m3, m4, by rw [hty]; decide, ?_⟩
    split at hs
    · rename_i hw
      simp only [has_work, m4, Bool.not_false, Bool.true_and, Bool.or_eq_true,
        bne_iff_ne] at hw
      unfold amount_iteration at hs
      split at hs
      · rename_i ha
        have ha0 : (merge_amount cur r).1.amount_hash ≠ 0 := by simpa using ha
        split at hs
        · rename_i b hb
          cases hs
          exact Or.inr (Or.inr (Or.inr (Or.inl ⟨b, _, by rw [m1, hty], ha0, hb, rfl, rfl⟩)))
        · rename_i hb
          split at hs
          · cases hs
            exact Or.inr (Or.inr (Or.inr (Or.inr (Or.inl
              ⟨uint128_max, by rw [m1, hty], ha0, hb, rfl, rfl⟩))))
          · split at hs
            · cases hs
              exact Or.inr (Or.inr (Or.inr (Or.inr (Or.inl
                ⟨0, by rw [m1, hty], ha0, hb, rfl, rfl⟩))))
            · cases hs
      · rename_i ha
        have ha0 : (merge_amount cur r).1.amount_hash = 0 := by simpa using ha
        cases hs
        refine Or.inr (Or.inl ⟨by rw [m1, hty], ha0, ?_, rfl, rfl⟩)
        rcases hw with h | h
        · exact h
        · exact absurd ha0 h
    · rename_i hw
      simp only [has_work, m4, Bool.not_false, Bool.true_and, Bool.or_eq_true,
        bne_iff_ne, not_or, not_not] at hw
      cases hs
      exact Or.inr (Or.inr (Or.inr (Or.inr (Or.inr ⟨hw.1, hw.2, rfl, rfl⟩))))

/-- After a visit in a balance frame with no pending amount, each pending hash is a
link of the visited block. -/
theorem visit_balance_hashes (p : parameters) (store : block_store) (b : block) (x : frame)
    (r : Nat) (ht : x.type = summation_type.balance) (ha : x.amount_hash = 0) :
    ((visit p store b x r).1.balance_hash = 0 ∨ (visit p store b x r).1.balance_hash ∈ links b) ∧
    ((visit p store b x r).1.amount_hash = 0 ∨ (visit p store b x r).1.amount_hash ∈ links b) := by
  obtain ⟨ty, s, bh, ah, aw, inc⟩ := x
  simp only at ht ha
  subst ht ha
  cases b with
  | send_block y => simp [visit, summation_visitor.send_block, sum_add, links]
  | state_block y => simp [visit, summation_visitor.state_block, sum_set, links]
  | open_block y => simp [visit, summation_visitor.open_block, links]
  | receive_block y =>
    cases hi : store.block_info_get y.hash <;>
      simp [visit, summation_visitor.receive_block, sum_add, links, hi]
  | change_block y =>
    cases hi : store.block_info_get y.hash <;>
      simp [visit, summation_visitor.change_block, sum_add, links, hi]

/-- After a visit in an amount frame with no pending balance, at most one hash is
pending, and it is a link of the visited block. -/
theorem visit_amount_hashes (p : parameters) (store : block_store) (b : block) (x : frame)
    (r : Nat) (ht : x.type = summation_type.amount) (hb : x.balance_hash = 0) :
    ((visit p store b x r).1.balance_hash = 0 ∧
      ((visit p store b x r).1.amount_hash = 0 ∨
        (visit p store b x r).1.amount_hash ∈ links b)) ∨
    ((visit p store b x r).1.amount_hash = 0 ∧
      ((visit p store b x r).1.balance_hash = 0 ∨
        (visit p store b x r).1.balance_hash ∈ links b)) := by
  obtain ⟨ty, s, bh, ah, aw, inc⟩ := x
  simp only at ht hb
  subst ht hb
  cases b with
  | send_block y => simp [visit, summation_visitor.send_block, sum_set, links]
  | state_block y => simp [visit, summation_visitor.state_block, sum_set, links]
  | open_block y =>
    by_cases hg : y.source = p.genesis_account <;>
      simp [visit, summation_visitor.open_block, sum_set, links, hg]
  | receive_block y => simp [visit, summation_visitor.receive_block, links]
  | change_block y => simp [visit, summation_visitor.change_block, sum_set, links]

/-- In an amount frame that follows `hashes_ok`, a pending `amount_hash` means no
pending `balance_hash`. -/
theorem amount_balance_zero (cur : frame) (h : hashes_ok cur)
    (ht : cur.type = summation_type.amount) (ha : cur.amount_hash ≠ 0) :
    cur.balance_hash = 0 := by
  rcases h.1 ht with h1 | h1
  · exact h1
  · exact absurd h1 ha

/-- One pass keeps the stack invariant. -/
theorem step_stack_ok (p : parameters) (store : block_store) (r : Nat) (cur : frame)
    (rest : List frame) (l : List block_hash) (v1 : summation_visitor)
    (hs : step p store ⟨r, cur :: rest, l⟩ = .ok v1) (hok : stack_ok (cur :: rest)) :
    stack_ok v1.frames := by
  have hcur := hok cur (List.mem_cons_self _ _)
  have hrest : stack_ok rest := fun f hf => hok f (List.mem_cons_of_mem _ hf)
  have hcons : ∀ y : frame, (y.type ≠ summation_type.invalid ∧ hashes_ok y) →
      stack_ok (y :: rest) := by
    intro y hy f hf
    rcases List.mem_cons.mp hf with rfl | hf
    · exact hy
    · exact hrest f hf
  rcases step_cases p store r cur rest l v1 hs with ⟨hty, -⟩ |
    ⟨x, xt, xb, xa, xw, hty, hc⟩
  · exact absurd hty hcur.1
  · rcases hc with ⟨ht, ha, hf, -⟩ | ⟨ht, ha, hb, hf, -⟩ | ⟨b, r1, ht, ha, hb, hg, hf, -⟩ |
      ⟨b, r1, ht, ha, hg, hf, -⟩ | ⟨s, ht, ha, hg, hf, -⟩ | ⟨hb, ha, hf, -⟩
    · rw [hf]
      intro f hmem
      rcases List.mem_cons.mp hmem with rfl | hmem
      · simp [new_frame, hashes_ok]
      · refine hcons _ ⟨by simp [ht], ?_⟩ f hmem
        simp [hashes_ok, ht]
    · rw [hf]
      intro f hmem
      rcases List.mem_cons.mp hmem with rfl | hmem
      · simp [new_frame, hashes_ok]
      · refine hcons _ ⟨by simp [ht], ?_⟩ f hmem
        simp [hashes_ok, ha]
    · rw [hf]
      refine hcons _ ⟨by rw [visit_type, ht]; decide, ?_⟩
      simp [hashes_ok, visit_type, visit_awaiting, ht, xw]
    · rw [hf]
      have hb0 : x.balance_hash = 0 := by
        rw [xb]; exact amount_balance_zero cur hcur.2 (by rw [← xt, ht]) (by rw [← xa]; exact ha)
      refine hcons _ ⟨by rw [visit_type, ht]; decide, ?_⟩
      refine ⟨fun _ => ?_, ?_⟩
      · rcases visit_amount_hashes p store b x r1 ht hb0 with h | h
        · exact Or.inl h.1
        · exact Or.inr h.1
      · rw [visit_awaiting, xw]; intro h; cases h
    · rw [hf]
      refine hcons _ ⟨by simp [ht], ?_⟩
      simp [hashes_ok, xw]
    · rw [hf]
      unfold epilogue
      rw [xw]
      simp only [Bool.false_eq_true, if_false]
      cases rest with
      | nil => intro f hf; cases hf
      | cons a t =>
        intro f hmem
        rcases List.mem_cons.mp hmem with rfl | hmem
        · have ha := hrest a (List.mem_cons_self _ _)
          exact ⟨ha.1, ha.2⟩
        · exact hrest f (List.mem_cons_of_mem _ hmem)

/-- An invariant of single passes holds after any number of passes. -/
theorem passes_invariant (p : parameters) (store : block_store)
    (I : summation_visitor → Prop)
    (hI : ∀ v v1, I v → step p store v = .ok v1 → I v1) (k : Nat) :
    ∀ v v1, passes p store k v = .ok v1 → I v → I v1 := by
  induction k with
  | zero => intro v v1 h hv; simp only [passes] at h; cases h; exact hv
  | succ k ih =>
    intro v v1 h hv
    simp only [passes] at h
    split at h
    · cases h
    · rename_i v2 hs
      exact ih v2 v1 h (hI v v2 hv hs)

/-- The stack invariant holds in every state a balance or amount traversal reaches. -/
theorem reached_stack_ok (p : parameters) (store : block_store) (t : summation_type)
    (h : block_hash) (k : Nat) (v : summation_visitor) (ht : t ≠ summation_type.invalid)
    (hk : passes p store k (summation_visitor.fresh.push t h) = .ok v) :
    stack_ok v.frames := by
  refine passes_invariant p store (fun v => stack_ok v.frames) ?_ k _ v hk ?_
  · intro v v1 hv hs
    obtain ⟨r, fs, l⟩ := v
    cases fs with
    | nil => simp only [step] at hs; cases hs; exact hv
    | cons cur rest => exact step_stack_ok p store r cur rest l v1 hs hv
  · intro f hf
    simp only [summation_visitor.push, summation_visitor.fresh, List.mem_singleton] at hf
    subst hf
    refine ⟨by simpa [new_frame] using ht, ?_⟩
    cases t <;> simp [new_frame, hashes_ok]

/-- Every frame below the top of the stack awaits a result, in every state a traversal
reaches. -/
theorem reached_below_awaiting (p : parameters) (store : block_store) (t : summation_type)
    (h : block_hash) (k : Nat) (v : summation_visitor)
    (hk : passes p store k (summation_visitor.fresh.push t h) = .ok v) :
    ∀ f ∈ v.frames.tail, f.awaiting_result = true := by
  refine passes_invariant p store (fun v => ∀ f ∈ v.frames.tail, f.awaiting_result = true)
    ?_ k _ v hk ?_
  · intro v v1 hv hs
    obtain ⟨r, fs, l⟩ := v
    cases fs with
    | nil => simp only [step] at hs; cases hs; exact hv
    | cons cur rest =>
      simp only [List.tail_cons] at hv
      rcases step_cases p store r cur rest l v1 hs with ⟨-, rfl⟩ |
        ⟨x, xt, xb, xa, xw, hty, hc⟩
      · exact hv
      · rcases hc with ⟨ht, ha, hf, -⟩ | ⟨ht, ha, hb, hf, -⟩ |
          ⟨b, r1, ht, ha, hb, hg, hf, -⟩ | ⟨b, r1, ht, ha, hg, hf, -⟩ |
          ⟨s, ht, ha, hg, hf, -⟩ | ⟨hb, ha, hf, -⟩
        · rw [hf]
          intro f hmem
          rcases List.mem_cons.mp hmem with rfl | hmem
          · rfl
          · exact hv f hmem
        · rw [hf]
          intro f hmem
          rcases List.mem_cons.mp hmem with rfl | hmem
          · rfl
          · exact hv f hmem
        · rw [hf]; exact hv
        · rw [hf]; exact hv
        · rw [hf]; exact hv
        · rw [hf]
          unfold epilogue
          rw [xw]
          simp only [Bool.false_eq_true, if_false]
          cases rest with
          | nil => intro f hf; cases hf
          | cons a u =>
            intro f hmem
            exact hv f (List.mem_cons_of_mem _ hmem)
  · intro f hf
    simp [summation_visitor.push, summation_visitor.fresh] at hf

/-- A frame with no pending hash on top of the stack is popped by the next pass. -/
theorem step_resolved (p : parameters) (store : block_store) (r : Nat) (cur : frame)
    (rest : List frame) (l : List block_hash) (ht : cur.type ≠ summation_type.invalid)
    (hb : cur.balance_hash = 0) (ha : cur.amount_hash = 0) :
    ∃ v1, step p store ⟨r, cur :: rest, l⟩ = .ok v1 ∧ v1.frames.length = rest.length := by
  have hlen : ∀ x : frame, x.awaiting_result = false →
      (epilogue x rest).length = rest.length := by
    intro x hx
    unfold epilogue
    rw [hx]
    cases rest <;> simp
  cases hty : cur.type with
  | invalid => exact absurd hty ht
  | balance =>
    obtain ⟨m1, m2, m3, m4⟩ := merge_balance_fields cur r
    refine ⟨⟨(merge_balance cur r).2, epilogue (merge_balance cur r).1 rest, l⟩, ?_,
      hlen (merge_balance cur r).1 m4⟩
    simp [step, hty, has_work, m2, m3, m4, hb, ha]
  | amount =>
    obtain ⟨m1, m2, m3, m4⟩ := merge_amount_fields cur r
    refine ⟨⟨(merge_amount cur r).2, epilogue (merge_amount cur r).1 rest, l⟩, ?_,
      hlen (merge_amount cur r).1 m4⟩
    simp [step, hty, has_work, m2, m3, m4, hb, ha]

/-- C16 (counterexample): one pass into the balance traversal of the Receive block `2`
of the example ledger (no cached information), the frame on the stack has
`balance_hash = 3` and `amount_hash = 1`, both non-zero. -/
theorem receive_frame_has_both_pending :
    passes example_parameters example_store 1
        (summation_visitor.fresh.push summation_type.balance 2)
      = .ok ⟨0, [⟨summation_type.balance, 0, 3, 1, false, 0⟩], [2]⟩ ∧
    has_work ⟨summation_type.balance, 0, 3, 1, false, 0⟩ = true ∧
    one_pending ⟨summation_type.balance, 0, 3, 1, false, 0⟩ = false := by
  refine ⟨rfl, ?_⟩
  decide

/-- C16 (as amended): in every state reached during a balance or amount traversal
started on a fresh visitor, every amount frame and every frame below the top of the
stack that has a pending hash has exactly one of `balance_hash` / `amount_hash`
non-zero (a frame that awaits a result has `amount_hash = 0`), and a frame with both
zero is resolved: when it is on top of the stack the next pass pops it. -/
theorem pending_hashes_discipline (p : parameters) (store : block_store)
    (t : summation_type) (h : block_hash) (k : Nat) (v : summation_visitor)
    (ht : t ≠ summation_type.invalid)
    (hk : passes p store k (summation_visitor.fresh.push t h) = .ok v) :
    (∀ f ∈ v.frames, f.type = summation_type.amount →
      (f.balance_hash ≠ 0 ∨ f.amount_hash ≠ 0) → one_pending f = true) ∧
    (∀ f ∈ v.frames.tail,
      f.awaiting_result = true ∧ f.amount_hash = 0 ∧
      ((f.balance_hash ≠ 0 ∨ f.amount_hash ≠ 0) → one_pending f = true)) ∧
    (∀ cur rest, v.frames = cur :: rest → cur.balance_hash = 0 → cur.amount_hash = 0 →
      ∃ v1, step p store v = .ok v1 ∧ v1.frames.length = rest.length) := by
  have hok := reached_stack_ok p store t h k v ht hk
  have haw := reached_below_awaiting p store t h k v hk
  refine ⟨?_, ?_, ?_⟩
  · intro f hf hty hwork
    rcases (hok f hf).2.1 hty with h0 | h0
    · rcases hwork with h1 | h1
      · exact absurd h0 h1
      · simp [one_pending, h0, h1]
    · rcases hwork with h1 | h1
      · simp [one_pending, h0, h1]
      · exact absurd h0 h1
  · intro f hf
    have hfa := haw f hf
    have hfo := (hok f (List.mem_of_mem_tail hf)).2.2 hfa
    refine ⟨hfa, hfo.1, ?_⟩
    intro hwork
    rcases hwork with h1 | h1
    · simp [one_pending, hfo.1, h1]
    · exact absurd hfo.1 h1
  · intro cur rest hfr hb ha
    obtain ⟨r, fs, l⟩ := v
    simp only at hfr
    subst hfr
    exact step_resolved p store r cur rest l (hok cur (List.mem_cons_self _ _)).1 hb ha

/-- Witness of C16 (as amended) on the amount traversal of the Send block `6` of the
example ledger: after two passes the amount frame awaits the balance at `3`, with no
hash pending. -/
theorem pending_hashes_discipline_witness :
    passes example_parameters example_store 2
        (summation_visitor.fresh.push summation_type.amount 6)
      = .ok ⟨4, [new_frame summation_type.balance 3,
          ⟨summation_type.amount, 4, 0, 0, true, 0⟩], [6]⟩ ∧
    (∀ f ∈ [new_frame summation_type.balance 3,
        (⟨summation_type.amount, 4, 0, 0, true, 0⟩ : frame)].tail,
      f.awaiting_result = true ∧ f.amount_hash = 0 ∧
      ((f.balance_hash ≠ 0 ∨ f.amount_hash ≠ 0) → one_pending f = true)) :=
  ⟨rfl,
    (pending_hashes_discipline example_parameters example_store summation_type.amount 6 2
      ⟨4, [new_frame summation_type.balance 3, ⟨summation_type.amount, 4, 0, 0, true, 0⟩],
        [6]⟩ (by decide) rfl).2.1⟩

/-- A frame has at most one push pending. -/
theorem push_pending_le (f : frame) : push_pending f ≤ 1 := by
  unfold push_pending
  split
  · omega
  · split <;> omega
  · split <;> omega

/-- The epilogue after the merge removes one frame and no pending push of the others. -/
theorem epilogue_pushes (x : frame) (rest : List frame) (hx : x.awaiting_result = false) :
    (epilogue x rest).length + pushes_pending (epilogue x rest) + 1
      = (x :: rest).length + pushes_pending rest ∨ rest = [] ∧ epilogue x rest = [] := by
  unfold epilogue
  rw [hx]
  cases rest with
  | nil => exact Or.inr ⟨rfl, rfl⟩
  | cons a t =>
    left
    simp only [Bool.false_eq_true, if_false, pushes_pending, List.map_cons, List.sum_cons,
      List.length_cons]
    have : push_pending { a with incoming_result := x.sum } = push_pending a := rfl
    rw [this]
    omega

/-- One pass keeps the stack depth, plus the pushes still pending, within one plus the
number of blocks fetched. -/
theorem step_depth (p : parameters) (store : block_store) (r : Nat) (cur : frame)
    (rest : List frame) (l : List block_hash) (v1 : summation_visitor)
    (hs : step p store ⟨r, cur :: rest, l⟩ = .ok v1) (hok : stack_ok (cur :: rest))
    (hd : (cur :: rest).length + pushes_pending (cur :: rest)
      ≤ 1 + fetched store ⟨r, cur :: rest, l⟩) :
    v1.frames.length + pushes_pending v1.frames ≤ 1 + fetched store v1 := by
  have hcur := hok cur (List.mem_cons_self _ _)
  simp only [fetched, pushes_pending, List.map_cons, List.sum_cons, List.length_cons] at hd ⊢
  rcases step_cases p store r cur rest l v1 hs with ⟨hty, -⟩ |
    ⟨x, xt, xb, xa, xw, hty, hc⟩
  · exact absurd hty hcur.1
  · rcases hc with ⟨ht, ha, hf, hl⟩ | ⟨ht, ha, hb, hf, hl⟩ | ⟨b, r1, ht, ha, hb, hg, hf, hl⟩ |
      ⟨b, r1, ht, ha, hg, hf, hl⟩ | ⟨s, ht, ha, hg, hf, hl⟩ | ⟨hb, ha, hf, hl⟩
    · have hpc : push_pending cur = 1 := by
        simp [push_pending, ← xt, ht, ← xa, ha]
      rw [hf, hl]
      simp only [List.map_cons, List.sum_cons, List.length_cons]
      have h1 : push_pending (new_frame summation_type.amount x.amount_hash) = 0 := by
        simp [push_pending, new_frame]
      have h2 : push_pending { x with awaiting_result := true, amount_hash := 0 } = 0 := by
        simp [push_pending, ht]
      rw [h1, h2]
      omega
    · have hpc : push_pending cur = 1 := by
        simp [push_pending, ← xt, ht, ← xb, hb]
      rw [hf, hl]
      simp only [List.map_cons, List.sum_cons, List.length_cons]
      have h1 : push_pending (new_frame summation_type.balance x.balance_hash) = 0 := by
        simp [push_pending, new_frame]
      have h2 : push_pending { x with awaiting_result := true, balance_hash := 0 } = 0 := by
        simp [push_pending, ht]
      rw [h1, h2]
      omega
    · rw [hf, hl]
      simp only [List.map_cons, List.sum_cons, List.length_cons, List.filter_append,
        List.length_append, List.filter_cons, List.filter_nil, hg, Option.isSome_some,
        if_true, List.length_singleton]
      have := push_pending_le (visit p store b x r1).1
      omega
    · rw [hf, hl]
      simp only [List.map_cons, List.sum_cons, List.length_cons, List.filter_append,
        List.length_append, List.filter_cons, List.filter_nil, hg, Option.isSome_some,
        if_true, List.length_singleton]
      have := push_pending_le (visit p store b x r1).1
      omega
    · have hb0 : x.balance_hash = 0 := by
        rw [xb]; exact amount_balance_zero cur hcur.2 (by rw [← xt, ht]) (by rw [← xa]; exact ha)
      rw [hf, hl]
      simp only [List.map_cons, List.sum_cons, List.length_cons, List.filter_append,
        List.length_append]
      have h2 : push_pending { x with sum := s, amount_hash := 0 } = 0 := by
        simp [push_pending, ht, hb0]
      rw [h2]
      omega
    · rw [hl]
      have hpc : push_pending cur = 0 := by
        unfold push_pending
        rw [← xa, ← xb, ha, hb]
        split <;> rfl
      rcases epilogue_pushes x rest xw with h | ⟨h1, h2⟩
      · rw [hf]
        simp only [pushes_pending, List.length_cons] at h
        omega
      · rw [hf, h2]
        simp

/-- C18: at every point of a balance or amount traversal started on a fresh visitor,
the depth of the frame stack, even with one added for every frame that still has a
child to push, is at most one plus the number of blocks fetched from the store so far:
a push uses up a hash that an earlier visit has put into the frame. -/
theorem stack_depth_bound (p : parameters) (store : block_store) (t : summation_type)
    (h : block_hash) (k : Nat) (v : summation_visitor) (ht : t ≠ summation_type.invalid)
    (hk : passes p store k (summation_visitor.fresh.push t h) = .ok v) :
    v.frames.length ≤ 1 + fetched store v ∧
    v.frames.length + pushes_pending v.frames ≤ 1 + fetched store v := by
  have key : stack_ok v.frames ∧
      v.frames.length + pushes_pending v.frames ≤ 1 + fetched store v := by
    refine passes_invariant p store (fun v => stack_ok v.frames ∧
      v.frames.length + pushes_pending v.frames ≤ 1 + fetched store v) ?_ k _ v hk ?_
    · intro v v1 hv hs
      obtain ⟨r, fs, l⟩ := v
      cases fs with
      | nil => simp only [step] at hs; cases hs; exact hv
      | cons cur rest =>
        exact ⟨step_stack_ok p store r cur rest l v1 hs hv.1,
          step_depth p store r cur rest l v1 hs hv.1 hv.2⟩
    · refine ⟨?_, ?_⟩
      · intro f hf
        simp only [summation_visitor.push, summation_visitor.fresh, List.mem_singleton] at hf
        subst hf
        refine ⟨by simpa [new_frame] using ht, ?_⟩
        cases t <;> simp [new_frame, hashes_ok]
      · cases t <;>
          simp [summation_visitor.push, summation_visitor.fresh, pushes_pending, push_pending,
            new_frame, fetched]
  exact ⟨by omega, key.2⟩

/-- Witness of C18: two passes into the amount traversal of the Send block `6` the
stack holds two frames and one block has been fetched. -/
theorem stack_depth_bound_witness :
    passes example_parameters example_store 2
        (summation_visitor.fresh.push summation_type.amount 6)
      = .ok ⟨4, [new_frame summation_type.balance 3,
          ⟨summation_type.amount, 4, 0, 0, true, 0⟩], [6]⟩ ∧
    (2 : Nat) ≤ 1 + fetched example_store ⟨4, [new_frame summation_type.balance 3,
          ⟨summation_type.amount, 4, 0, 0, true, 0⟩], [6]⟩ :=
  ⟨rfl,
    (stack_depth_bound example_parameters example_store summation_type.amount 6 2
      ⟨4, [new_frame summation_type.balance 3, ⟨summation_type.amount, 4, 0, 0, true, 0⟩],
        [6]⟩ (by decide) rfl).1⟩

theorem visit_cost_pos (m : Nat) : 1 ≤ visit_cost m := by
  cases m <;> simp [visit_cost]

theorem visit_cost_mono (m n : Nat) (h : m ≤ n) : visit_cost m ≤ visit_cost n := by
  induction n with
  | zero =>
    have : m = 0 := by omega
    rw [this]
  | succ n ih =>
    rcases Nat.lt_or_ge m (n + 1) with h1 | h1
    · have := ih (by omega)
      simp only [visit_cost]
      omega
    · have : m = n + 1 := by omega
      rw [this]

/-- A hash handled by a child frame costs two passes more, and nothing if it is zero. -/
theorem hash_cost_pushed (rank : block_hash → Nat) (x : block_hash) :
    hash_cost rank true x ≤ hash_cost rank false x + 2 ∧
    (hash_cost rank false x = 0 → hash_cost rank true x = 0) ∧
    (x ≠ 0 → hash_cost rank true x = visit_cost (rank x) + 2 ∧
      hash_cost rank false x = visit_cost (rank x)) := by
  unfold hash_cost
  by_cases h : x = 0
  · simp [h]
  · have := visit_cost_pos (rank x)
    simp [h]
    omega

/-- A pending link of a block stored under `y` costs less than half the visit of `y`. -/
theorem link_cost (store : block_store) (rank : block_hash → Nat)
    (hwf : well_founded_links store rank) (y : block_hash) (b : block)
    (hb : store.block_get y = some b) (x : block_hash) (hx : x = 0 ∨ x ∈ links b) :
    hash_cost rank false x = 0 ∨ 2 * hash_cost rank false x + 3 ≤ visit_cost (rank y) := by
  by_cases h0 : x = 0
  · left; simp [hash_cost, h0]
  · right
    have hmem : x ∈ links b := by
      rcases hx with h | h
      · exact absurd h h0
      · exact h
    have hlt := hwf y b hb x hmem h0
    obtain ⟨m, hm⟩ : ∃ m, rank y = m + 1 := ⟨rank y - 1, by omega⟩
    have hmono := visit_cost_mono (rank x) m (by omega)
    simp only [hash_cost, h0, if_false, hm, visit_cost, Bool.false_eq_true, Nat.add_zero]
    omega

theorem stack_cost_cons (rank : block_hash → Nat) (f : frame) (fs : List frame) :
    stack_cost rank (f :: fs) = frame_cost rank f + stack_cost rank fs := by
  simp [stack_cost]

/-- The epilogue after the merge removes the cost of the popped frame. -/
theorem epilogue_cost (rank : block_hash → Nat) (x : frame) (rest : List frame)
    (hx : x.awaiting_result = false) :
    stack_cost rank (epilogue x rest) = stack_cost rank rest := by
  unfold epilogue
  rw [hx]
  cases rest with
  | nil => simp
  | cons a t =>
    simp only [Bool.false_eq_true, if_false, stack_cost_cons]
    rfl

/-- With well-founded links every successful pass lowers the cost of the stack. -/
theorem step_cost (p : parameters) (store : block_store) (rank : block_hash → Nat)
    (hwf : well_founded_links store rank) (r : Nat) (cur : frame)
    (rest : List frame) (l : List block_hash) (v1 : summation_visitor)
    (hs : step p store ⟨r, cur :: rest, l⟩ = .ok v1) (hok : stack_ok (cur :: rest)) :
    stack_cost rank v1.frames < stack_cost rank (cur :: rest) := by
  have hcur := hok cur (List.mem_cons_self _ _)
  rw [stack_cost_cons]
  rcases step_cases p store r cur rest l v1 hs with ⟨hty, -⟩ |
    ⟨x, xt, xb, xa, xw, hty, hc⟩
  · exact absurd hty hcur.1
  · have hcx : frame_cost rank cur = frame_cost rank x := by
      simp only [frame_cost, xt, xb, xa]
    rw [hcx]
    rcases hc with ⟨ht, ha, hf, -⟩ | ⟨ht, ha, hb, hf, -⟩ | ⟨b, r1, ht, ha, hb, hg, hf, -⟩ |
      ⟨b, r1, ht, ha, hg, hf, -⟩ | ⟨s, ht, ha, hg, hf, -⟩ | ⟨hb, ha, hf, -⟩
    · rw [hf, stack_cost_cons, stack_cost_cons]
      obtain ⟨-, -, h3⟩ := hash_cost_pushed rank x.amount_hash
      obtain ⟨h4, h5⟩ := h3 ha
      simp only [frame_cost, new_frame, ht, if_true, h4, h5]
      simp [hash_cost]
      omega
    · rw [hf, stack_cost_cons, stack_cost_cons]
      obtain ⟨-, -, h3⟩ := hash_cost_pushed rank x.balance_hash
      obtain ⟨h4, h5⟩ := h3 hb
      simp only [frame_cost, new_frame, ht, if_true, h4, h5]
      simp [hash_cost, ha]
      omega
    · rw [hf, stack_cost_cons]
      obtain ⟨hvb, hva⟩ := visit_balance_hashes p store b x r1 ht ha
      have c1 := link_cost store rank hwf _ b hg _ hvb
      have c2 := link_cost store rank hwf _ b hg _ hva
      obtain ⟨p1, p2, -⟩ := hash_cost_pushed rank (visit p store b x r1).1.amount_hash
      have hx : frame_cost rank x = 1 + visit_cost (rank x.balance_hash) := by
        simp [frame_cost, ht, hash_cost, hb, ha]
      have hy : frame_cost rank (visit p store b x r1).1
          = 1 + hash_cost rank false (visit p store b x r1).1.balance_hash
            + hash_cost rank true (visit p store b x r1).1.amount_hash := by
        simp [frame_cost, visit_type, ht]
      have := visit_cost_pos (rank x.balance_hash)
      rw [hx, hy]
      omega
    · have hb0 : x.balance_hash = 0 := by
        rw [xb]; exact amount_balance_zero cur hcur.2 (by rw [← xt, ht]) (by rw [← xa]; exact ha)
      rw [hf, stack_cost_cons]
      have hx : frame_cost rank x = 1 + visit_cost (rank x.amount_hash) := by
        simp [frame_cost, ht, hash_cost, hb0, ha]
      have hy : frame_cost rank (visit p store b x r1).1
          = 1 + hash_cost rank true (visit p store b x r1).1.balance_hash
            + hash_cost rank false (visit p store b x r1).1.amount_hash := by
        simp [frame_cost, visit_type, ht]
      have := visit_cost_pos (rank x.amount_hash)
      obtain ⟨p1, p2, -⟩ := hash_cost_pushed rank (visit p store b x r1).1.balance_hash
      rw [hx, hy]
      rcases visit_amount_hashes p store b x r1 ht hb0 with ⟨h1, h2⟩ | ⟨h1, h2⟩
      · have c2 := link_cost store rank hwf _ b hg _ h2
        have z : hash_cost rank true (visit p store b x r1).1.balance_hash = 0 := by
          simp [hash_cost, h1]
        omega
      · have c1 := link_cost store rank hwf _ b hg _ h2
        have z : hash_cost rank false (visit p store b x r1).1.amount_hash = 0 := by
          simp [hash_cost, h1]
        omega
    · rw [hf, stack_cost_cons]
      have := visit_cost_pos (rank x.amount_hash)
      simp only [frame_cost, ht]
      simp [hash_cost, ha]
      omega
    · rw [hf, epilogue_cost rank x rest xw]
      have hx : 1 ≤ frame_cost rank x := by
        unfold frame_cost
        split <;> omega
      omega

/-- On a stack of balance and amount frames a pass only fails on a block that the
store does not hold. -/
theorem step_error_missing (p : parameters) (store : block_store) (r : Nat) (cur : frame)
    (rest : List frame) (l : List block_hash) (e : fault)
    (hs : step p store ⟨r, cur :: rest, l⟩ = .error e)
    (ht : cur.type ≠ summation_type.invalid) :
    ∃ x, x ≠ 0 ∧ store.block_get x = none := by
  simp only [step] at hs
  split at hs
  · rename_i hty; exact absurd hty ht
  · obtain ⟨m1, m2, m3, m4⟩ := merge_balance_fields cur r
    split at hs
    · rename_i hw
      simp only [has_work, m4, Bool.not_false, Bool.true_and, Bool.or_eq_true,
        bne_iff_ne] at hw
      unfold balance_iteration at hs
      split at hs
      · cases hs
      · rename_i ha
        have ha0 : (merge_balance cur r).1.amount_hash = 0 := by simpa using ha
        split at hs
        · rename_i hb
          refine ⟨_, ?_, hb⟩
          rcases hw with h | h
          · exact h
          · exact absurd ha0 h
        · cases hs
    · cases hs
  · split at hs
    · unfold amount_iteration at hs
      split at hs
      · rename_i ha
        split at hs
        · cases hs
        · rename_i hb
          exact ⟨_, by simpa using ha, hb⟩
      · cases hs
    · cases hs

/-- With well-founded links the loop is over within as many passes as the cost of the
stack: it returns with an empty stack, or it aborts on a block the store does not
hold. -/
theorem loop_terminates (p : parameters) (store : block_store) (rank : block_hash → Nat)
    (hwf : well_founded_links store rank) (n : Nat) :
    ∀ v : summation_visitor, stack_ok v.frames → stack_cost rank v.frames ≤ n →
      (∃ v1, loop p store n v = .returned v1 ∧ v1.frames = []) ∨
      (∃ e x, loop p store n v = .aborted e ∧ x ≠ 0 ∧ store.block_get x = none) := by
  induction n with
  | zero =>
    intro v hok hc
    obtain ⟨r, fs, l⟩ := v
    cases fs with
    | nil => exact Or.inl ⟨_, loop_nil p store 0 r l, rfl⟩
    | cons cur rest =>
      exfalso
      simp only [stack_cost_cons] at hc
      have : 1 ≤ frame_cost rank cur := by
        unfold frame_cost
        split <;> omega
      omega
  | succ n ih =>
    intro v hok hc
    obtain ⟨r, fs, l⟩ := v
    cases fs with
    | nil => exact Or.inl ⟨_, loop_nil p store (n + 1) r l, rfl⟩
    | cons cur rest =>
      cases hs : step p store ⟨r, cur :: rest, l⟩ with
      | error e =>
        obtain ⟨x, hx0, hx⟩ := step_error_missing p store r cur rest l e hs
          (hok cur (List.mem_cons_self _ _)).1
        exact Or.inr ⟨e, x, loop_error p store n _ e (by simp) hs, hx0, hx⟩
      | ok v1 =>
        rw [loop_ok p store n _ v1 (by simp) hs]
        have hlt := step_cost p store rank hwf r cur rest l v1 hs hok
        simp only at hc
        exact ih v1 (step_stack_ok p store r cur rest l v1 hs hok) (by omega)

/-- A traversal started on a fresh visitor terminates within `visit_cost (rank h) + 1`
passes. -/
theorem compute_internal_terminates (p : parameters) (store : block_store)
    (rank : block_hash → Nat) (hwf : well_founded_links store rank) (t : summation_type)
    (ht : t ≠ summation_type.invalid) (h : block_hash) (m : Nat)
    (hm : visit_cost (rank h) + 1 ≤ m) :
    (∃ v1, compute_internal p store m summation_visitor.fresh t h = .returned v1 ∧
      v1.frames = []) ∨
    (∃ e x, compute_internal p store m summation_visitor.fresh t h = .aborted e ∧ x ≠ 0 ∧
      store.block_get x = none) := by
  unfold compute_internal
  refine loop_terminates p store rank hwf m _ ?_ ?_
  · intro f hf
    simp only [summation_visitor.push, summation_visitor.fresh, List.mem_singleton] at hf
    subst hf
    refine ⟨by simpa [new_frame] using ht, ?_⟩
    cases t <;> simp [new_frame, hashes_ok]
  · have hle : ∀ pushed, hash_cost rank pushed 0 = 0 := by intro pushed; simp [hash_cost]
    have hh : hash_cost rank false h ≤ visit_cost (rank h) := by
      unfold hash_cost
      split <;> simp
    cases t with
    | invalid => exact absurd rfl ht
    | balance =>
      simp only [summation_visitor.push, summation_visitor.fresh, stack_cost, List.map_cons,
        List.map_nil, List.sum_cons, List.sum_nil, frame_cost, new_frame, if_true]
      simp [hle]
      omega
    | amount =>
      simp only [summation_visitor.push, summation_visitor.fresh, stack_cost, List.map_cons,
        List.map_nil, List.sum_cons, List.sum_nil, frame_cost, new_frame, if_true]
      simp [hle]
      omega

/-- C19: where the `previous` and `source` links of the store are well-founded for a
rank on hashes, `compute_balance` and `compute_amount` on a fresh visitor terminate on
every hash `h`: for every fuel of at least `visit_cost (rank h) + 1` the traversal
either returns a value, leaving the frame stack empty, or aborts on a block that the
store does not hold. -/
theorem traversal_terminates (p : parameters) (store : block_store)
    (rank : block_hash → Nat) (hwf : well_founded_links store rank) (h : block_hash)
    (m : Nat) (hm : visit_cost (rank h) + 1 ≤ m) :
    ((∃ v1, compute_internal p store m summation_visitor.fresh summation_type.balance h
          = .returned v1 ∧ v1.frames = [] ∧
        compute_balance p store m summation_visitor.fresh h = .returned v1.result) ∨
      (∃ e x, compute_balance p store m summation_visitor.fresh h = .aborted e ∧ x ≠ 0 ∧
        store.block_get x = none)) ∧
    ((∃ v1, compute_internal p store m summation_visitor.fresh summation_type.amount h
          = .returned v1 ∧ v1.frames = [] ∧
        compute_amount p store m summation_visitor.fresh h = .returned v1.result) ∨
      (∃ e x, compute_amount p store m summation_visitor.fresh h = .aborted e ∧ x ≠ 0 ∧
        store.block_get x = none)) := by
  constructor
  · rcases compute_internal_terminates p store rank hwf summation_type.balance (by decide)
      h m hm with ⟨v1, h1, h2⟩ | ⟨e, x, h1, h2, h3⟩
    · exact Or.inl ⟨v1, h1, h2, by simp [compute_balance, h1, outcome.map]⟩
    · exact Or.inr ⟨e, x, by simp [compute_balance, h1, outcome.map], h2, h3⟩
  · rcases compute_internal_terminates p store rank hwf summation_type.amount (by decide)
      h m hm with ⟨v1, h1, h2⟩ | ⟨e, x, h1, h2, h3⟩
    · exact Or.inl ⟨v1, h1, h2, by simp [compute_amount, h1, outcome.map]⟩
    · exact Or.inr ⟨e, x, by simp [compute_amount, h1, outcome.map], h2, h3⟩

/-- A stored block of the example whose links rank below its hash. -/
theorem link_case (h x : block_hash) (b : block) (n : Nat) (hh : h = n)
    (hx : x ∈ links b) (hx0 : x ≠ 0)
    (hl : ∀ y ∈ links b, y ≠ 0 → example_rank y < example_rank n) :
    example_rank x < example_rank h := by
  subst hh; exact hl x hx hx0

/-- The links of the example ledger are well-founded for `example_rank`. -/
theorem example_links_well_founded : well_founded_links example_store example_rank := by
  intro h b hb x hx hx0
  simp only [example_store] at hb
  split at hb
  · rename_i hh; cases hb
    exact link_case h x _ 1 hh hx hx0 (by decide)
  split at hb
  · rename_i hh; cases hb
    exact link_case h x _ 2 hh hx hx0 (by decide)
  split at hb
  · rename_i hh; cases hb
    exact link_case h x _ 3 hh hx hx0 (by decide)
  split at hb
  · rename_i hh; cases hb
    exact link_case h x _ 4 hh hx hx0 (by decide)
  split at hb
  · rename_i hh; cases hb
    exact link_case h x _ 5 hh hx hx0 (by decide)
  split at hb
  · rename_i hh; cases hb
    exact link_case h x _ 6 hh hx hx0 (by decide)
  split at hb
  · rename_i hh; cases hb
    exact link_case h x _ 7 hh hx hx0 (by decide)
  split at hb
  · rename_i hh; cases hb
    exact link_case h x _ 8 hh hx hx0 (by decide)
  split at hb
  · rename_i hh; cases hb
    exact link_case h x _ 9 hh hx hx0 (by decide)
  split at hb
  · rename_i hh; cases hb
    exact link_case h x _ 11 hh hx hx0 (by decide)
  · cases hb

/-- Witness of C19 on the Receive block `7` of the example ledger, of rank 3. -/
theorem traversal_terminates_witness :
    well_founded_links example_store example_rank ∧
    visit_cost (example_rank 7) + 1 ≤ 30 ∧
    ((∃ v1, compute_internal example_parameters example_store 30 summation_visitor.fresh
          summation_type.amount 7 = .returned v1 ∧ v1.frames = [] ∧
        compute_amount example_parameters example_store 30 summation_visitor.fresh 7
          = .returned v1.result) ∨
      (∃ e x, compute_amount example_parameters example_store 30 summation_visitor.fresh 7
          = .aborted e ∧ x ≠ 0 ∧ example_store.block_get x = none)) :=
  ⟨example_links_well_founded, by decide,
    (traversal_terminates example_parameters example_store example_rank
      example_links_well_founded 7 30 (by decide)).2⟩

/-- Whether a pass succeeds does not depend on the frames below those it works on. -/
theorem step_without_below (p : parameters) (store : block_store) (r : Nat) (cur : frame)
    (rest below : List frame) (l : List block_hash) (v1 : summation_visitor)
    (hs : step p store ⟨r, cur :: (rest ++ below), l⟩ = .ok v1) :
    ∃ u, step p store ⟨r, cur :: rest, l⟩ = .ok u := by
  simp only [step] at hs ⊢
  split at hs
  · split at hs
    · rename_i h3
      rw [if_pos h3]
      exact ⟨_, rfl⟩
    · cases hs
  · split at hs
    · rename_i hw
      simp only [hw, if_true]
      unfold balance_iteration at hs ⊢
      split at hs
      · rename_i h1
        rw [if_pos h1]
        exact ⟨_, rfl⟩
      · rename_i h1
        rw [if_neg h1]
        split at hs
        · cases hs
        · rename_i b hb
          exact ⟨_, rfl⟩
    · rename_i hw
      simp only [hw]
      exact ⟨_, rfl⟩
  · split at hs
    · rename_i hw
      simp only [hw, if_true]
      unfold amount_iteration at hs ⊢
      split at hs
      · rename_i h1
        rw [if_pos h1]
        split at hs
        · exact ⟨_, rfl⟩
        · split at hs
          · rename_i h2
            rw [if_pos h2]
            exact ⟨_, rfl⟩
          · rename_i h2
            rw [if_neg h2]
            split at hs
            · rename_i h3
              rw [if_pos h3]
              exact ⟨_, rfl⟩
            · cases hs
      · rename_i h1
        rw [if_neg h1]
        exact ⟨_, rfl⟩
    · rename_i hw
      simp only [hw]
      exact ⟨_, rfl⟩

/-- A pass with a child frame on top of the stack treats the root frame `f` as it would
any other frame `g` in its place: either the frames above the root are replaced by a
non-empty list and the root is left alone, or the only child is popped and its sum
stored in the root's `incoming_result`. -/
theorem step_child (p : parameters) (store : block_store) (r : Nat) (c : frame)
    (fs : List frame) (f : frame) (l : List block_hash) (v1 : summation_visitor)
    (hs : step p store ⟨r, c :: (fs ++ [f]), l⟩ = .ok v1) :
    (∃ fs1, fs1 ≠ [] ∧ v1.frames = fs1 ++ [f] ∧
      ∀ (r1 : Nat) (g : frame) (l1 : List block_hash), ∃ r2 l2,
        step p store ⟨r1, c :: (fs ++ [g]), l1⟩ = .ok ⟨r2, fs1 ++ [g], l2⟩) ∨
    (fs = [] ∧ ∃ S, v1.frames = [{ f with incoming_result := S }] ∧
      ∀ (r1 : Nat) (g : frame) (l1 : List block_hash), ∃ r2 l2,
        step p store ⟨r1, [c, g], l1⟩ = .ok ⟨r2, [{ g with incoming_result := S }], l2⟩) := by
  obtain ⟨u, hu⟩ := step_without_below p store r c fs [f] l v1 hs
  by_cases hcase : fs ≠ [] ∨ u.frames ≠ []
  · left
    have hne : u.frames ≠ [] := by
      intro h0
      rcases hcase with h | h
      · exact h (step_nil_inv p store r c fs l u hu h0)
      · exact h h0
    obtain ⟨r2, l2, h2⟩ := step_append p store r r c fs [f] l l u hu hcase
    rw [hs] at h2
    cases h2
    exact ⟨u.frames, hne, rfl, fun r1 g l1 => step_append p store r r1 c fs [g] l l1 u hu hcase⟩
  · right
    have hfs : fs = [] := by
      by_contra h
      exact hcase (Or.inl h)
    have hnil : u.frames = [] := by
      by_contra h
      exact hcase (Or.inr h)
    subst hfs
    obtain ⟨S, hS, -⟩ := step_pop p store r c l u hu hnil
    obtain ⟨r2, l2, h2⟩ := hS r f [] l
    rw [List.nil_append] at hs
    rw [hs] at h2
    cases h2
    exact ⟨rfl, S, rfl, fun r1 g l1 => hS r1 g [] l1⟩

theorem shift_add (A s a : Nat) :
    ((A + s) % 2 ^ 128 + a) % 2 ^ 128 = (A + (s + a) % 2 ^ 128) % 2 ^ 128 := by
  omega

/-- Adding the same amount to both sums keeps them related. -/
theorem shifted_sum_add (store : block_store) (A : Nat) (st : Bool) (hash : block_hash)
    (s s1 a : Nat) (h : shifted_sum store A st hash s s1) :
    shifted_sum store A st hash ((s + a) % 2 ^ 128) ((s1 + a) % 2 ^ 128) := by
  rcases h with ⟨h1, hk⟩ | ⟨hst, h1⟩
  · exact Or.inl ⟨by rw [h1, shift_add], hk⟩
  · exact Or.inr ⟨hst, by rw [h1]⟩

/-- The walk from the zero hash ends at once, not at a State block. -/
theorem balance_walk_zero (store : block_store) : balance_walk store 1 0 = some false := by
  simp [balance_walk]

/-- A frame that awaits nothing is not changed by the merge. -/
theorem merged_of_not_awaiting (f : frame) (h : f.awaiting_result = false) : merged f = f := by
  unfold merged merge_balance merge_amount
  cases f.type <;> simp [h]

/-- The visit of the block at `balance_hash` keeps two balance frames related. -/
theorem visit_shifted (p : parameters) (store : block_store) (A : Nat) (st : Bool) (b : block)
    (x y : frame) (r r1 : Nat) (hxy : shifted_frames store A st x y)
    (hax : x.amount_hash = 0) (hget : store.block_get x.balance_hash = some b) :
    shifted_frames store A st (visit p store b x r).1 (visit p store b y r1).1 := by
  obtain ⟨tx, sx, bx, ax, wx, ix⟩ := x
  obtain ⟨ty, sy, bY, ay, wy, iy⟩ := y
  obtain ⟨hx, hy, haw, hbh, hah, hsum⟩ := hxy
  simp only at hx hy haw hbh hah hsum hax hget
  subst hx hy haw hbh hah hax
  have h0 : bY ≠ 0 := block_get_ne_zero store _ _ hget
  have hz := balance_walk_zero store
  have hwalk : ∀ k, balance_walk store k bY = some st →
      ∃ k1, k = k1 + 1 ∧
        (match b with
          | .send_block _ => some false
          | .open_block _ => some false
          | .state_block _ => some true
          | .receive_block c =>
            match store.block_info_get c.hash with
            | some _ => some false
            | none => balance_walk store k1 c.previous
          | .change_block c =>
            match store.block_info_get c.hash with
            | some _ => some false
            | none => balance_walk store k1 c.previous) = some st := by
    intro k hk
    cases k with
    | zero => simp [balance_walk] at hk
    | succ k1 =>
      refine ⟨k1, rfl, ?_⟩
      simp only [balance_walk, if_neg h0, hget] at hk
      cases b <;> exact hk
  cases b with
  | send_block c =>
    simp only [visit, summation_visitor.send_block, sum_add, shifted_frames]
    refine ⟨rfl, rfl, rfl, rfl, rfl, ?_⟩
    simp only [reduceCtorEq, if_false]
    rcases hsum with ⟨h1, k, hk⟩ | ⟨hst, h1⟩
    · obtain ⟨k1, -, hk1⟩ := hwalk k hk
      simp only [Option.some.injEq] at hk1
      subst hk1
      exact Or.inl ⟨by rw [h1, shift_add], 1, hz⟩
    · exact Or.inr ⟨hst, by rw [h1]⟩
  | state_block c =>
    simp only [visit, summation_visitor.state_block, sum_set, shifted_frames]
    refine ⟨rfl, rfl, rfl, rfl, rfl, ?_⟩
    simp only [reduceCtorEq, if_false]
    rcases hsum with ⟨h1, k, hk⟩ | ⟨hst, h1⟩
    · obtain ⟨k1, -, hk1⟩ := hwalk k hk
      simp only [Option.some.injEq] at hk1
      exact Or.inr ⟨hk1.symm, rfl⟩
    · exact Or.inr ⟨hst, rfl⟩
  | open_block c =>
    simp only [visit, summation_visitor.open_block, shifted_frames]
    refine ⟨rfl, rfl, rfl, rfl, rfl, ?_⟩
    simp only [reduceCtorEq, if_false]
    rcases hsum with ⟨h1, k, hk⟩ | ⟨hst, h1⟩
    · obtain ⟨k1, -, hk1⟩ := hwalk k hk
      simp only [Option.some.injEq] at hk1
      subst hk1
      exact Or.inl ⟨h1, 1, hz⟩
    · exact Or.inr ⟨hst, h1⟩
  | receive_block c =>
    simp only [visit, summation_visitor.receive_block, reduceCtorEq, if_false]
    cases hi : store.block_info_get c.hash with
    | some info =>
      dsimp only [sum_add]
      unfold shifted_frames
      refine ⟨rfl, rfl, rfl, rfl, rfl, ?_⟩
      rcases hsum with ⟨h1, k, hk⟩ | ⟨hst, h1⟩
      · obtain ⟨k1, -, hk1⟩ := hwalk k hk
        simp only [hi, Option.some.injEq] at hk1
        subst hk1
        exact Or.inl ⟨by rw [h1, shift_add], 1, hz⟩
      · exact Or.inr ⟨hst, by rw [h1]⟩
    | none =>
      dsimp only
      unfold shifted_frames
      refine ⟨rfl, rfl, rfl, rfl, rfl, ?_⟩
      rcases hsum with ⟨h1, k, hk⟩ | ⟨hst, h1⟩
      · obtain ⟨k1, -, hk1⟩ := hwalk k hk
        simp only [hi] at hk1
        exact Or.inl ⟨h1, k1, hk1⟩
      · exact Or.inr ⟨hst, h1⟩
  | change_block c =>
    simp only [visit, summation_visitor.change_block, reduceCtorEq, if_false]
    cases hi : store.block_info_get c.hash with
    | some info =>
      dsimp only [sum_add]
      unfold shifted_frames
      refine ⟨rfl, rfl, rfl, rfl, rfl, ?_⟩
      rcases hsum with ⟨h1, k, hk⟩ | ⟨hst, h1⟩
      · obtain ⟨k1, -, hk1⟩ := hwalk k hk
        simp only [hi, Option.some.injEq] at hk1
        subst hk1
        exact Or.inl ⟨by rw [h1, shift_add], 1, hz⟩
      · exact Or.inr ⟨hst, by rw [h1]⟩
    | none =>
      dsimp only
      unfold shifted_frames
      refine ⟨rfl, rfl, rfl, rfl, rfl, ?_⟩
      rcases hsum with ⟨h1, k, hk⟩ | ⟨hst, h1⟩
      · obtain ⟨k1, -, hk1⟩ := hwalk k hk
        simp only [hi] at hk1
        exact Or.inl ⟨h1, k1, hk1⟩
      · exact Or.inr ⟨hst, h1⟩

/-- The merge keeps the kind of a frame. -/
theorem merged_type (f : frame) : (merged f).type = f.type := by
  unfold merged
  cases h : f.type
  · simp [h]
  · simp only; rw [(merge_balance_fields f 0).1, h]
  · simp only; rw [(merge_amount_fields f 0).1, h]

/-- A balance frame as the pass that finds it on top sees it. -/
theorem merged_balance (f : frame) (r : Nat) (h : f.type = summation_type.balance) :
    merged f = (merge_balance f r).1 := by
  unfold merged
  rw [h]
  exact merge_balance_indep f r 0

/-- A pass on a lone balance frame. -/
theorem step_balance_top (p : parameters) (store : block_store) (r : Nat) (f : frame)
    (l : List block_hash) (h : f.type = summation_type.balance) :
    step p store ⟨r, [f], l⟩ =
      if has_work (merge_balance f r).1 then
        balance_iteration p store (merge_balance f r).1 (merge_balance f r).2 [] l
      else .ok ⟨(merge_balance f r).2, epilogue (merge_balance f r).1 [], l⟩ := by
  simp [step, h]

/-- A pass on a root frame that is on top of the stack keeps two related stacks related,
or pops both roots with related results. -/
theorem step_shifted_top (p : parameters) (store : block_store) (A : Nat) (st : Bool)
    (r r1 : Nat) (f g : frame) (l l1 : List block_hash) (v1 : summation_visitor)
    (hfg : shifted_frames store A st (merged f) (merged g))
    (hsf : f.awaiting_result = false → f.sum = r)
    (hsg : g.awaiting_result = false → g.sum = r1)
    (hs : step p store ⟨r, [f], l⟩ = .ok v1) :
    ∃ v2, step p store ⟨r1, [g], l1⟩ = .ok v2 ∧
      ((v1.frames = [] ∧ v2.frames = [] ∧
          v2.result = if st then v1.result else (A + v1.result) % 2 ^ 128) ∨
        shifted_stacks store A st v1.frames v2.frames) := by
  have hft : f.type = summation_type.balance := by rw [← merged_type]; exact hfg.1
  have hgt : g.type = summation_type.balance := by rw [← merged_type]; exact hfg.2.1
  rw [merged_balance f r hft, merged_balance g r1 hgt] at hfg
  rw [step_balance_top p store r f l hft] at hs
  rw [step_balance_top p store r1 g l1 hgt]
  have hrf := merge_balance_sync f r hsf
  have hrg := merge_balance_sync g r1 hsg
  obtain ⟨-, -, -, hfa⟩ := merge_balance_fields f r
  obtain ⟨-, -, -, hga⟩ := merge_balance_fields g r1
  generalize (merge_balance f r).1 = fm at hfg hs hrf hfa
  generalize (merge_balance g r1).1 = gm at hfg hrg hga ⊢
  generalize (merge_balance f r).2 = rf at hs hrf
  generalize (merge_balance g r1).2 = rg at hrg ⊢
  obtain ⟨hx, hy, haw, hbh, hah, hsum⟩ := hfg
  by_cases ha0 : fm.amount_hash = 0
  · by_cases hb0 : fm.balance_hash = 0
    · have hwf : has_work fm = false := by simp [has_work, ha0, hb0]
      have hwg : has_work gm = false := by simp [has_work, hah, hbh, ha0, hb0]
      rw [hwf] at hs
      rw [hwg]
      simp only [Bool.false_eq_true, if_false, epilogue, hfa, hga] at hs ⊢
      cases hs
      refine ⟨_, rfl, Or.inl ⟨rfl, rfl, ?_⟩⟩
      show rg = if st then rf else (A + rf) % 2 ^ 128
      rw [← hrf, ← hrg]
      rcases hsum with ⟨h1, k, hk⟩ | ⟨hst, h1⟩
      · rw [hb0] at hk
        cases k with
        | zero => simp [balance_walk] at hk
        | succ k =>
          simp only [balance_walk, if_true, Option.some.injEq] at hk
          subst hk
          simpa using h1
      · subst hst
        simpa using h1
    · have hwf : has_work fm = true := by simp [has_work, hfa, hb0]
      have hwg : has_work gm = true := by simp [has_work, hga, hbh, hb0]
      rw [hwf] at hs
      rw [hwg]
      simp only [if_true, balance_iteration, ha0, hah, bne_self_eq_false, Bool.false_eq_true,
        if_false, hbh] at hs ⊢
      cases hget : store.block_get fm.balance_hash with
      | none => rw [hget] at hs; cases hs
      | some b =>
        rw [hget] at hs
        simp only at hs ⊢
        cases hs
        refine ⟨_, rfl, Or.inr ⟨[], _, _, rfl, rfl, ?_, fun h => absurd rfl h⟩⟩
        intro _
        rw [merged_of_not_awaiting _ (by rw [visit_awaiting]; exact hfa),
          merged_of_not_awaiting _ (by rw [visit_awaiting]; exact hga)]
        exact visit_shifted p store A st b fm gm _ _ ⟨hx, hy, haw, hbh, hah, hsum⟩ ha0 hget
  · have hwf : has_work fm = true := by simp [has_work, hfa, ha0]
    have hwg : has_work gm = true := by simp [has_work, hga, hah, ha0]
    rw [hwf] at hs
    rw [hwg]
    have ha1 : (fm.amount_hash != 0) = true := by simpa using ha0
    have ha2 : (gm.amount_hash != 0) = true := by rw [hah]; exact ha1
    simp only [if_true, balance_iteration, ha1, ha2] at hs ⊢
    cases hs
    refine ⟨_, rfl, Or.inr ⟨[new_frame summation_type.amount fm.amount_hash], _, _, rfl,
      by rw [hah]; rfl, fun h => by simp at h, fun _ => ⟨?_, rfl⟩⟩⟩
    exact ⟨hx, hy, rfl, hbh, rfl, hsum⟩

/-- A balance frame that awaits a result, as the pass sees it after the result `S` has
been handed to it. -/
theorem merged_incoming (f : frame) (S : Nat) (ht : f.type = summation_type.balance)
    (ha : f.awaiting_result = true) :
    merged { f with incoming_result := S }
      = { f with sum := (f.sum + S) % 2 ^ 128, awaiting_result := false,
                 incoming_result := S } := by
  obtain ⟨t, s, bh, ah, aw, inc⟩ := f
  simp only at ht ha
  subst ht ha
  simp [merged, merge_balance, sum_add]

/-- One pass keeps two related stacks related, or pops both roots with related
results. -/
theorem step_shifted (p : parameters) (store : block_store) (A : Nat) (st : Bool)
    (v v' v1 : summation_visitor)
    (hrel : shifted_stacks store A st v.frames v'.frames)
    (hsv : synced v.result v.frames) (hsv' : synced v'.result v'.frames)
    (hs : step p store v = .ok v1) :
    ∃ v2, step p store v' = .ok v2 ∧
      ((v1.frames = [] ∧ v2.frames = [] ∧
          v2.result = if st then v1.result else (A + v1.result) % 2 ^ 128) ∨
        shifted_stacks store A st v1.frames v2.frames) := by
  obtain ⟨r, fs, l⟩ := v
  obtain ⟨r1, fs', l1⟩ := v'
  obtain ⟨above, f, g, hf, hg, htop, hbelow⟩ := hrel
  simp only at hf hg hsv hsv'
  subst hf hg
  cases above with
  | nil =>
    simp only [List.nil_append] at hs hsv hsv' ⊢
    exact step_shifted_top p store A st r r1 f g l l1 v1 (htop rfl) hsv hsv' hs
  | cons c fs =>
    obtain ⟨hfg, hfa⟩ := hbelow (by simp)
    rw [List.cons_append] at hs ⊢
    rcases step_child p store r c fs f l v1 hs with
      ⟨fs1, hne, hv1, hall⟩ | ⟨hfs, S, hv1, hall⟩
    · obtain ⟨r2, l2, h2⟩ := hall r1 g l1
      refine ⟨_, h2, Or.inr ⟨fs1, f, g, hv1, rfl, fun h => absurd h hne, fun _ => ⟨hfg, hfa⟩⟩⟩
    · subst hfs
      obtain ⟨r2, l2, h2⟩ := hall r1 g l1
      refine ⟨_, h2, Or.inr ⟨[], _, _, hv1, rfl, fun _ => ?_, fun h => absurd rfl h⟩⟩
      obtain ⟨hx, hy, haw, hbh, hah, hsum⟩ := hfg
      rw [merged_incoming f S hx hfa, merged_incoming g S hy (by rw [haw]; exact hfa)]
      exact ⟨hx, hy, rfl, hbh, hah, shifted_sum_add store A st _ _ _ S hsum⟩

/-- Two related stacks are emptied by the same number of passes, with related results:
the second run returns what the first returns if the root's walk ends at a State block,
and `A` more, on 128 bits, otherwise. -/
theorem loop_shifted (p : parameters) (store : block_store) (A : Nat) (st : Bool) (n : Nat) :
    ∀ (v v' u : summation_visitor), shifted_stacks store A st v.frames v'.frames →
      synced v.result v.frames → synced v'.result v'.frames →
      loop p store n v = .returned u →
      ∃ u', loop p store n v' = .returned u' ∧
        u'.result = if st then u.result else (A + u.result) % 2 ^ 128 := by
  induction n with
  | zero =>
    intro v v' u hrel _ _ h
    obtain ⟨above, f, g, hf, -, -, -⟩ := hrel
    simp [loop, hf] at h
  | succ n ih =>
    intro v v' u hrel hsv hsv' h
    have hne : v.frames ≠ [] := by
      obtain ⟨above, f, g, hf, -, -, -⟩ := hrel
      simp [hf]
    have hne' : v'.frames ≠ [] := by
      obtain ⟨above, f, g, -, hg, -, -⟩ := hrel
      simp [hg]
    cases hs : step p store v with
    | error e => rw [loop_error p store n v e hne hs] at h; cases h
    | ok v1 =>
      rw [loop_ok p store n v v1 hne hs] at h
      obtain ⟨v2, hs2, hcase⟩ := step_shifted p store A st v v' v1 hrel hsv hsv' hs
      rw [loop_ok p store n v' v2 hne' hs2]
      rcases hcase with ⟨h1, h2, hres⟩ | hrel1
      · obtain ⟨ra, fa, la⟩ := v1
        obtain ⟨rb, fb, lb⟩ := v2
        simp only at h1 h2 hres
        subst h1 h2
        rw [loop_nil] at h ⊢
        cases h
        exact ⟨_, rfl, hres⟩
      · refine ih v1 v2 u hrel1 ?_ ?_ h
        · obtain ⟨r, fs, l⟩ := v
          cases fs with
          | nil => exact absurd rfl hne
          | cons cur rest => exact step_synced p store r cur rest l v1 hs hsv
        · obtain ⟨r, fs, l⟩ := v'
          cases fs with
          | nil => exact absurd rfl hne'
          | cons cur rest => exact step_synced p store r cur rest l v2 hs2 hsv'

/-- A run that returns with some fuel returns the same with more. -/
theorem loop_returned_mono (p : parameters) (store : block_store) (n : Nat) :
    ∀ (v u : summation_visitor), loop p store n v = .returned u →
      ∀ m, loop p store (n + m) v = .returned u := by
  induction n with
  | zero =>
    intro v u h m
    obtain ⟨r, fs, l⟩ := v
    cases fs with
    | nil => rw [loop_nil] at h ⊢; exact h
    | cons c rest => simp [loop] at h
  | succ n ih =>
    intro v u h m
    obtain ⟨r, fs, l⟩ := v
    cases fs with
    | nil => rw [loop_nil] at h ⊢; exact h
    | cons c rest =>
      cases hs : step p store ⟨r, c :: rest, l⟩ with
      | error e => rw [loop_error p store n _ e (by simp) hs] at h; cases h
      | ok v1 =>
        rw [loop_ok p store n _ v1 (by simp) hs] at h
        rw [show n + 1 + m = (n + m) + 1 by omega, loop_ok p store (n + m) _ v1 (by simp) hs]
        exact ih v1 u h m

/-- The balance at a Receive block without cached information, from the amount `A` of
its source and the balance `X` at its `previous`: `X` if the walk of the balance frame
from `previous` ends at a State block, and `A + X` on 128 bits otherwise. -/
theorem balance_receive_uncached (p : parameters) (store : block_store) (h : block_hash)
    (b : btcb.receive_block) (nA nP A X k : Nat) (st : Bool) (fuel : Nat)
    (hb : store.block_get h = some (.receive_block b))
    (hi : store.block_info_get b.hash = none)
    (hA : compute_amount p store nA summation_visitor.fresh b.source = .returned A)
    (hX : compute_balance p store nP summation_visitor.fresh b.previous = .returned X)
    (hw : balance_walk store k b.previous = some st)
    (hfuel : nA + nP + 2 ≤ fuel) :
    compute_balance p store fuel summation_visitor.fresh h
      = .returned (if st then X else (A + X) % 2 ^ 128) := by
  have h1 : step p store ⟨0, [new_frame summation_type.balance h], []⟩
      = .ok ⟨0, [⟨summation_type.balance, 0, b.previous, b.source, false, 0⟩], [h]⟩ := by
    rw [step_balance_visit p store 0 (new_frame .balance h) [] [] _ rfl rfl rfl hb]
    simp [visit, summation_visitor.receive_block, new_frame, hi]
  obtain ⟨u, hu, hur⟩ : ∃ u, loop p store nP
      ⟨0, [new_frame summation_type.balance b.previous], []⟩ = .returned u ∧ u.result = X := by
    unfold compute_balance compute_internal summation_visitor.push summation_visitor.fresh at hX
    cases hl : loop p store nP ⟨0, [new_frame summation_type.balance b.previous], []⟩ with
    | aborted e => rw [hl] at hX; cases hX
    | out_of_fuel => rw [hl] at hX; cases hX
    | returned u =>
      rw [hl] at hX
      simp only [outcome.map, outcome.returned.injEq] at hX
      exact ⟨u, rfl, hX⟩
  have hsim : ∀ (r2 : Nat) (g : frame) (l2 : List block_hash),
      shifted_frames store A st (new_frame summation_type.balance b.previous) (merged g) →
      (g.awaiting_result = false → g.sum = r2) →
      ∀ m, (loop p store (nP + m) ⟨r2, [g], l2⟩).map summation_visitor.result
        = .returned (if st then X else (A + X) % 2 ^ 128) := by
    intro r2 g l2 hg hsg m
    obtain ⟨u', hu', hres⟩ := loop_shifted p store A st nP
      ⟨0, [new_frame summation_type.balance b.previous], []⟩ ⟨r2, [g], l2⟩ u
      ⟨[], _, g, rfl, rfl, fun _ => by rw [merged_of_not_awaiting _ rfl]; exact hg,
        fun hne => absurd rfl hne⟩
      (fun _ => rfl) hsg hu
    rw [loop_returned_mono p store nP _ u' hu' m]
    simp only [outcome.map, hres, hur]
  unfold compute_balance compute_internal summation_visitor.push summation_visitor.fresh
  by_cases hS : b.source = 0
  · rw [hS] at hA h1
    have hA0 := compute_internal_zero p store _ nA A (by decide) hA
    subst hA0
    obtain ⟨m, rfl⟩ : ∃ m, fuel = (nP + m) + 1 := ⟨fuel - nP - 1, by omega⟩
    rw [loop_ok p store (nP + m) _ _ (by simp) h1]
    refine hsim 0 _ [h] ?_ (fun _ => rfl) m
    rw [merged_of_not_awaiting _ rfl]
    exact ⟨rfl, rfl, rfl, rfl, rfl, Or.inl ⟨by simp [new_frame], k, hw⟩⟩
  · have h2 : step p store
          ⟨0, [⟨summation_type.balance, 0, b.previous, b.source, false, 0⟩], [h]⟩
        = .ok ⟨0, [new_frame summation_type.amount b.source,
            ⟨summation_type.balance, 0, b.previous, 0, true, 0⟩], [h]⟩ := by
      simp [step, merge_balance, has_work, hS, balance_iteration]
    obtain ⟨j, r2, l2, hj, hnest⟩ := nested_fresh p store summation_type.amount b.source nA A
      hA 0 [h] ⟨summation_type.balance, 0, b.previous, 0, true, 0⟩ []
    obtain ⟨m, rfl⟩ : ∃ m, fuel = j + (nP + m) + 2 := ⟨fuel - j - nP - 2, by omega⟩
    rw [loop_ok p store (j + (nP + m) + 1) _ _ (by simp) h1,
      loop_ok p store (j + (nP + m)) _ _ (by simp) h2, hnest (nP + m)]
    refine hsim r2 _ l2 ?_ (fun hf => by simp at hf) m
    refine ⟨rfl, rfl, rfl, rfl, rfl, Or.inl ⟨?_, k, hw⟩⟩
    simp [merged, merge_balance, sum_add, new_frame, Nat.add_comm]

/-- The end of the walk does not depend on the fuel that suffices to reach it. -/
theorem balance_walk_unique (store : block_store) (k : Nat) :
    ∀ (k1 : Nat) (hash : block_hash) (s s1 : Bool),
      balance_walk store k hash = some s → balance_walk store k1 hash = some s1 → s = s1 := by
  induction k with
  | zero => intro k1 hash s s1 h; simp [balance_walk] at h
  | succ k ih =>
    intro k1 hash s s1 h h1
    cases k1 with
    | zero => simp [balance_walk] at h1
    | succ k1 =>
      simp only [balance_walk] at h h1
      by_cases h0 : hash = 0
      · rw [if_pos h0] at h h1
        cases h; cases h1; rfl
      · rw [if_neg h0] at h h1
        cases hget : store.block_get hash with
        | none => rw [hget] at h; cases h
        | some b =>
          rw [hget] at h h1
          cases b with
          | send_block c => cases h; cases h1; rfl
          | open_block c => cases h; cases h1; rfl
          | state_block c => cases h; cases h1; rfl
          | receive_block c =>
            simp only at h h1
            cases hi : store.block_info_get c.hash with
            | some info => rw [hi] at h h1; cases h; cases h1; rfl
            | none => rw [hi] at h h1; exact ih k1 _ s s1 h h1
          | change_block c =>
            simp only at h h1
            cases hi : store.block_info_get c.hash with
            | some info => rw [hi] at h h1; cases h; cases h1; rfl
            | none => rw [hi] at h h1; exact ih k1 _ s s1 h h1

/-- If the walk ends from where a visit in a balance frame leaves `balance_hash`, it ends
from the hash of the visited block. -/
theorem visit_walk (p : parameters) (store : block_store) (b : block) (x : frame) (r : Nat)
    (ht : x.type = summation_type.balance)
    (hget : store.block_get x.balance_hash = some b)
    (hw : ∃ k st, balance_walk store k (visit p store b x r).1.balance_hash = some st) :
    ∃ k st, balance_walk store k x.balance_hash = some st := by
  obtain ⟨tx, sx, bx, ax, wx, ix⟩ := x
  simp only at ht hget
  subst ht
  have h0 : bx ≠ 0 := block_get_ne_zero store _ _ hget
  obtain ⟨k, st, hk⟩ := hw
  cases b with
  | send_block c => exact ⟨1, false, by simp [balance_walk, h0, hget]⟩
  | open_block c => exact ⟨1, false, by simp [balance_walk, h0, hget]⟩
  | state_block c => exact ⟨1, true, by simp [balance_walk, h0, hget]⟩
  | receive_block c =>
    cases hi : store.block_info_get c.hash with
    | some info => exact ⟨1, false, by simp [balance_walk, h0, hget, hi]⟩
    | none =>
      simp only [visit, summation_visitor.receive_block, reduceCtorEq, if_false, hi] at hk
      exact ⟨k + 1, st, by simp only [balance_walk, if_neg h0, hget, hi]; exact hk⟩
  | change_block c =>
    cases hi : store.block_info_get c.hash with
    | some info => exact ⟨1, false, by simp [balance_walk, h0, hget, hi]⟩
    | none =>
      simp only [visit, summation_visitor.change_block, reduceCtorEq, if_false, hi] at hk
      exact ⟨k + 1, st, by simp only [balance_walk, if_neg h0, hget, hi]; exact hk⟩

/-- When a traversal whose root is a balance frame returns, the walk from the root's
`balance_hash` ends. -/
theorem walk_of_returned (p : parameters) (store : block_store) (n : Nat) :
    ∀ (v u : summation_visitor) (above : List frame) (f : frame),
      v.frames = above ++ [f] → f.type = summation_type.balance →
      loop p store n v = .returned u →
      ∃ k st, balance_walk store k f.balance_hash = some st := by
  induction n with
  | zero =>
    intro v u above f hf _ h
    simp [loop, hf] at h
  | succ n ih =>
    intro v u above f hf ht h
    obtain ⟨r, fs, l⟩ := v
    simp only at hf
    subst hf
    have hne : (⟨r, above ++ [f], l⟩ : summation_visitor).frames ≠ [] := by simp
    cases hs : step p store ⟨r, above ++ [f], l⟩ with
    | error e => rw [loop_error p store n _ e hne hs] at h; cases h
    | ok v1 =>
      rw [loop_ok p store n _ v1 hne hs] at h
      cases above with
      | cons c fs =>
        rw [List.cons_append] at hs
        rcases step_child p store r c fs f l v1 hs with
          ⟨fs1, -, hv1, -⟩ | ⟨-, S, hv1, -⟩
        · exact ih v1 u fs1 f hv1 ht h
        · exact ih v1 u [] { f with incoming_result := S } hv1 ht h
      | nil =>
        rw [List.nil_append, step_balance_top p store r f l ht] at hs
        obtain ⟨m1, m2, m3, m4⟩ := merge_balance_fields f r
        rw [← m2]
        rw [ht] at m1
        generalize (merge_balance f r).1 = fm at hs m1 m2 m3 m4 ⊢
        generalize (merge_balance f r).2 = rf at hs
        by_cases ha0 : fm.amount_hash = 0
        · by_cases hb0 : fm.balance_hash = 0
          · exact ⟨1, false, by rw [hb0]; exact balance_walk_zero store⟩
          · have hwf : has_work fm = true := by simp [has_work, m4, hb0]
            rw [hwf] at hs
            simp only [if_true, balance_iteration, ha0, bne_self_eq_false, Bool.false_eq_true,
              if_false] at hs
            cases hget : store.block_get fm.balance_hash with
            | none => rw [hget] at hs; cases hs
            | some b =>
              rw [hget] at hs
              simp only at hs
              cases hs
              exact visit_walk p store b fm rf m1 hget
                (ih _ u [] (visit p store b fm rf).1 rfl
                  (by rw [visit_type]; exact m1) h)
        · have hwf : has_work fm = true := by simp [has_work, m4, ha0]
          rw [hwf] at hs
          have ha1 : (fm.amount_hash != 0) = true := by simpa using ha0
          simp only [if_true, balance_iteration, ha1] at hs
          cases hs
          exact ih _ u [new_frame summation_type.amount fm.amount_hash]
            { fm with awaiting_result := true, amount_hash := 0 } rfl m1 h

/-- C5 (as amended): for a hash `h` holding a Receive block with source `S` and previous
`P` for which the store has no cached information, whenever `compute_amount (S)` returns
`A` and `compute_balance (P)` returns `X`, `compute_balance (h)` returns, for every fuel
from an explicit bound on, and what it returns depends on where the walk of the balance
frame from `P` along `previous` (through Receive and Change blocks without cached
information) ends. That walk does end, at one kind of place only. If it ends at a Send
or Open block, at a Receive or Change block with cached information or at the zero hash,
`compute_balance (h)` is `A + X` modulo `2 ^ 128`; if it ends at a State block, as it
does when `P` holds one, `compute_balance (h)` is `X`, the balance at `P`, and the
received amount is not added. -/
theorem compute_balance_receive_uncached (p : parameters) (store : block_store)
    (h : block_hash) (b : btcb.receive_block) (nA nP A X fuel : Nat)
    (hb : store.block_get h = some (.receive_block b))
    (hi : store.block_info_get b.hash = none)
    (hA : compute_amount p store nA summation_visitor.fresh b.source = .returned A)
    (hX : compute_balance p store nP summation_visitor.fresh b.previous = .returned X)
    (hfuel : nA + nP + 2 ≤ fuel) :
    (∃ k st, balance_walk store k b.previous = some st) ∧
    (∀ k st k1 st1, balance_walk store k b.previous = some st →
      balance_walk store k1 b.previous = some st1 → st = st1) ∧
    (∀ k st, balance_walk store k b.previous = some st →
      compute_balance p store fuel summation_visitor.fresh h
        = .returned (if st then X else (A + X) % 2 ^ 128)) ∧
    (∀ k, balance_walk store k b.previous = some false →
      compute_balance p store fuel summation_visitor.fresh h
        = .returned ((A + X) % 2 ^ 128)) ∧
    (∀ k, balance_walk store k b.previous = some true →
      compute_balance p store fuel summation_visitor.fresh h = .returned X) ∧
    (∀ k st, balance_walk store k b.previous = some st →
      ((∃ s, store.block_get b.previous = some (.state_block s)) → st = true) ∧
      ((∃ s, store.block_get b.previous = some (.send_block s)) → st = false) ∧
      ((∃ s, store.block_get b.previous = some (.open_block s)) → st = false) ∧
      ((∃ s info, store.block_get b.previous = some (.receive_block s) ∧
          store.block_info_get s.hash = some info) → st = false) ∧
      ((∃ s info, store.block_get b.previous = some (.change_block s) ∧
          store.block_info_get s.hash = some info) → st = false) ∧
      (b.previous = 0 → st = false)) := by
  have hmain : ∀ k st, balance_walk store k b.previous = some st →
      compute_balance p store fuel summation_visitor.fresh h
        = .returned (if st then X else (A + X) % 2 ^ 128) :=
    fun k st hw => balance_receive_uncached p store h b nA nP A X k st fuel hb hi hA hX hw hfuel
  refine ⟨?_, ?_, hmain, ?_, ?_, ?_⟩
  · unfold compute_balance compute_internal summation_visitor.push summation_visitor.fresh at hX
    cases hl : loop p store nP ⟨0, [new_frame summation_type.balance b.previous], []⟩ with
    | aborted e => rw [hl] at hX; cases hX
    | out_of_fuel => rw [hl] at hX; cases hX
    | returned u =>
      have hw := walk_of_returned p store nP _ u []
        (new_frame summation_type.balance b.previous) rfl rfl hl
      simpa [new_frame] using hw
  · intro k st k1 st1 hk hk1
    exact balance_walk_unique store k k1 _ st st1 hk hk1
  · intro k hk
    simpa using hmain k false hk
  · intro k hk
    simpa using hmain k true hk
  · intro k st hk
    cases k with
    | zero => simp [balance_walk] at hk
    | succ k =>
      simp only [balance_walk] at hk
      refine ⟨?_, ?_, ?_, ?_, ?_, ?_⟩
      · rintro ⟨s, hs⟩
        have h0 := block_get_ne_zero store _ _ hs
        simp only [if_neg h0, hs, Option.some.injEq] at hk
        exact hk.symm
      · rintro ⟨s, hs⟩
        have h0 := block_get_ne_zero store _ _ hs
        simp only [if_neg h0, hs, Option.some.injEq] at hk
        exact hk.symm
      · rintro ⟨s, hs⟩
        have h0 := block_get_ne_zero store _ _ hs
        simp only [if_neg h0, hs, Option.some.injEq] at hk
        exact hk.symm
      · rintro ⟨s, info, hs, hinfo⟩
        have h0 := block_get_ne_zero store _ _ hs
        simp only [if_neg h0, hs, hinfo, Option.some.injEq] at hk
        exact hk.symm
      · rintro ⟨s, info, hs, hinfo⟩
        have h0 := block_get_ne_zero store _ _ hs
        simp only [if_neg h0, hs, hinfo, Option.some.injEq] at hk
        exact hk.symm
      · intro h0
        simp only [if_pos h0, Option.some.injEq] at hk
        exact hk.symm

/-- Witness of C5 (as amended) on the second ledger and on the example ledger: block
`22` is a Receive of `1` (amount 3) on top of the Receive `21` (balance 8), from where
the walk ends at the Send block `20`, and its balance is 11; block `25` is a Receive of
`1` on top of the Receive `24` (balance 50), from where the walk ends at the State block
`23`, and its balance is 50; block `2` of the example ledger is a Receive of `1` on top
of the State block `3` (balance 10), and its balance is 10. -/
theorem compute_balance_receive_uncached_witness :
    compute_amount example_parameters legacy_store 2 summation_visitor.fresh 1
      = .returned 3 ∧
    compute_balance example_parameters legacy_store 7 summation_visitor.fresh 21
      = .returned 8 ∧
    balance_walk legacy_store 2 21 = some false ∧
    compute_balance example_parameters legacy_store 11 summation_visitor.fresh 22
      = .returned ((3 + 8) % 2 ^ 128) ∧
    compute_balance example_parameters legacy_store 7 summation_visitor.fresh 24
      = .returned 50 ∧
    balance_walk legacy_store 2 24 = some true ∧
    compute_balance example_parameters legacy_store 11 summation_visitor.fresh 25
      = .returned 50 ∧
    balance_walk example_store 1 3 = some true ∧
    compute_balance example_parameters example_store 6 summation_visitor.fresh 2
      = .returned 10 :=
  ⟨by decide, by decide, by decide,
    (compute_balance_receive_uncached example_parameters legacy_store 22
      { hash := 22, previous := 21, source := 1 } 2 7 3 8 11 rfl rfl (by decide) (by decide)
      (by decide)).2.2.2.1 2 (by decide),
    by decide, by decide,
    (compute_balance_receive_uncached example_parameters legacy_store 25
      { hash := 25, previous := 24, source := 1 } 2 7 3 50 11 rfl rfl (by decide) (by decide)
      (by decide)).2.2.2.2.1 2 (by decide),
    by decide,
    (compute_balance_receive_uncached example_parameters example_store 2
      { hash := 2, previous := 3, source := 1 } 2 2 3 10 6 rfl rfl (by decide) (by decide)
      (by decide)).2.2.2.2.1 1 (by decide)⟩

end summation_visitor

/-! ## Theorems: the representative walk -/

namespace representative_visitor

/-- C10: where the block stored under `h` is an Open, Change or State block whose own
hash is `h`, `compute (h)` on a fresh visitor returns after the single `block_get` call
for `h`, with `result = h`. -/
theorem compute_fixing_block (p : parameters) (store : block_store) (h : block_hash)
    (b : block) (fuel : Nat) (hb : store.block_get h = some b)
    (hk : (∃ x, b = .open_block x) ∨ (∃ x, b = .change_block x) ∨ (∃ x, b = .state_block x))
    (hh : b.hash = h) :
    compute p store (fuel + 1) representative_visitor.fresh h
      = .returned { current := h, result := h, block_gets := [h] } := by
  have h0 : h ≠ 0 := summation_visitor.block_get_ne_zero store h b hb
  have hv : visit b { current := h, result := 0, block_gets := [h] }
      = { current := h, result := h, block_gets := [h] } := by
    rcases hk with ⟨x, rfl⟩ | ⟨x, rfl⟩ | ⟨x, rfl⟩ <;> simp only [block.hash] at hh <;>
      simp [visit, hh]
  unfold compute representative_visitor.fresh
  simp only [loop, hb, List.nil_append, if_true, hv]
  cases fuel <;> simp [loop, h0]

/-- Witness of C10 on the Open block `4`, the Change block `5` and the State block `3`. -/
theorem compute_fixing_block_witness :
    compute example_parameters example_store 1 representative_visitor.fresh 4
      = .returned { current := 4, result := 4, block_gets := [4] } ∧
    compute example_parameters example_store 1 representative_visitor.fresh 5
      = .returned { current := 5, result := 5, block_gets := [5] } ∧
    compute example_parameters example_store 1 representative_visitor.fresh 3
      = .returned { current := 3, result := 3, block_gets := [3] } :=
  ⟨compute_fixing_block example_parameters example_store 4 _ 0 rfl (Or.inl ⟨_, rfl⟩) rfl,
    compute_fixing_block example_parameters example_store 5 _ 0 rfl
      (Or.inr (Or.inl ⟨_, rfl⟩)) rfl,
    compute_fixing_block example_parameters example_store 3 _ 0 rfl
      (Or.inr (Or.inr ⟨_, rfl⟩)) rfl⟩

/-- The outcome of the walk does not depend on the log of `block_get` calls. -/
theorem walk_log_indep (p : parameters) (store : block_store) (n : Nat) :
    ∀ (c r : block_hash) (l l1 : List block_hash),
      (loop p store n ⟨c, r, l⟩).map representative_visitor.result
        = (loop p store n ⟨c, r, l1⟩).map representative_visitor.result := by
  induction n with
  | zero => intro c r l l1; simp only [loop]; split <;> rfl
  | succ n ih =>
    intro c r l l1
    simp only [loop]
    split
    · cases hb : store.block_get c with
      | none => rfl
      | some b =>
        cases b <;> simp only [visit] <;> exact ih _ _ _ _
    · rfl

/-- One iteration on a Send or Receive block moves the walk to its `previous`. -/
theorem compute_transfer (p : parameters) (store : block_store) (h P : block_hash)
    (b : block) (fuel : Nat) (hb : store.block_get h = some b)
    (hP : transfer_previous b = some P) :
    (compute p store (fuel + 1) representative_visitor.fresh h).map
        representative_visitor.result
      = (compute p store fuel representative_visitor.fresh P).map
        representative_visitor.result := by
  unfold compute representative_visitor.fresh
  simp only [loop, hb, if_true]
  cases b with
  | send_block x =>
    simp only [transfer_previous, Option.some.injEq] at hP
    subst hP
    exact walk_log_indep p store fuel _ _ _ _
  | receive_block x =>
    simp only [transfer_previous, Option.some.injEq] at hP
    subst hP
    exact walk_log_indep p store fuel _ _ _ _
  | open_block x => cases hP
  | change_block x => cases hP
  | state_block x => cases hP

/-- The walk started at an Open, Change or State block stored under its own hash returns
that hash. -/
theorem compute_at_fixing (p : parameters) (store : block_store) (f : block_hash)
    (b : block) (fuel : Nat) (hb : store.block_get f = some b)
    (hk : fixes_representative b = true) (hh : b.hash = f) :
    (compute p store (fuel + 1) representative_visitor.fresh f).map
        representative_visitor.result = .returned f := by
  have h0 : f ≠ 0 := summation_visitor.block_get_ne_zero store f b hb
  unfold compute representative_visitor.fresh
  simp only [loop, hb, if_true]
  cases b with
  | send_block x => cases hk
  | receive_block x => cases hk
  | open_block x =>
    simp only [block.hash] at hh
    simp only [visit, hh]
    cases fuel <;> simp [loop, h0, outcome.map]
  | change_block x =>
    simp only [block.hash] at hh
    simp only [visit, hh]
    cases fuel <;> simp [loop, h0, outcome.map]
  | state_block x =>
    simp only [block.hash] at hh
    simp only [visit, hh]
    cases fuel <;> simp [loop, h0, outcome.map]

/-- Every block of a run of Send/Receive blocks resolves to the block the run ends at. -/
theorem compute_run (p : parameters) (store : block_store) (f : block_hash) (b : block)
    (hb : store.block_get f = some b) (hk : fixes_representative b = true)
    (hh : b.hash = f) :
    ∀ (hs : List block_hash), previous_run store hs f →
      ∀ h ∈ hs, ∀ fuel, hs.length < fuel →
        (compute p store fuel representative_visitor.fresh h).map
          representative_visitor.result = .returned f := by
  intro hs
  induction hs with
  | nil => intro _ h hmem; cases hmem
  | cons a t ih =>
    intro hrun h hmem fuel hfuel
    obtain ⟨⟨ba, hba, hprev⟩, hrest⟩ := hrun
    rcases List.mem_cons.mp hmem with rfl | hmem
    · obtain ⟨m, rfl⟩ : ∃ m, fuel = m + 1 := ⟨fuel - 1, by simp at hfuel; omega⟩
      rw [compute_transfer p store h _ ba m hba hprev]
      cases t with
      | nil =>
        obtain ⟨k, rfl⟩ : ∃ k, m = k + 1 := ⟨m - 1, by simp at hfuel; omega⟩
        exact compute_at_fixing p store f b k hb hk hh
      | cons c u =>
        exact ih hrest c (List.mem_cons_self _ _) m (by simp at hfuel ⊢; omega)
    · exact ih hrest h hmem fuel (by simp at hfuel; omega)

/-- C11: where the store holds under `h` a Send or Receive block with previous link `P`,
`compute (h)` has the outcome of `compute (P)` one iteration later (each on a fresh
visitor); hence every block of a run of Send/Receive blocks whose previous-chain reaches
an Open, Change or State block `f` (stored under its own hash) resolves to `f`. -/
theorem compute_send_or_receive (p : parameters) (store : block_store) (h P : block_hash)
    (b : block) (hb : store.block_get h = some b) (hP : transfer_previous b = some P) :
    (∀ fuel, (compute p store (fuel + 1) representative_visitor.fresh h).map
        representative_visitor.result
      = (compute p store fuel representative_visitor.fresh P).map
        representative_visitor.result) ∧
    (∀ (hs : List block_hash) (f : block_hash) (bf : block),
      previous_run store (h :: hs) f → store.block_get f = some bf →
      fixes_representative bf = true → bf.hash = f →
      ∀ x ∈ h :: hs, ∀ fuel, (h :: hs).length < fuel →
        (compute p store fuel representative_visitor.fresh x).map
          representative_visitor.result = .returned f) := by
  refine ⟨fun fuel => compute_transfer p store h P b fuel hb hP, ?_⟩
  intro hs f bf hrun hbf hk hh x hx fuel hfuel
  exact compute_run p store f bf hbf hk hh (h :: hs) hrun x hx fuel hfuel

/-- Witness of C11: in the example ledger `7` (Receive) sits on `6` (Send), which sits
on the State block `3`; both resolve to `3`. -/
theorem compute_send_or_receive_witness :
    example_store.block_get 7
      = some (.receive_block { hash := 7, previous := 6, source := 1 }) ∧
    (compute example_parameters example_store 3 representative_visitor.fresh 7).map
        representative_visitor.result
      = (compute example_parameters example_store 2 representative_visitor.fresh 6).map
        representative_visitor.result ∧
    (compute example_parameters example_store 3 representative_visitor.fresh 7).map
        representative_visitor.result = .returned 3 ∧
    (compute example_parameters example_store 3 representative_visitor.fresh 6).map
        representative_visitor.result = .returned 3 :=
  ⟨rfl,
    (compute_send_or_receive example_parameters example_store 7 6 _ rfl rfl).1 2,
    (compute_send_or_receive example_parameters example_store 7 6 _ rfl rfl).2 [6] 3 _
      ⟨⟨_, rfl, rfl⟩, ⟨_, rfl, rfl⟩, trivial⟩ rfl rfl rfl 7 (by simp) 3 (by decide),
    (compute_send_or_receive example_parameters example_store 7 6 _ rfl rfl).2 [6] 3 _
      ⟨⟨_, rfl, rfl⟩, ⟨_, rfl, rfl⟩, trivial⟩ rfl rfl rfl 6 (by simp) 3 (by decide)⟩

end representative_visitor

/-! ## Theorems: the vote generator -/

namespace vote_generator

/-- The detaching loop fills `hashes_l` up to 12 entries from the front of the queue. -/
theorem send_loop_eq (q : List block_hash) :
    ∀ acc : List block_hash,
      send_loop acc q = (acc ++ q.take (12 - acc.length), q.drop (12 - acc.length)) := by
  induction q with
  | nil => intro acc; simp [send_loop]
  | cons a t ih =>
    intro acc
    simp only [send_loop]
    split
    · rename_i h
      rw [ih]
      have h1 : 12 - acc.length = (12 - (acc ++ [a]).length) + 1 := by
        simp only [List.length_append, List.length_singleton]; omega
      rw [h1]
      simp
    · rename_i h
      have h1 : 12 - acc.length = 0 := by omega
      rw [h1]
      simp

/-- One call detaches the first 12 entries. -/
theorem send_loop_nil (q : List block_hash) : send_loop [] q = (q.take 12, q.drop 12) := by
  rw [send_loop_eq]; simp

/-- The batches of successive calls are the successive blocks of 12 entries. -/
theorem successive_batches_eq (k : Nat) :
    ∀ q : List block_hash,
      (successive_batches k q).2 = q.drop (12 * k) ∧
      (successive_batches k q).1.length = k ∧
      ∀ j, j < k → (successive_batches k q).1[j]? = some ((q.drop (12 * j)).take 12) := by
  induction k with
  | zero => intro q; simp [successive_batches]
  | succ k ih =>
    intro q
    obtain ⟨h1, h2, h3⟩ := ih (q.drop 12)
    simp only [successive_batches, send_loop_nil]
    refine ⟨?_, ?_, ?_⟩
    · rw [h1, List.drop_drop]; congr 1; omega
    · simp [h2]
    · intro j hj
      cases j with
      | zero => simp
      | succ j =>
        simp only [List.getElem?_cons_succ]
        rw [h3 j (by omega), List.drop_drop]
        congr 3; omega

/-- Nothing is lost or repeated: the batches in order, followed by what is left, are
the queue. -/
theorem successive_batches_join (k : Nat) :
    ∀ q : List block_hash,
      (successive_batches k q).1.flatten ++ (successive_batches k q).2 = q := by
  induction k with
  | zero => intro q; simp [successive_batches]
  | succ k ih =>
    intro q
    simp only [successive_batches, send_loop_nil, List.flatten_cons, List.append_assoc]
    rw [ih (q.drop 12), List.take_append_drop]

/-- C12: one flush detaches the first `min 12 n` hashes of the queue in order and leaves
the others in order; the batch followed by what is left is the queue, a batch has at
most 12 hashes, and over successive flushes the `j`-th batch is the `j`-th block of 12
queue entries, so that the batches in order followed by what is left are the queue:
every queue entry lands in one batch and in no other. -/
theorem send_detaches_prefix {vote : Type} (n : node vote) (g : vote_generator)
    (processed : List (vote × Nat)) :
    (send_loop [] g.hashes).1 = g.hashes.take (min 12 g.hashes.length) ∧
    (send n g processed).1.hashes = g.hashes.drop (min 12 g.hashes.length) ∧
    (send_loop [] g.hashes).1 ++ (send n g processed).1.hashes = g.hashes ∧
    (send_loop [] g.hashes).1.length = min 12 g.hashes.length ∧
    (send_loop [] g.hashes).1.length ≤ 12 ∧
    ∀ k, (successive_batches k g.hashes).1.flatten ++ (successive_batches k g.hashes).2
          = g.hashes ∧
      (successive_batches k g.hashes).2 = g.hashes.drop (12 * k) ∧
      (∀ b ∈ (successive_batches k g.hashes).1, b.length ≤ 12) ∧
      ∀ j, j < k →
        (successive_batches k g.hashes).1[j]? = some ((g.hashes.drop (12 * j)).take 12) := by
  have hmin : ∀ l : List block_hash, l.take (min 12 l.length) = l.take 12 := by
    intro l
    rcases Nat.le_total 12 l.length with h | h
    · rw [Nat.min_eq_left h]
    · rw [Nat.min_eq_right h, List.take_length, List.take_of_length_le h]
  have hmind : ∀ l : List block_hash, l.drop (min 12 l.length) = l.drop 12 := by
    intro l
    rcases Nat.le_total 12 l.length with h | h
    · rw [Nat.min_eq_left h]
    · rw [Nat.min_eq_right h, List.drop_length, List.drop_of_length_le h]
  refine ⟨?_, ?_, ?_, ?_, ?_, ?_⟩
  · rw [send_loop_nil, hmin]
  · simp only [send, send_loop_nil, hmind]
  · simp only [send, send_loop_nil, List.take_append_drop]
  · simp only [send_loop_nil, List.length_take]
  · simp only [send_loop_nil, List.length_take]; omega
  · intro k
    obtain ⟨h1, h2, h3⟩ := successive_batches_eq k g.hashes
    refine ⟨successive_batches_join k g.hashes, h1, ?_, h3⟩
    intro b hb
    obtain ⟨j, hj, hbj⟩ := List.getElem_of_mem hb
    have := h3 j (by omega)
    rw [List.getElem?_eq_getElem hj, hbj] at this
    cases this
    simp only [List.length_take]; omega

/-- C13 (counterexample): with 12 pending hashes and a deadline 5 that has elapsed at
time 10, the iteration flushes and leaves the deadline set. -/
theorem full_queue_keeps_deadline :
    (example_generator [1, 2, 3, 4, 5, 6, 7, 8, 9, 10, 11, 12]).hashes.length = 12 ∧
    (5 : Nat) ≤ 10 ∧
    is_flush (run_iteration example_node
      { generator := example_generator [1, 2, 3, 4, 5, 6, 7, 8, 9, 10, 11, 12],
        cutoff := some 5, processed := [] } 10).2 = true ∧
    (run_iteration example_node
      { generator := example_generator [1, 2, 3, 4, 5, 6, 7, 8, 9, 10, 11, 12],
        cutoff := some 5, processed := [] } 10).1.cutoff = some 5 := by
  decide

/-- Enumerating the representatives with a callback that appends one entry each appends
the entries in enumeration order. -/
theorem foreach_representative_append {vote α : Type} (n : node vote) (f : Nat → Nat → α) :
    ∀ acc : List α,
      foreach_representative n (fun pub_a prv_a acc => acc ++ [f pub_a prv_a]) acc
        = acc ++ n.representatives.map (fun kp => f kp.1 kp.2) := by
  unfold foreach_representative
  induction n.representatives with
  | nil => intro acc; simp
  | cons a t ih => intro acc; simp [ih]

/-- Taking `min 12 n` entries of a queue of length `n` is taking 12. -/
theorem take_min_twelve (q : List block_hash) : q.take (min 12 q.length) = q.take 12 := by
  rcases Nat.le_total 12 q.length with h | h
  · rw [Nat.min_eq_left h]
  · rw [Nat.min_eq_right h, List.take_length, List.take_of_length_le h]

/-- Dropping `min 12 n` entries of a queue of length `n` is dropping 12. -/
theorem drop_min_twelve (q : List block_hash) : q.drop (min 12 q.length) = q.drop 12 := by
  rcases Nat.le_total 12 q.length with h | h
  · rw [Nat.min_eq_left h]
  · rw [Nat.min_eq_right h, List.drop_length, List.drop_of_length_le h]

/-- The queue a flush leaves behind. -/
theorem send_generator {vote : Type} (n : node vote) (g : vote_generator)
    (processed : List (vote × Nat)) :
    (send n g processed).1 = { g with hashes := g.hashes.drop 12 } := by
  simp [send, send_loop_nil]

/-- The calls of the vote processor after a flush. -/
theorem send_processed {vote : Type} (n : node vote) (g : vote_generator)
    (processed : List (vote × Nat)) :
    (send n g processed).2
      = processed ++ n.representatives.map (fun kp =>
          (n.vote_generate kp.1 kp.2 (g.hashes.take 12), n.endpoint)) := by
  simp only [send, send_loop_nil]
  exact foreach_representative_append n
    (fun pub_a prv_a => (n.vote_generate pub_a prv_a (g.hashes.take 12), n.endpoint)) processed

/-- C13 (as amended): in an iteration of the worker loop with `len` pending hashes,
deadline `cutoff` and clock reading `now`, a flush happens exactly when `len ≥ 12`, or
`1 ≤ len < 12` and a deadline is set and has elapsed. That a flush happens is meant of
the call of `send`: under the condition the iteration leaves the queue and the vote
processor as `send` does (the first `min 12 len` hashes are detached as the batch and one
vote over the batch per local representative is handed to the vote processor), and the
queue gets shorter; otherwise the queue and the vote processor are left untouched. With
`len < 12` an elapsed deadline is cleared, with `len ≥ 12` the deadline is left as it
is, and with `len < 12` and no deadline set the deadline becomes `now + wait`, the
worker waits for it, and neither the queue nor the vote processor is touched. -/
theorem run_iteration_decision {vote : Type} (n : node vote) (w : worker vote) (now : Nat) :
    (is_flush (run_iteration n w now).2 = true ↔
      (12 ≤ w.generator.hashes.length ∨
        (1 ≤ w.generator.hashes.length ∧ w.generator.hashes.length < 12 ∧
          ∃ t, w.cutoff = some t ∧ t ≤ now))) ∧
    (w.generator.hashes.length < 12 → ∀ t, w.cutoff = some t → t ≤ now →
      (run_iteration n w now).1.cutoff = none) ∧
    (12 ≤ w.generator.hashes.length → (run_iteration n w now).1.cutoff = w.cutoff) ∧
    (w.generator.hashes.length < 12 → w.cutoff = none →
      (run_iteration n w now).1.cutoff = some (now + w.generator.wait) ∧
      (run_iteration n w now).2 = action.wait_until (now + w.generator.wait) ∧
      (run_iteration n w now).1.generator = w.generator ∧
      (run_iteration n w now).1.processed = w.processed) ∧
    ((12 ≤ w.generator.hashes.length ∨
        (1 ≤ w.generator.hashes.length ∧ w.generator.hashes.length < 12 ∧
          ∃ t, w.cutoff = some t ∧ t ≤ now)) →
      (run_iteration n w now).1.generator = (send n w.generator w.processed).1 ∧
      (run_iteration n w now).1.processed = (send n w.generator w.processed).2 ∧
      (run_iteration n w now).2
        = action.flush (w.generator.hashes.take (min 12 w.generator.hashes.length)) ∧
      (run_iteration n w now).1.generator.hashes
        = w.generator.hashes.drop (min 12 w.generator.hashes.length) ∧
      (run_iteration n w now).1.processed
        = w.processed ++ n.representatives.map (fun kp =>
            (n.vote_generate kp.1 kp.2
              (w.generator.hashes.take (min 12 w.generator.hashes.length)), n.endpoint))) ∧
    (¬ (12 ≤ w.generator.hashes.length ∨
        (1 ≤ w.generator.hashes.length ∧ w.generator.hashes.length < 12 ∧
          ∃ t, w.cutoff = some t ∧ t ≤ now)) →
      (run_iteration n w now).1.generator = w.generator ∧
      (run_iteration n w now).1.processed = w.processed) ∧
    ((run_iteration n w now).1.generator.hashes.length < w.generator.hashes.length ↔
      (12 ≤ w.generator.hashes.length ∨
        (1 ≤ w.generator.hashes.length ∧ w.generator.hashes.length < 12 ∧
          ∃ t, w.cutoff = some t ∧ t ≤ now))) := by
  obtain ⟨g, cutoff, processed⟩ := w
  have hs1 := send_generator n g processed
  have hs2 := send_processed n g processed
  have ht := take_min_twelve g.hashes
  have hd := drop_min_twelve g.hashes
  simp only [run_iteration]
  by_cases h12 : 12 ≤ g.hashes.length
  · simp only [ge_iff_le, h12, if_true, send_loop_nil, hs1, hs2, ht, hd]
    simp [is_flush, h12]
    omega
  · have hlt : g.hashes.length < 12 := by omega
    simp only [ge_iff_le, h12, if_false]
    cases cutoff with
    | none => simp [is_flush, hlt]
    | some c =>
      by_cases hnow : now < c
      · simp [hnow, is_flush, h12]
      · have hc : c ≤ now := by omega
        cases hq : g.hashes with
        | nil => simp [hnow, is_flush, hc]
        | cons a t =>
          rw [hq] at hlt hs1 hs2 ht hd
          simp only [hnow, if_false, send_loop_nil, hs1, hs2, ht, hd]
          simp [is_flush, hc]
          simp at hlt
          omega

/-- Witness of C13 (as amended): 5 pending hashes and the deadline 100 at time 150 give
a flush of the 5 hashes, which is the call of `send`, and clear the deadline; without a
deadline the iteration sets it to `now + wait`. -/
theorem run_iteration_decision_witness :
    (run_iteration example_node
      { generator := example_generator [1, 2, 3, 4, 5], cutoff := some 100,
        processed := [] } 150).1.cutoff = none ∧
    is_flush (run_iteration example_node
      { generator := example_generator [1, 2, 3, 4, 5], cutoff := some 100,
        processed := [] } 150).2 = true ∧
    (run_iteration example_node
      { generator := example_generator [1, 2, 3, 4, 5], cutoff := none,
        processed := [] } 0).1.cutoff = some 100 ∧
    ((run_iteration example_node
      { generator := example_generator [1, 2, 3, 4, 5], cutoff := some 100,
        processed := [] } 150).1.generator
        = (send example_node (example_generator [1, 2, 3, 4, 5]) []).1 ∧
      (run_iteration example_node
        { generator := example_generator [1, 2, 3, 4, 5], cutoff := some 100,
          processed := [] } 150).1.processed
        = (send example_node (example_generator [1, 2, 3, 4, 5]) []).2 ∧
      (run_iteration example_node
        { generator := example_generator [1, 2, 3, 4, 5], cutoff := some 100,
          processed := [] } 150).2
        = action.flush ([1, 2, 3, 4, 5].take (min 12 5)) ∧
      (run_iteration example_node
        { generator := example_generator [1, 2, 3, 4, 5], cutoff := some 100,
          processed := [] } 150).1.generator.hashes
        = [1, 2, 3, 4, 5].drop (min 12 5) ∧
      (run_iteration example_node
        { generator := example_generator [1, 2, 3, 4, 5], cutoff := some 100,
          processed := [] } 150).1.processed
        = [] ++ example_node.representatives.map (fun kp =>
            (example_node.vote_generate kp.1 kp.2 ([1, 2, 3, 4, 5].take (min 12 5)),
              example_node.endpoint))) ∧
    ((run_iteration example_node
      { generator := example_generator [1, 2, 3, 4, 5], cutoff := some 100,
        processed := [] } 50).1.generator = example_generator [1, 2, 3, 4, 5] ∧
      (run_iteration example_node
        { generator := example_generator [1, 2, 3, 4, 5], cutoff := some 100,
          processed := [] } 50).1.processed = []) :=
  ⟨(run_iteration_decision example_node
      { generator := example_generator [1, 2, 3, 4, 5], cutoff := some 100,
        processed := [] } 150).2.1 (by decide) 100 rfl (by decide),
    (run_iteration_decision example_node
      { generator := example_generator [1, 2, 3, 4, 5], cutoff := some 100,
        processed := [] } 150).1.mpr (Or.inr ⟨by decide, by decide, 100, rfl, by decide⟩),
    ((run_iteration_decision example_node
      { generator := example_generator [1, 2, 3, 4, 5], cutoff := none,
        processed := [] } 0).2.2.2.1 (by decide) rfl).1,
    (run_iteration_decision example_node
      { generator := example_generator [1, 2, 3, 4, 5], cutoff := some 100,
        processed := [] } 150).2.2.2.2.1
      (Or.inr ⟨by decide, by decide, 100, rfl, by decide⟩),
    (run_iteration_decision example_node
      { generator := example_generator [1, 2, 3, 4, 5], cutoff := some 100,
        processed := [] } 50).2.2.2.2.2.1
      (by
        rintro (h | ⟨_, _, t, ht, hle⟩)
        · exact absurd h (by decide)
        · cases ht
          exact absurd hle (by decide))⟩

/-- C14: a flush with detached batch `b` (the first `min 12 n` pending hashes) makes
exactly one call of the vote processor per local representative credential, in
enumeration order, each with the vote generated from that credential's key pair over
the whole batch and with the node's own endpoint; with no local representative no call
is made and the batch is consumed all the same. -/
theorem send_forwards_votes {vote : Type} (n : node vote) (g : vote_generator)
    (processed : List (vote × Nat)) :
    (send n g processed).2
      = processed ++ n.representatives.map (fun kp =>
          (n.vote_generate kp.1 kp.2 (g.hashes.take (min 12 g.hashes.length)), n.endpoint)) ∧
    (send n g processed).2.length = processed.length + n.representatives.length ∧
    (n.representatives = [] →
      (send n g processed).2 = processed ∧
      (send n g processed).1.hashes = g.hashes.drop (min 12 g.hashes.length)) := by
  have hmin : g.hashes.take (min 12 g.hashes.length) = g.hashes.take 12 := by
    rcases Nat.le_total 12 g.hashes.length with h | h
    · rw [Nat.min_eq_left h]
    · rw [Nat.min_eq_right h, List.take_length, List.take_of_length_le h]
  have hmind : g.hashes.drop (min 12 g.hashes.length) = g.hashes.drop 12 := by
    rcases Nat.le_total 12 g.hashes.length with h | h
    · rw [Nat.min_eq_left h]
    · rw [Nat.min_eq_right h, List.drop_length, List.drop_of_length_le h]
  have key : (send n g processed).2
      = processed ++ n.representatives.map (fun kp =>
          (n.vote_generate kp.1 kp.2 (g.hashes.take (min 12 g.hashes.length)), n.endpoint)) := by
    simp only [send, send_loop_nil, hmin]
    exact foreach_representative_append n
      (fun pub_a prv_a => (n.vote_generate pub_a prv_a (g.hashes.take 12), n.endpoint)) processed
  refine ⟨key, ?_, ?_⟩
  · rw [key]; simp
  · intro h0
    refine ⟨?_, ?_⟩
    · rw [key, h0]; simp
    · simp only [send, send_loop_nil, hmind]

/-- Witness of C14: with the two representatives of the example node and 13 pending
hashes, a flush makes two calls over the first 12 hashes and leaves the 13th. -/
theorem send_forwards_votes_witness :
    send example_node (example_generator [1, 2, 3, 4, 5, 6, 7, 8, 9, 10, 11, 12, 13]) []
      = ({ wait := 100, hashes := [13], stopped := false, started := true },
          [((1, 101, [1, 2, 3, 4, 5, 6, 7, 8, 9, 10, 11, 12]), 7075),
           ((2, 102, [1, 2, 3, 4, 5, 6, 7, 8, 9, 10, 11, 12]), 7075)]) ∧
    (send example_node (example_generator [1, 2, 3, 4, 5, 6, 7, 8, 9, 10, 11, 12, 13])
      []).2.length = 0 + 2 :=
  ⟨by decide,
    (send_forwards_votes example_node
      (example_generator [1, 2, 3, 4, 5, 6, 7, 8, 9, 10, 11, 12, 13]) []).2.1⟩

/-- A worker whose stop flag is set leaves the loop at once. -/
theorem run_loop_stopped {vote : Type} (n : node vote) (w : worker vote)
    (h : w.generator.stopped = true) :
    ∀ schedule, run_loop n schedule w = (w, true) := by
  intro schedule
  cases schedule with
  | nil => simp [run_loop, h]
  | cons a t => obtain ⟨now, e⟩ := a; simp [run_loop, h]

/-- C20: a worker that finds the stop flag set when it evaluates the loop condition
leaves the loop whatever the rest of the schedule is, with the pending queue and the
calls made to the vote processor as they were: no further flush, the pending hashes
are not voted on. This is so after `stop ()`, and after an iteration during which
another thread called `stop ()`. -/
theorem stopped_worker_exits {vote : Type} (n : node vote) (w : worker vote) :
    (w.generator.stopped = true → ∀ schedule, run_loop n schedule w = (w, true)) ∧
    (∀ schedule, run_loop n schedule { w with generator := stop w.generator }
      = ({ w with generator := stop w.generator }, true)) ∧
    (stop w.generator).hashes = w.generator.hashes ∧
    (w.generator.stopped = false → ∀ now e schedule, e.stop = true →
      run_loop n ((now, e) :: schedule) w = (interfere e (run_iteration n w now).1, true)) := by
  refine ⟨fun h => run_loop_stopped n w h, ?_, rfl, ?_⟩
  · intro schedule
    exact run_loop_stopped n _ rfl schedule
  · intro h now e schedule he
    simp only [run_loop, h, Bool.false_eq_true, if_false]
    exact run_loop_stopped n _ (by simp [interfere, he]) schedule

/-- Witness of C20: a stopped worker with the partial batch `[1, 2, 3]` pending exits
with no call to the vote processor although the schedule would let the deadline elapse;
and after a flush of 12 hashes during which `stop ()` is called, the 13th hash stays
pending. -/
theorem stopped_worker_exits_witness :
    run_loop example_node [(0, ⟨[4], false⟩), (200, ⟨[], false⟩)]
        { generator := stop (example_generator [1, 2, 3]), cutoff := some 100,
          processed := [] }
      = ({ generator := stop (example_generator [1, 2, 3]), cutoff := some 100,
           processed := [] }, true) ∧
    (run_loop example_node [(0, ⟨[], true⟩), (200, ⟨[], false⟩), (400, ⟨[], false⟩)]
        { generator := example_generator [1, 2, 3, 4, 5, 6, 7, 8, 9, 10, 11, 12, 13],
          cutoff := none, processed := [] }).1.generator.hashes = [13] :=
  ⟨(stopped_worker_exits example_node
      { generator := stop (example_generator [1, 2, 3]), cutoff := some 100,
        processed := [] }).1 rfl _,
    by
      rw [(stopped_worker_exits example_node
        { generator := example_generator [1, 2, 3, 4, 5, 6, 7, 8, 9, 10, 11, 12, 13],
          cutoff := none, processed := [] }).2.2.2 rfl 0 ⟨[], true⟩ _ rfl]
      decide⟩

/-- One iteration of the loop of `run` moves the flushed batch, if any, from the front
of the queue to the vote processor and leaves every other queue entry in place. -/
theorem run_iteration_conserves {vote : Type} (n : node vote) (w : worker vote) (now : Nat) :
    (flushed (run_iteration n w now).2).flatten ++ (run_iteration n w now).1.generator.hashes
      = w.generator.hashes ∧
    (run_iteration n w now).1.processed
      = w.processed ++ (flushed (run_iteration n w now).2).flatMap (fun b =>
          n.representatives.map (fun kp => (n.vote_generate kp.1 kp.2 b, n.endpoint))) ∧
    (run_iteration n w now).1.generator.stopped = w.generator.stopped ∧
    (∀ b ∈ flushed (run_iteration n w now).2, b ≠ [] ∧ b.length ≤ 12) := by
  obtain ⟨g, cutoff, processed⟩ := w
  have hs1 := send_generator n g processed
  have hs2 := send_processed n g processed
  simp only [run_iteration]
  by_cases h12 : 12 ≤ g.hashes.length
  · simp only [ge_iff_le, h12, if_true, send_loop_nil, hs1, hs2]
    simp [flushed]
    intro h0; rw [h0] at h12; simp at h12
  · simp only [ge_iff_le, h12, if_false]
    cases cutoff with
    | none => simp [flushed]
    | some c =>
      by_cases hnow : now < c
      · simp [hnow, flushed]
      · cases hq : g.hashes with
        | nil => simp [hnow, flushed, hq]
        | cons a t =>
          rw [hq] at hs1 hs2
          simp only [hnow, if_false, send_loop_nil, hs1, hs2]
          simp [flushed]

/-- The calls of `add` made while the lock is released append to the queue in the order
in which they acquire the lock. -/
theorem interfere_hashes {vote : Type} (e : interference) (w : worker vote) :
    (interfere e w).generator.hashes = (e.added.foldl add w.generator).hashes ∧
    (interfere e w).generator.hashes = w.generator.hashes ++ e.added ∧
    (interfere e w).processed = w.processed := by
  have key : ∀ (l : List block_hash) (g : vote_generator),
      (l.foldl add g).hashes = g.hashes ++ l := by
    intro l
    induction l with
    | nil => intro g; simp
    | cons a t ih => intro g; simp [ih, add]
  exact ⟨by rw [key]; rfl, rfl, rfl⟩

/-- Along every schedule the batches flushed so far followed by the pending queue are the
initial queue followed by the hashes added, in the order of the `add` calls; the vote
processor has received the votes over exactly these batches. -/
theorem run_loop_conserves {vote : Type} (n : node vote) :
    ∀ (schedule : List (Nat × interference)) (w : worker vote),
      (run_batches n schedule w).flatten ++ (run_loop n schedule w).1.generator.hashes
        = w.generator.hashes ++ run_added n schedule w ∧
      (run_loop n schedule w).1.processed
        = w.processed ++ (run_batches n schedule w).flatMap (fun b =>
            n.representatives.map (fun kp => (n.vote_generate kp.1 kp.2 b, n.endpoint))) ∧
      (∀ b ∈ run_batches n schedule w, b ≠ [] ∧ b.length ≤ 12) := by
  intro schedule
  induction schedule with
  | nil => intro w; simp [run_batches, run_loop, run_added]
  | cons s schedule ih =>
    intro w
    obtain ⟨now, e⟩ := s
    by_cases hst : w.generator.stopped = true
    · simp [run_batches, run_loop, run_added, hst]
    · obtain ⟨h1, h2, h3⟩ := ih (interfere e (run_iteration n w now).1)
      obtain ⟨c1, c2, -, c4⟩ := run_iteration_conserves n w now
      obtain ⟨-, i2, i3⟩ := interfere_hashes e (run_iteration n w now).1
      simp only [run_batches, run_loop, run_added, hst, if_false, Bool.false_eq_true]
      refine ⟨?_, ?_, ?_⟩
      · rw [List.flatten_append, List.append_assoc, h1, i2, ← List.append_assoc,
          ← List.append_assoc, c1, List.append_assoc]
      · rw [h2, i3, c2, List.flatMap_append, List.append_assoc]
      · intro b hb
        rcases List.mem_append.mp hb with hb | hb
        · exact c4 b hb
        · exact h3 b hb

/-- C15: with the worker running the loop of `run` while other threads call `add` (and
possibly `stop`) whenever the worker has released the lock, in any number and any
interleaving, every `add` appends at the back of the queue in the order in which the
calls acquire the lock, and at every point of every schedule the batches handed to the
vote processor so far, in order, followed by the pending queue, are the initial queue
followed by the added hashes in the order of the `add` calls. So the delivered hashes are
an initial segment of that sequence, the calls of any one producer (a subsequence of the
sequence of all `add` calls) keep their order, the votes the vote processor has received
are those over exactly these batches, and every queue entry belongs to one batch only:
where the hashes queued are pairwise different, the batches are pairwise disjoint. -/
theorem concurrent_add_fifo {vote : Type} (n : node vote)
    (schedule : List (Nat × interference)) (w : worker vote) :
    (∀ (e : interference) (u : worker vote),
      (interfere e u).generator.hashes = (e.added.foldl add u.generator).hashes) ∧
    (run_batches n schedule w).flatten ++ (run_loop n schedule w).1.generator.hashes
      = w.generator.hashes ++ run_added n schedule w ∧
    (run_batches n schedule w).flatten <+: w.generator.hashes ++ run_added n schedule w ∧
    (∀ calls : List block_hash, calls.Sublist (run_added n schedule w) →
      calls.Sublist
        ((run_batches n schedule w).flatten ++ (run_loop n schedule w).1.generator.hashes)) ∧
    (run_loop n schedule w).1.processed
      = w.processed ++ (run_batches n schedule w).flatMap (fun b =>
          n.representatives.map (fun kp => (n.vote_generate kp.1 kp.2 b, n.endpoint))) ∧
    ((w.generator.hashes ++ run_added n schedule w).Nodup →
      (run_batches n schedule w).Pairwise List.Disjoint ∧
      (∀ b ∈ run_batches n schedule w, b.Nodup) ∧
      ∀ x ∈ (run_loop n schedule w).1.generator.hashes,
        ∀ b ∈ run_batches n schedule w, x ∉ b) := by
  obtain ⟨h1, h2, -⟩ := run_loop_conserves n schedule w
  refine ⟨fun e u => (interfere_hashes e u).1, h1, ⟨_, h1⟩, ?_, h2, ?_⟩
  · intro calls hc
    rw [h1]
    exact hc.trans (List.sublist_append_right _ _)
  · intro hnd
    rw [← h1, List.nodup_append, List.nodup_flatten] at hnd
    obtain ⟨⟨hb, hp⟩, -, hd⟩ := hnd
    refine ⟨hp, hb, ?_⟩
    intro x hx b hb hxb
    exact hd (List.mem_flatten.mpr ⟨b, hb, hxb⟩) hx

/-- Witness of C15 on the example schedule: the batches are `[1, 2, 3, 4]` and
`[5, 6, 7]`, the hash 8 is still pending, each producer's hashes are delivered in its
call order, and the two batches are disjoint. -/
theorem concurrent_add_fifo_witness :
    run_batches example_node example_schedule example_worker = [[1, 2, 3, 4], [5, 6, 7]] ∧
    (run_loop example_node example_schedule example_worker).1.generator.hashes = [8] ∧
    run_added example_node example_schedule example_worker = [3, 4, 5, 6, 7, 8] ∧
    (run_batches example_node example_schedule example_worker).flatten
        ++ (run_loop example_node example_schedule example_worker).1.generator.hashes
      = example_worker.generator.hashes
        ++ run_added example_node example_schedule example_worker ∧
    [3, 5, 7].Sublist
      ((run_batches example_node example_schedule example_worker).flatten
        ++ (run_loop example_node example_schedule example_worker).1.generator.hashes) ∧
    [4, 6, 8].Sublist
      ((run_batches example_node example_schedule example_worker).flatten
        ++ (run_loop example_node example_schedule example_worker).1.generator.hashes) ∧
    (run_batches example_node example_schedule example_worker).Pairwise List.Disjoint :=
  ⟨by decide, by decide, by decide,
    (concurrent_add_fifo example_node example_schedule example_worker).2.1,
    (concurrent_add_fifo example_node example_schedule example_worker).2.2.2.1 [3, 5, 7]
      (by decide),
    (concurrent_add_fifo example_node example_schedule example_worker).2.2.2.1 [4, 6, 8]
      (by decide),
    ((concurrent_add_fifo example_node example_schedule example_worker).2.2.2.2.2
      (by decide)).1⟩

end vote_generator
end btcb
